import Mathlib

/-!
# ftab: a shallow embedding of `ftab.c`

The table of `ftab.c` is a row-major buffer of `float` cells with a row count, a
column count, a capacity and an optional array of column names.

Conventions of the embedding.

* Cells are values of an arbitrary type `α`; the code only copies them, compares their
  bytes (`memcmp`), orders them (`ftab_sort_pair_cmp`), renders them (`printf("%f")`) and
  parses them (`atof`).  The two C library conversions are the parameters `fmt` and `atof`,
  and the C library function `qsort` is a parameter of `ftab_sort`.
* A heap block is the list of its cells.  Every access is bounds checked: an access outside
  the block, or through a null pointer, is undefined behaviour in C and is the fault
  `memory_fault` here.  A failed `assert` and a call of `exit` are faults too.
* The allocator never fails, and a request for zero cells returns a valid empty block.
* `size_t` and `int` values are natural numbers and integers; wrap-around of the 64-bit and
  32-bit types is not modelled (it needs tables beyond any addressable memory).
* A C string is the list of its characters before the terminating NUL.  A file is the list
  of its characters; a line read from it is cut at its first NUL when it is used as a
  string.
* A null pointer to a table, to a names array or to a name is `none`.
-/

namespace Ftab

/-- Ways in which a call ends without returning to its caller. -/
inductive Fault where
  | assert_failed
  | exit_failure
  | memory_fault
deriving DecidableEq

/-- Equality of results is decidable, so that a call can be evaluated on a concrete input. -/
instance instDecidableEqExcept {ε β : Type} [DecidableEq ε] [DecidableEq β] :
    DecidableEq (Except ε β) := fun a b =>
  match a, b with
  | .ok x, .ok y =>
    if h : x = y then isTrue (by rw [h]) else isFalse (fun h1 => h (by cases h1; rfl))
  | .error x, .error y =>
    if h : x = y then isTrue (by rw [h]) else isFalse (fun h1 => h (by cases h1; rfl))
  | .ok _, .error _ => isFalse (fun h1 => by cases h1)
  | .error _, .ok _ => isFalse (fun h1 => by cases h1)

/-- The record `ftab_t`: buffer `T`, `nrow`, `ncol`, `nrow_alloc`, and `colnames`, which is
either a null pointer or an array of nullable strings. -/
structure ftab_t (α : Type) where
  T : List α
  nrow : Nat
  ncol : Nat
  nrow_alloc : Nat
  colnames : Option (List (Option (List Char)))
deriving DecidableEq

/-! ## Memory -/

/-- A zero-filled block of `n` cells, as returned by `calloc(n, sizeof(float))`. -/
def calloc {α : Type} [Zero α] (n : Nat) : List α :=
  List.replicate n 0

/-- The block `realloc(p, n * sizeof(float))`: the old cells up to the new size are kept; the
cells added by a growth are indeterminate in C and are zero here. -/
def realloc {α : Type} [Zero α] (p : List α) (n : Nat) : List α :=
  p.take n ++ List.replicate (n - p.length) 0

/-- Read of the cell `p[i]`. -/
def load {α : Type} (p : List α) (i : Int) : Except Fault α :=
  if i < 0 then .error .memory_fault
  else
    match p.get? i.toNat with
    | some v => .ok v
    | none => .error .memory_fault

/-- Write `p[i] = v`. -/
def store {α : Type} (p : List α) (i : Nat) (v : α) : Except Fault (List α) :=
  if i < p.length then .ok (p.set i v) else .error .memory_fault

/-- The call `memcpy(dst + doff, src + soff, n * sizeof(float))`; the result is the new
content of the block `dst`. -/
def memcpy {α : Type} (dst : List α) (doff : Nat) (src : List α) (soff n : Nat) :
    Except Fault (List α) :=
  if soff + n ≤ src.length ∧ doff + n ≤ dst.length then
    .ok (dst.take doff ++ (src.drop soff).take n ++ dst.drop (doff + n))
  else .error .memory_fault

/-! ## Capacity growth

`T->nrow_alloc += T->nrow_alloc*0.69` is evaluated in `double`: the capacity is converted to
`double`, multiplied by the `double` nearest to 0.69, added to the converted capacity, and
the sum is truncated towards zero when it is stored back.  Every step rounds to the nearest
`double`, ties to even (IEEE 754 binary64). -/

/-- The number of low bits that do not fit a 53-bit significand: the least `s` with
`n / 2 ^ s < 2 ^ 53` (the first argument bounds the search and is never exhausted at `n`). -/
def rne_shift : Nat → Nat → Nat
  | 0, _ => 0
  | f + 1, n => if n < 2 ^ 53 then 0 else rne_shift f (n / 2) + 1

/-- The natural number `n` rounded to the nearest number with a 53-bit significand, ties to
even.  Since a `double` with numerator `n` over a fixed power of two rounds to the rounded
numerator over the same power, this is rounding to `double` on numerators. -/
def rne53 (n : Nat) : Nat :=
  let s := rne_shift n n
  let q := n / 2 ^ s
  let r := n % 2 ^ s
  if 2 * r < 2 ^ s then q * 2 ^ s
  else if 2 ^ s < 2 * r then (q + 1) * 2 ^ s
  else if q % 2 = 0 then q * 2 ^ s
  else (q + 1) * 2 ^ s

/-- The value stored by `T->nrow_alloc += T->nrow_alloc*0.69` for the old capacity `c`.
The `double` nearest to 0.69 is `6214967485771284 / 2 ^ 53`. -/
def grow_nrow_alloc (c : Nat) : Nat :=
  let cd := rne53 c
  let p := rne53 (cd * 6214967485771284)
  let s := rne53 (cd * 2 ^ 53 + p)
  s / 2 ^ 53

/-! ## Construction and insertion -/

/-- The function `ftab_new`; `none` is the null pointer. -/
def ftab_new {α : Type} [Zero α] (ncol : Int) : Option (ftab_t α) :=
  if ncol < 1 then none
  else
    some
      { nrow := 0
        ncol := ncol.toNat
        nrow_alloc := 1024
        T := calloc (ncol.toNat * 1024)
        colnames := none }

/-- The function `ftab_insert`; `row` is the block the argument points to. -/
def ftab_insert {α : Type} [Zero α] (T : ftab_t α) (row : List α) : Except Fault (ftab_t α) :=
  let T1 :=
    if T.nrow = T.nrow_alloc then
      let na := grow_nrow_alloc T.nrow_alloc
      { T with nrow_alloc := na, T := realloc T.T (na * T.ncol) }
    else T
  match memcpy T1.T (T1.ncol * T1.nrow) row 0 T1.ncol with
  | .error e => .error e
  | .ok buf => .ok { T1 with T := buf, nrow := T1.nrow + 1 }

/-- Successive calls of `ftab_insert`, one per row, in order. -/
def insert_rows {α : Type} [Zero α] : ftab_t α → List (List α) → Except Fault (ftab_t α)
  | T, [] => .ok T
  | T, r :: rs =>
    match ftab_insert T r with
    | .error e => .error e
    | .ok T1 => insert_rows T1 rs

/-- A counted loop `for (kk = k0; kk < k0 + n; kk++) body`, threading the state `s`; a
fault in the body ends the loop. -/
def for_loop {σ : Type} (body : Nat → σ → Except Fault σ) : Nat → Nat → σ → Except Fault σ
  | 0, _, s => .ok s
  | n + 1, kk, s =>
    match body kk s with
    | .error e => .error e
    | .ok s1 => for_loop body n (kk + 1) s1

/-! ## Column names -/

/-- Read of `colnames[kk]` through the pointer `colnames`, which may be null; the entry read
may itself be a null pointer. -/
def colname_at (colnames : Option (List (Option (List Char)))) (kk : Nat) :
    Except Fault (Option (List Char)) :=
  match colnames with
  | none => .error .memory_fault
  | some names =>
    match names.get? kk with
    | some e => .ok e
    | none => .error .memory_fault

/-- The function `ftab_set_colname`; `name` is a nullable pointer. -/
def ftab_set_colname {α : Type} (T : ftab_t α) (col : Int) (name : Option (List Char)) :
    Except Fault (ftab_t α) :=
  match name with
  | none => .error .assert_failed
  | some s =>
    if col < 0 ∨ col ≥ (T.ncol : Int) then .ok T
    else
      let names :=
        match T.colnames with
        | none => List.replicate T.ncol none
        | some names => names
      if col.toNat < names.length then
        .ok { T with colnames := some (names.set col.toNat (some s)) }
      else .error .memory_fault

/-! ## Copy and comparison -/

/-- The body of the name loop of `ftab_copy`: `T->colnames[kk]` is read and, when it is not
null, duplicated into entry `kk` of the new array. -/
def ftab_copy_name {α : Type} (T : ftab_t α) (kk : Nat) (names : List (Option (List Char))) :
    Except Fault (List (Option (List Char))) :=
  match colname_at T.colnames kk with
  | .error e => .error e
  | .ok none => .ok names
  | .ok (some s) => .ok (names.set kk (some s))

/-- The function `ftab_copy`. -/
def ftab_copy {α : Type} [Zero α] (T : ftab_t α) : Except Fault (Option (ftab_t α)) :=
  let C : ftab_t α :=
    { nrow := T.nrow
      ncol := T.ncol
      nrow_alloc := T.nrow
      T := calloc (T.nrow * T.ncol)
      colnames := none }
  match memcpy C.T 0 T.T 0 (C.nrow * C.ncol) with
  | .error e => .error e
  | .ok buf =>
    match T.colnames with
    | none => .ok (some { C with T := buf })
    | some _ =>
      match for_loop (ftab_copy_name T) C.ncol 0 (List.replicate C.ncol none) with
      | .error e => .error e
      | .ok names => .ok (some { C with T := buf, colnames := some names })

/-- The function `strcmp` on two strings; both pointers must not be null. -/
def strcmp : List Char → List Char → Int
  | [], [] => 0
  | [], _ :: _ => -1
  | _ :: _, [] => 1
  | a :: as, b :: bs => if a = b then strcmp as bs else if a.toNat < b.toNat then -1 else 1

/-- The call `memcmp(a, b, n * sizeof(float))`.  The result is 0 exactly when the two
ranges hold the same cells; the sign of a non-zero result depends on the bytes of a `float`
and every non-zero result is 1 here. -/
def memcmp {α : Type} [DecidableEq α] (a b : List α) (n : Nat) : Except Fault Int :=
  if n ≤ a.length ∧ n ≤ b.length then .ok (if a.take n = b.take n then 0 else 1)
  else .error .memory_fault

/-- The body of the name loop of `ftab_compare`, on the flag `equal_colnames`:
`if(strcmp(A->colnames[kk], A->colnames[kk])) equal_colnames = 0`, both arguments read from
`A`.  A null entry is dereferenced by `strcmp`. -/
def ftab_compare_name {α : Type} (A : ftab_t α) (kk : Nat) (equal_colnames : Int) :
    Except Fault Int :=
  match colname_at A.colnames kk with
  | .error f => .error f
  | .ok none => .error .memory_fault
  | .ok (some s) => .ok (if strcmp s s ≠ 0 then 0 else equal_colnames)

/-- The function `ftab_compare`; the arguments are nullable pointers. -/
def ftab_compare {α : Type} [DecidableEq α] (A B : Option (ftab_t α)) : Except Fault Int :=
  match A with
  | none => .ok 1
  | some A =>
    match B with
    | none => .ok 1
    | some B =>
      if A.ncol ≠ B.ncol then .ok 1
      else if A.nrow ≠ B.nrow then .ok 1
      else
        let e0 : Int := 1
        let e1 : Int := if A.colnames.isNone then (if B.colnames.isSome then 0 else e0) else e0
        let e2 : Int := if B.colnames.isNone then (if A.colnames.isSome then 0 else e1) else e1
        let e3 : Except Fault Int :=
          if A.colnames.isSome ∧ B.colnames.isSome then
            for_loop (ftab_compare_name A) A.ncol 0 e2
          else .ok e2
        match e3 with
        | .error f => .error f
        | .ok equal_colnames =>
          if equal_colnames = 0 then .ok 1
          else if A.nrow = 0 ∨ A.nrow = 0 then .ok 0
          else memcmp A.T B.T (A.ncol * A.nrow)

/-! ## Concatenation -/

/-- The body of a name loop of `ftab_concatenate_columns`:
`ftab_set_colname(T, kk + shift, S->colnames[kk])`; the array `S->colnames` is read without
a null check. -/
def concatenate_columns_name {α : Type} (S : ftab_t α) (shift : Nat) (kk : Nat)
    (T : ftab_t α) : Except Fault (ftab_t α) :=
  match colname_at S.colnames kk with
  | .error e => .error e
  | .ok name => ftab_set_colname T ((kk + shift : Nat) : Int) name

/-- The body of an inner data loop of `ftab_concatenate_columns`:
`T->T[kk*ncol + ll + shift] = S->T[kk*S->ncol + ll]`. -/
def concatenate_columns_cell {α : Type} (S : ftab_t α) (ncol shift : Nat) (kk ll : Nat)
    (buf : List α) : Except Fault (List α) :=
  match load S.T ((kk * S.ncol + ll : Nat) : Int) with
  | .error e => .error e
  | .ok v => store buf (kk * ncol + ll + shift) v

/-- The function `ftab_concatenate_columns`. -/
def ftab_concatenate_columns {α : Type} [Zero α] (L R : ftab_t α) :
    Except Fault (Option (ftab_t α)) :=
  if L.nrow ≠ R.nrow then .ok none
  else
    let nrow := L.nrow
    let ncol := L.ncol + R.ncol
    match (ftab_new (ncol : Int) : Option (ftab_t α)) with
    | none => .error .assert_failed
    | some T0 =>
      match for_loop (concatenate_columns_name L 0) L.ncol 0 T0 with
      | .error e => .error e
      | .ok T1 =>
        match for_loop (concatenate_columns_name R L.ncol) R.ncol 0 T1 with
        | .error e => .error e
        | .ok T2 =>
          let T3 : ftab_t α :=
            { T2 with T := calloc (nrow * ncol), ncol := ncol, nrow := nrow, nrow_alloc := nrow }
          match for_loop (fun kk buf => for_loop (concatenate_columns_cell L ncol 0 kk) L.ncol 0 buf)
              L.nrow 0 T3.T with
          | .error e => .error e
          | .ok bufL =>
            match for_loop
                (fun kk buf => for_loop (concatenate_columns_cell R ncol L.ncol kk) R.ncol 0 buf)
                R.nrow 0 bufL with
            | .error e => .error e
            | .ok bufR => .ok (some { T3 with T := bufR })

/-- The function `ftab_concatenate_rows`; the arguments are nullable pointers. -/
def ftab_concatenate_rows {α : Type} [Zero α] (Top Down : Option (ftab_t α)) :
    Except Fault (Option (ftab_t α)) :=
  match Top, Down with
  | none, none => .ok none
  | none, some D => ftab_copy D
  | some Tp, none => ftab_copy Tp
  | some Tp, some D =>
    if Tp.ncol ≠ D.ncol then .ok none
    else
      let concat : ftab_t α :=
        { ncol := Tp.ncol
          nrow := Tp.nrow + D.nrow
          nrow_alloc := Tp.nrow + D.nrow
          T := calloc ((Tp.nrow + D.nrow) * Tp.ncol)
          colnames := none }
      match memcpy concat.T 0 Tp.T 0 (Tp.nrow * Tp.ncol) with
      | .error e => .error e
      | .ok b1 =>
        match memcpy b1 (Tp.nrow * Tp.ncol) D.T 0 (D.nrow * D.ncol) with
        | .error e => .error e
        | .ok b2 => .ok (some { concat with T := b2 })

/-! ## Row selection -/

/-- The body of the loop of `ftab_subselect_rows`, on the buffer and the counter `nsel`. -/
def subselect_row {α : Type} (ncol : Nat) (selection : List Nat) (kk : Nat)
    (st : List α × Nat) : Except Fault (List α × Nat) :=
  match load selection (kk : Int) with
  | .error e => .error e
  | .ok sel =>
    if sel > 0 then
      if kk ≠ st.2 then
        match memcpy st.1 (st.2 * ncol) st.1 (kk * ncol) ncol with
        | .error e => .error e
        | .ok buf => .ok (buf, st.2 + 1)
      else .ok (st.1, st.2 + 1)
    else .ok st

/-- The function `ftab_subselect_rows`; `selection` is the block of bytes the argument
points to. -/
def ftab_subselect_rows {α : Type} (tab : ftab_t α) (selection : List Nat) :
    Except Fault (ftab_t α) :=
  match for_loop (subselect_row tab.ncol selection) tab.nrow 0 (tab.T, 0) with
  | .error e => .error e
  | .ok st => .ok { tab with T := st.1, nrow := st.2 }

/-! ## Sorting -/

/-- The record `ftab_sort_pair`. -/
structure ftab_sort_pair (α : Type) where
  value : α
  idx : Nat
deriving DecidableEq

/-- The comparison function `ftab_sort_pair_cmp`, for cells that are totally ordered. -/
def ftab_sort_pair_cmp {α : Type} [LinearOrder α] (A B : ftab_sort_pair α) : Int :=
  if A.value = B.value then 0
  else if A.value < B.value then 1
  else -1

/-- The body of the first loop of `ftab_sort`:
`P[kk].idx = kk; P[kk].value = T->T[kk*T->ncol + col]`. -/
def ftab_sort_fill {α : Type} (T : ftab_t α) (col : Int) (kk : Nat)
    (P : List (ftab_sort_pair α)) : Except Fault (List (ftab_sort_pair α)) :=
  match load T.T ((kk * T.ncol : Nat) + col) with
  | .error e => .error e
  | .ok v => store P kk { value := v, idx := kk }

/-- The body of the second loop of `ftab_sort`: row `P[kk].idx` of the old buffer is copied
to row `kk` of the new buffer `T2`. -/
def ftab_sort_move {α : Type} (T : ftab_t α) (P : List (ftab_sort_pair α)) (kk : Nat)
    (T2 : List α) : Except Fault (List α) :=
  match P.get? kk with
  | none => .error .memory_fault
  | some p => memcpy T2 (kk * T.ncol) T.T (p.idx * T.ncol) T.ncol

/-- The function `ftab_sort`.  The C library function `qsort` is the parameter `qsort`: it
receives the comparison function and the array `P` and returns the array it leaves. -/
def ftab_sort {α : Type} [Zero α] [LinearOrder α]
    (qsort : (ftab_sort_pair α → ftab_sort_pair α → Int) → List (ftab_sort_pair α) →
      List (ftab_sort_pair α))
    (T : ftab_t α) (col : Int) : Except Fault (ftab_t α) :=
  if col = -1 then .error .exit_failure
  else
    match for_loop (ftab_sort_fill T col) T.nrow 0
        (List.replicate T.nrow { value := 0, idx := 0 }) with
    | .error e => .error e
    | .ok P0 =>
      let P := qsort ftab_sort_pair_cmp P0
      match for_loop (ftab_sort_move T P) T.nrow 0 (calloc (T.ncol * T.nrow_alloc)) with
      | .error e => .error e
      | .ok T2 => .ok { T with T := T2 }

/-! ## Views of a table used to state properties -/

/-- The `n` cells of row `i` in a row-major block of rows of `n` cells. -/
def row_of {α : Type} (n : Nat) (buf : List α) (i : Nat) : List α :=
  (buf.drop (i * n)).take n

/-- The cells of row `i` of the buffer. -/
def ftab_t.row {α : Type} (T : ftab_t α) (i : Nat) : List α :=
  row_of T.ncol T.T i

/-- The valid rows of the table, in order. -/
def ftab_t.rows {α : Type} (T : ftab_t α) : List (List α) :=
  (List.range T.nrow).map T.row

/-- The valid cells: the first `nrow * ncol` cells of the buffer. -/
def ftab_t.cells {α : Type} (T : ftab_t α) : List α :=
  T.T.take (T.nrow * T.ncol)

/-- Names are either not allocated or assigned on every column. -/
def ftab_t.names_all_or_none {α : Type} (T : ftab_t α) : Prop :=
  T.colnames = none ∨
    ∃ names : List (List Char), names.length = T.ncol ∧ T.colnames = some (names.map some)

/-! ## Loop states and reference values used in the proofs -/

/-- The state reached after the rows `rs` have been inserted into a table of `n` columns
that was created by `ftab_new`. -/
def inserted {α : Type} (n : Nat) (T : ftab_t α) (rs : List (List α)) : Prop :=
  T.ncol = n ∧ T.T.length = T.nrow_alloc * n ∧ T.nrow ≤ T.nrow_alloc ∧ 2 ≤ T.nrow_alloc ∧
    T.nrow = rs.length ∧ T.T.take (T.nrow * n) = rs.flatten ∧ T.colnames = none

/-- The indices below `k` whose mask entry is nonzero, in increasing order. -/
def kept (mask : List Nat) (k : Nat) : List Nat :=
  (List.range k).filter (fun i => decide (0 < mask[i]?.getD 0))

/-- The loop state of `ftab_subselect_rows` after the rows below `k` have been visited. -/
def subselected {α : Type} (n : Nat) (orig : List α) (mask : List Nat) (k : Nat)
    (st : List α × Nat) : Prop :=
  st.2 = (kept mask k).length ∧ st.1.length = orig.length ∧
    st.1.take (st.2 * n) = ((kept mask k).map (row_of n orig)).flatten ∧
    st.1.drop (k * n) = orig.drop (k * n)

/-- The pair that the first loop of `ftab_sort` stores in `P[kk]`. -/
def sort_pair_of {α : Type} [Zero α] (T : ftab_t α) (c : Nat) (kk : Nat) : ftab_sort_pair α :=
  { value := (T.T[kk * T.ncol + c]?).getD 0, idx := kk }

/-- An instance of `qsort`: insertion sort by the comparison function. -/
def insertion_qsort {β : Type} (cmp : β → β → Int) (l : List β) : List β :=
  l.insertionSort (fun a b => cmp a b ≤ 0)

/-! ## Strings and lines -/

/-- The C string held in a character buffer: the characters before the first NUL. -/
def cstr (buf : List Char) : List Char :=
  buf.takeWhile (fun c => c != Char.ofNat 0)

/-- The scan of `strsep` over a non-null string: the token before the first character that
occurs in `delim`, and the rest after that character (`none`, the null pointer, when no
such character occurs). -/
def strsep_scan (delim : List Char) : List Char → List Char × Option (List Char)
  | [] => ([], none)
  | c :: cs =>
    if c ∈ delim then ([], some cs)
    else ((strsep_scan delim cs).1.cons c, (strsep_scan delim cs).2)

/-- The C library function `strsep(&sp, delim)` (the build without `WINDOWS`): the returned
token and the new value of `sp`. -/
def strsep (sp : Option (List Char)) (delim : List Char) :
    Option (List Char) × Option (List Char) :=
  match sp with
  | none => (none, none)
  | some s => (some (strsep_scan delim s).1, (strsep_scan delim s).2)

/-- The first loop of `trim_whitespace`: the value of `first`, the number of leading
space characters. -/
def trim_first : List Char → Nat
  | [] => 0
  | c :: cs => if c = ' ' then trim_first cs + 1 else 0

/-- The second loop of `trim_whitespace`, started with `last` equal to the argument (the
pointer `end` is at index `last - 1`): it runs while `end >= start` and the character at
`end` is a space, a newline or a carriage return, and yields the final `last`. -/
def trim_last (str : List Char) (first : Nat) : Nat → Nat
  | 0 => 0
  | last + 1 =>
    if first ≤ last then
      match str.get? last with
      | some c => if c = ' ' ∨ c = '\n' ∨ c = '\r' then trim_last str first last else last + 1
      | none => last + 1
    else last + 1

/-- The function `trim_whitespace`: the new content of the string.  The copy loop moves
the characters at the indices `first .. last - 1` to the front, in order. -/
def trim_whitespace (str : List Char) : List Char :=
  let n := str.length
  if n = 0 then str
  else
    let first := trim_first str
    let last := trim_last str first n
    (str.drop first).take (last - first)

/-- The body of the name loop of `parse_col_names`, on the pointer `line` and the array
`T->colnames`: `token = strsep(&line, dlm)`, `colnames[kk] = strdup(token)`, then
`trim_whitespace(colnames[kk])`.  A null token is dereferenced by `strdup`. -/
def parse_col_names_token (dlm : List Char) (kk : Nat)
    (st : Option (List Char) × List (Option (List Char))) :
    Except Fault (Option (List Char) × List (Option (List Char))) :=
  match strsep st.1 dlm with
  | (none, _) => .error .memory_fault
  | (some token, line1) =>
    if kk < st.2.length then .ok (line1, st.2.set kk (some (trim_whitespace token)))
    else .error .memory_fault

/-- The function `parse_col_names`: the updated table and the returned count.  `dlm[0]` is
the first character of `dlm`, or the terminating NUL, which no character of the line
equals, when `dlm` is empty. -/
def parse_col_names {α : Type} (T : ftab_t α) (line : List Char) (dlm : List Char) :
    Except Fault (ftab_t α × Nat) :=
  if line.length = 0 then .ok (T, 0)
  else
    let ncol := 1 + line.countP (fun c => decide (some c = dlm.head?))
    match for_loop (parse_col_names_token dlm) ncol 0 (some line, List.replicate ncol none) with
    | .error e => .error e
    | .ok st => .ok ({ T with ncol := ncol, colnames := some st.2 }, ncol)

/-- The loop `for(int kk = 1; kk<nval; kk++)` of `parse_floats` with `n` iterations left;
`row` points to the cell `off` of the block `buf`. -/
def parse_floats_loop {α : Type} (atof : List Char → α) (dlm : List Char) (off : Nat) :
    Nat → Nat → Option (List Char) → List α → Except Fault (List α × Nat)
  | 0, _, _, buf => .ok (buf, 1)
  | n + 1, kk, l, buf =>
    match strsep l dlm with
    | (none, _) => .ok (buf, 0)
    | (some f, l1) =>
      match store buf (off + kk) (atof f) with
      | .error e => .error e
      | .ok buf1 => parse_floats_loop atof dlm off n (kk + 1) l1 buf1

/-- The function `parse_floats`: the new content of the block that holds the row, and the
returned flag (0 or 1). -/
def parse_floats {α : Type} (atof : List Char → α) (l : List Char) (buf : List α) (off : Nat)
    (nval : Nat) (dlm : List Char) : Except Fault (List α × Nat) :=
  match strsep (some l) dlm with
  | (none, _) => .ok (buf, 0)
  | (some f, l1) =>
    match store buf off (atof f) with
    | .error e => .error e
    | .ok buf1 => parse_floats_loop atof dlm off (nval - 1) 1 l1 buf1

/-- The successive buffers that `getline` returns on a stream with the given content, up to
the end of the file: each holds the characters up to and including the next newline. -/
def getlines : List Char → List (List Char)
  | [] => []
  | c :: cs =>
    if c = '\n' then [c] :: getlines cs
    else
      match getlines cs with
      | [] => [[c]]
      | l :: ls => (c :: l) :: ls

/-- The function `count_newlines` on a file with the given content. -/
def count_newlines (text : List Char) : Nat :=
  text.count '\n'

/-- The loop `while(getline(&line, &len, fid) > 0)` of `ftab_from_dlm` over the remaining
lines, on the buffer `T->T` and the counter `row`. -/
def read_rows {α : Type} (atof : List Char → α) (dlm : List Char) (ncol : Nat) :
    List (List Char) → List α → Nat → Except Fault (List α × Nat)
  | [], buf, row => .ok (buf, row)
  | line :: rest, buf, row =>
    if (cstr line).length = 0 then read_rows atof dlm ncol rest buf row
    else
      match parse_floats atof (cstr line) buf (row * ncol) ncol dlm with
      | .error e => .error e
      | .ok r => read_rows atof dlm ncol rest r.1 (row + r.2)

/-- The function `ftab_from_dlm` on a file with the given content; `none` for the file is a
path that `fopen` cannot open, `none` for the result is the null pointer. -/
def ftab_from_dlm {α : Type} [Zero α] (atof : List Char → α) (file : Option (List Char))
    (dlm : List Char) : Except Fault (Option (ftab_t α)) :=
  match file with
  | none => .ok none
  | some text =>
    match getlines text with
    | [] => .ok none
    | line :: rest =>
      match parse_col_names (⟨[], 0, 0, 0, none⟩ : ftab_t α) (cstr line) dlm with
      | .error e => .error e
      | .ok r =>
        let ncols := r.2
        let nrows := count_newlines text + 1
        match read_rows atof dlm ncols rest (calloc (nrows * ncols)) 0 with
        | .error e => .error e
        | .ok s =>
          .ok (some { r.1 with T := s.1, ncol := ncols, nrow_alloc := nrows, nrow := s.2 })

/-- The function `ftab_from_csv`. -/
def ftab_from_csv {α : Type} [Zero α] (atof : List Char → α) (file : Option (List Char)) :
    Except Fault (Option (ftab_t α)) :=
  ftab_from_dlm atof file [',']

/-- The function `ftab_from_tsv`. -/
def ftab_from_tsv {α : Type} [Zero α] (atof : List Char → α) (file : Option (List Char)) :
    Except Fault (Option (ftab_t α)) :=
  ftab_from_dlm atof file ['\t']

/-! ## Writing -/

/-- The body of the header loop of `ftab_print`, on the text written so far. -/
def ftab_print_name {α : Type} (T : ftab_t α) (sep : List Char) (cc : Nat) (out : List Char) :
    Except Fault (List Char) :=
  let entry : Except Fault (Option (List Char)) :=
    match T.colnames with
    | none => .ok none
    | some _ => colname_at T.colnames cc
  match entry with
  | .error e => .error e
  | .ok name =>
    let out1 :=
      match name with
      | some s => out ++ s
      | none => out ++ ['c', 'o', 'l', '_'] ++ Nat.toDigits 10 (cc + 1)
    .ok (if cc + 1 ≠ T.ncol then out1 ++ sep else out1)

/-- The body of the inner row loop of `ftab_print`; `fmt` is the rendering of a cell by
`fprintf(fid, "%f", ...)`. -/
def ftab_print_cell {α : Type} (fmt : α → List Char) (T : ftab_t α) (sep : List Char)
    (rr cc : Nat) (out : List Char) : Except Fault (List Char) :=
  match load T.T ((rr * T.ncol + cc : Nat) : Int) with
  | .error e => .error e
  | .ok v => .ok (if cc + 1 ≠ T.ncol then out ++ fmt v ++ sep else out ++ fmt v)

/-- The body of the outer row loop of `ftab_print`. -/
def ftab_print_row {α : Type} (fmt : α → List Char) (T : ftab_t α) (sep : List Char)
    (rr : Nat) (out : List Char) : Except Fault (List Char) :=
  match for_loop (ftab_print_cell fmt T sep rr) T.ncol 0 out with
  | .error e => .error e
  | .ok out1 => .ok (out1 ++ ['\n'])

/-- The function `ftab_print`: the text written to the stream. -/
def ftab_print {α : Type} (fmt : α → List Char) (T : ftab_t α) (sep : List Char) :
    Except Fault (List Char) :=
  match for_loop (ftab_print_name T sep) T.ncol 0 [] with
  | .error e => .error e
  | .ok header => for_loop (ftab_print_row fmt T sep) T.nrow 0 (header ++ ['\n'])

/-! ## A concrete cell type: decimals with six places

Cells are integers that count millionths.  For these values `printf("%f")` is exact, and
`atof` is modelled on plain decimal notation. -/

/-- The value of a string of decimal digits. -/
def digits_value (ds : List Char) : Nat :=
  ds.foldl (fun acc c => acc * 10 + (c.toNat - '0'.toNat)) 0

/-- The rendering `%f` of `v` millionths: sign, integer part, point, six decimals. -/
def fmt6 (v : Int) : List Char :=
  let m := v.natAbs
  let frac := Nat.toDigits 10 (m % 1000000)
  (if v < 0 then ['-'] else []) ++ Nat.toDigits 10 (m / 1000000) ++ ['.'] ++
    List.replicate (6 - frac.length) '0' ++ frac

/-- The function `atof` on plain decimal notation, in millionths: leading white space, an
optional sign, digits, and an optional point followed by digits, of which six are read;
anything after that is ignored and text without digits gives 0. -/
def atof6 (s : List Char) : Int :=
  let s1 := s.dropWhile (fun c => c = ' ' ∨ c = '\t' ∨ c = '\n' ∨ c = '\r')
  let neg := s1.head? = some '-'
  let s2 := if s1.head? = some '-' ∨ s1.head? = some '+' then s1.drop 1 else s1
  let ip := s2.takeWhile Char.isDigit
  let rest := s2.drop ip.length
  let fp := if rest.head? = some '.' then ((rest.drop 1).takeWhile Char.isDigit).take 6 else []
  let n := digits_value ip * 1000000 + digits_value (fp ++ List.replicate (6 - fp.length) '0')
  if neg then -(n : Int) else (n : Int)

/-! ## Reference notions for the text format -/

/-- The stored form of a header field in the words of the specification: all leading
spaces removed, then all trailing spaces, carriage returns and newlines removed. -/
def trimmed_field (f : List Char) : List Char :=
  (f.dropWhile (fun c => decide (c = ' '))).rdropWhile
    (fun c => decide (c = ' ' ∨ c = '\n' ∨ c = '\r'))

/-- The fields that remain to be returned by `strsep` for the pointer `l`. -/
def rest_fields (d : Char) : Option (List Char) → List (List Char)
  | none => []
  | some s => s.splitOn d

/-- The row that a data line contributes to the table, if any: the values of its first
`k` fields when the text before the first NUL is not empty and has at least `k` fields. -/
def parsed_row {α : Type} (atof : List Char → α) (d : Char) (k : Nat) (line : List Char) :
    Option (List α) :=
  if (cstr line).length = 0 then none
  else if k ≤ ((cstr line).splitOn d).length then
    some ((((cstr line).splitOn d).take k).map atof)
  else none

/-- A line of a file as `getline` delimits it: text without a newline followed by a
newline, or, when nothing follows in the file, non-empty text without a newline. -/
def is_file_line (line post : List Char) : Prop :=
  (∃ body, line = body ++ ['\n'] ∧ '\n' ∉ body) ∨ (post = [] ∧ '\n' ∉ line ∧ line ≠ [])

/-- The items written one after the other with `sep` between consecutive items. -/
def sep_join (sep : List Char) : List (List Char) → List Char
  | [] => []
  | [x] => x
  | x :: y :: r => x ++ sep ++ sep_join sep (y :: r)

/-- The fields of a written line as `strsep` returns them: the last field carries the
text that follows it on the line. -/
def append_last (tail : List Char) : List (List Char) → List (List Char)
  | [] => []
  | [x] => [x ++ tail]
  | x :: y :: r => x :: append_last tail (y :: r)

/-- The array of names of a table, with a null array read as all entries null. -/
def names_view {α : Type} (T : ftab_t α) : List (Option (List Char)) :=
  match T.colnames with
  | none => List.replicate T.ncol none
  | some a => a

/-! ## Further operations -/

/-- The function `ftab_head`; `n` is the `int64_t` argument. -/
def ftab_head {α : Type} (T : ftab_t α) (n : Int) : ftab_t α :=
  if n < 0 then T
  else
    let n1 : Int := if n > (T.nrow : Int) then (T.nrow : Int) else n
    { T with nrow := n1.toNat }

/-- The body of the loop of `ftab_get_col`, on the variable `ret`; a null entry is skipped.
The warning written to `stderr` for a repeated name is not part of the state. -/
def ftab_get_col_name {α : Type} (T : ftab_t α) (name : List Char) (kk : Nat) (ret : Int) :
    Except Fault Int :=
  match colname_at T.colnames kk with
  | .error e => .error e
  | .ok none => .ok ret
  | .ok (some s) => .ok (if strcmp s name = 0 then (kk : Int) else ret)

/-- The function `ftab_get_col`. -/
def ftab_get_col {α : Type} (T : ftab_t α) (name : List Char) : Except Fault Int :=
  for_loop (ftab_get_col_name T name) T.ncol 0 (-1)

/-- The function `ftab_new_from_data` for non-negative `nrow` and `ncol`; `data` is the
block the argument points to. -/
def ftab_new_from_data {α : Type} [Zero α] (nrow ncol : Nat) (data : List α) :
    Except Fault (Option (ftab_t α)) :=
  match memcpy (calloc (nrow * ncol)) 0 data 0 (nrow * ncol) with
  | .error e => .error e
  | .ok buf => .ok (some { T := buf, nrow := nrow, ncol := ncol, nrow_alloc := nrow,
                           colnames := none })

/-- The body of the loop of `ftab_set_coldata`: `C[kk*T->ncol] = data[kk]` with
`C = T->T + col`. -/
def ftab_set_coldata_cell {α : Type} (ncol col : Nat) (data : List α) (kk : Nat)
    (buf : List α) : Except Fault (List α) :=
  match load data (kk : Int) with
  | .error e => .error e
  | .ok v => store buf (col + kk * ncol) v

/-- The function `ftab_set_coldata`: the table after the call and the returned status
(`EXIT_SUCCESS` is 0, `EXIT_FAILURE` is 1). -/
def ftab_set_coldata {α : Type} (T : Option (ftab_t α)) (col : Int) (data : List α) :
    Except Fault (Option (ftab_t α) × Int) :=
  match T with
  | none => .ok (none, 1)
  | some T =>
    if col < 0 ∨ col ≥ (T.ncol : Int) then .ok (some T, 1)
    else
      match for_loop (ftab_set_coldata_cell T.ncol col.toNat data) T.nrow 0 T.T with
      | .error e => .error e
      | .ok buf => .ok (some { T with T := buf }, 0)

/-- The placeholder that `ftab_print` writes for column `cc` without a name:
`col_` followed by the decimal digits of `cc + 1`. -/
def col_placeholder (cc : Nat) : List Char :=
  ['c', 'o', 'l', '_'] ++ Nat.toDigits 10 (cc + 1)

/-- The header field that `ftab_print` writes for column `cc`: the name when the names
array and the entry are not null, the placeholder otherwise. -/
def header_field {α : Type} (T : ftab_t α) (cc : Nat) : List Char :=
  match T.colnames with
  | none => col_placeholder cc
  | some arr =>
    match arr[cc]? with
    | some (some s) => s
    | _ => col_placeholder cc

/-- The capacity after a growth step in the words of the specification:
the ceiling of `c * 1.69`. -/
def spec_grown_capacity (c : Nat) : Nat :=
  (c * 169 + 99) / 100

/-- The state of the loop of `ftab_get_col` after the columns below `k`: `ret` is -1 and
no column below `k` is named `s`, or `ret` is the last column below `k` named `s`. -/
def last_match (arr : List (Option (List Char))) (s : List Char) (k : Nat) (ret : Int) : Prop :=
  (ret = -1 ∧ ∀ j, j < k → arr[j]? ≠ some (some s)) ∨
    ∃ i : Nat, ret = (i : Int) ∧ i < k ∧ arr[i]? = some (some s) ∧
      ∀ j, i < j → j < k → arr[j]? ≠ some (some s)

/-- The header field for column `cc` in the words of the specification: the assigned name
if present, otherwise `column_` followed by the decimal digits of `cc + 1`. -/
def spec_header_field {α : Type} (T : ftab_t α) (cc : Nat) : List Char :=
  match T.colnames with
  | none => ['c', 'o', 'l', 'u', 'm', 'n', '_'] ++ Nat.toDigits 10 (cc + 1)
  | some arr =>
    match arr[cc]? with
    | some (some s) => s
    | _ => ['c', 'o', 'l', 'u', 'm', 'n', '_'] ++ Nat.toDigits 10 (cc + 1)

/-- The values of `row` at the successive calls of `parse_floats` in the read loop of
`ftab_from_dlm`: the index of the row slot `T->T + row*T->ncol` handed to each call, up to
and including a call that faults. -/
def read_rows_slots {α : Type} (atof : List Char → α) (dlm : List Char) (ncol : Nat) :
    List (List Char) → List α → Nat → List Nat
  | [], _, _ => []
  | line :: rest, buf, row =>
    if (cstr line).length = 0 then read_rows_slots atof dlm ncol rest buf row
    else
      match parse_floats atof (cstr line) buf (row * ncol) ncol dlm with
      | .error _ => [row]
      | .ok r => row :: read_rows_slots atof dlm ncol rest r.1 (row + r.2)

/-! ## Properties of the capacity growth -/

theorem rne_shift_spec (f n : Nat) : rne_shift f n = 0 ∨ 2 ^ 52 * 2 ^ rne_shift f n ≤ n := by
  induction f generalizing n with
  | zero => left; rfl
  | succ f ih =>
    unfold rne_shift
    split
    · left; rfl
    · right
      rename_i h
      rcases ih (n / 2) with h0 | h1
      · rw [h0]; norm_num at h ⊢; omega
      · rw [pow_succ]
        have : 2 ^ 52 * 2 ^ rne_shift f (n / 2) * 2 ≤ n := by omega
        calc 2 ^ 52 * (2 ^ rne_shift f (n / 2) * 2)
            = 2 ^ 52 * 2 ^ rne_shift f (n / 2) * 2 := by ring
          _ ≤ n := this

theorem rne53_lower (n : Nat) : (2 ^ 53 - 1) * n ≤ 2 ^ 53 * rne53 n := by
  unfold rne53
  have hs := rne_shift_spec n n
  generalize rne_shift n n = s at hs ⊢
  have hdm : 2 ^ s * (n / 2 ^ s) + n % 2 ^ s = n := Nat.div_add_mod n (2 ^ s)
  have hr : n % 2 ^ s < 2 ^ s := Nat.mod_lt _ (by positivity)
  have h1 : (n / 2 ^ s + 1) * 2 ^ s = 2 ^ s * (n / 2 ^ s) + 2 ^ s := by ring
  have h2 : n / 2 ^ s * 2 ^ s = 2 ^ s * (n / 2 ^ s) := by ring
  simp only [h1, h2]
  generalize 2 ^ s * (n / 2 ^ s) = X at hdm ⊢
  generalize n % 2 ^ s = r at hdm hr ⊢
  have hP : 2 ^ s = 1 ∨ 2 ^ 52 * 2 ^ s ≤ n := by
    rcases hs with h | h
    · left; rw [h]; rfl
    · right; exact h
  generalize 2 ^ s = P at hr hP ⊢
  norm_num at hP ⊢
  split_ifs <;> omega

theorem grow_nrow_alloc_gt (c : Nat) (hc : 2 ≤ c) : c < grow_nrow_alloc c := by
  unfold grow_nrow_alloc
  have h1 := rne53_lower c
  have h2 := rne53_lower (rne53 c * 6214967485771284)
  have h3 := rne53_lower (rne53 c * 2 ^ 53 + rne53 (rne53 c * 6214967485771284))
  simp only []
  generalize rne53 (rne53 c * 2 ^ 53 + rne53 (rne53 c * 6214967485771284)) = s at h3 ⊢
  generalize rne53 (rne53 c * 6214967485771284) = p at h2 h3
  generalize rne53 c = cd at h1 h2 h3
  norm_num at h1 h2 h3 ⊢
  omega

/-! ## Insertion -/

theorem flatten_uniform_length {α : Type} (n : Nat) (rs : List (List α))
    (h : ∀ r ∈ rs, r.length = n) : rs.flatten.length = rs.length * n := by
  induction rs with
  | nil => simp
  | cons r rs ih =>
    have h1 : r.length = n := h r (by simp)
    have h2 := ih (fun x hx => h x (by simp [hx]))
    simp [h1, h2]; ring

theorem flatten_uniform_get {α : Type} (n : Nat) (rs : List (List α))
    (h : ∀ r ∈ rs, r.length = n) (i j : Nat) (hj : j < n) :
    rs.flatten[i * n + j]? = (rs[i]?).bind (fun r => r[j]?) := by
  induction rs generalizing i with
  | nil => simp
  | cons r rs ih =>
    have h1 : r.length = n := h r (by simp)
    have h2 := ih (fun x hx => h x (by simp [hx]))
    cases i with
    | zero =>
      simp
      rw [List.getElem?_append_left (by omega)]
    | succ i =>
      simp
      rw [List.getElem?_append_right (by rw [h1]; nlinarith)]
      have : (i + 1) * n + j - r.length = i * n + j := by rw [h1]; ring_nf; omega
      rw [this]
      simpa using h2 i

theorem ftab_insert_inserted {α : Type} [Zero α] (n : Nat) (T : ftab_t α) (rs : List (List α))
    (r : List α) (hT : inserted n T rs) (hr : r.length = n) :
    ∃ T1, ftab_insert T r = .ok T1 ∧ inserted n T1 (rs ++ [r]) := by
  obtain ⟨hn, hlen, hle, h2, hrow, hcells, hnm⟩ := hT
  -- the table after the optional growth
  have key : ∀ T1 : ftab_t α, T1.ncol = n → T1.T.length = T1.nrow_alloc * n →
      T1.nrow < T1.nrow_alloc → 2 ≤ T1.nrow_alloc → T1.nrow = rs.length →
      T1.T.take (T1.nrow * n) = rs.flatten → T1.colnames = none →
      ∃ T2, (match memcpy T1.T (T1.ncol * T1.nrow) r 0 T1.ncol with
        | .error e => (Except.error e : Except Fault (ftab_t α))
        | .ok buf => .ok { T1 with T := buf, nrow := T1.nrow + 1 }) = .ok T2 ∧
        inserted n T2 (rs ++ [r]) := by
    intro T1 hn1 hlen1 hlt1 h21 hrow1 hcells1 hnm1
    have hb : (T1.nrow + 1) * n ≤ T1.nrow_alloc * n := Nat.mul_le_mul_right n hlt1
    have e1 : T1.ncol * T1.nrow = T1.nrow * n := by rw [hn1]; ring
    have e2 : (T1.nrow + 1) * n = T1.nrow * n + n := by ring
    rw [e2] at hb
    rw [e1, hn1]
    have hcond : 0 + n ≤ r.length ∧ T1.nrow * n + n ≤ T1.T.length := by
      rw [hr, hlen1]; constructor <;> omega
    simp only [memcpy, hcond, and_self, if_true]
    refine ⟨_, rfl, ?_⟩
    have hl1 : (List.take (T1.nrow * n) T1.T).length = T1.nrow * n := by
      rw [List.length_take, hlen1]; omega
    have hl2 : (List.take n (List.drop 0 r)).length = n := by
      simp [hr]
    refine ⟨rfl, ?_, ?_, h21, ?_, ?_, hnm1⟩
    · show (List.take (T1.nrow * n) T1.T ++ List.take n (List.drop 0 r) ++
        List.drop (T1.nrow * n + n) T1.T).length = T1.nrow_alloc * n
      simp only [List.length_append, hl1, hl2, List.length_drop, hlen1]
      omega
    · show T1.nrow + 1 ≤ T1.nrow_alloc
      omega
    · show T1.nrow + 1 = (rs ++ [r]).length
      simp [hrow1]
    · show List.take ((T1.nrow + 1) * n) (List.take (T1.nrow * n) T1.T ++
        List.take n (List.drop 0 r) ++ List.drop (T1.nrow * n + n) T1.T) = _
      rw [List.take_append_of_le_length (by
        simp only [List.length_append, hl1, hl2]; omega)]
      rw [List.take_of_length_le (by
        simp only [List.length_append, hl1, hl2]; omega)]
      rw [List.flatten_append, ← hcells1]
      simp [hr]
  unfold ftab_insert
  by_cases hfull : T.nrow = T.nrow_alloc
  · simp only [hfull, if_true]
    have hg := grow_nrow_alloc_gt T.nrow_alloc h2
    have hmono : T.nrow_alloc * n ≤ grow_nrow_alloc T.nrow_alloc * n :=
      Nat.mul_le_mul_right n (le_of_lt hg)
    have hre : realloc T.T (grow_nrow_alloc T.nrow_alloc * T.ncol) =
        T.T ++ List.replicate (grow_nrow_alloc T.nrow_alloc * n - T.nrow_alloc * n) 0 := by
      unfold realloc
      rw [hn, hlen, List.take_of_length_le (by rw [hlen]; exact hmono)]
    have := key { T with nrow_alloc := grow_nrow_alloc T.nrow_alloc,
                         T := realloc T.T (grow_nrow_alloc T.nrow_alloc * T.ncol) }
      hn (by simp only [hre, List.length_append, List.length_replicate, hlen]; omega)
      (by show T.nrow < grow_nrow_alloc T.nrow_alloc; omega) (by show 2 ≤ grow_nrow_alloc _; omega) hrow
      (by
        show List.take (T.nrow * n) (realloc _ _) = _
        rw [hre, List.take_append_of_le_length (by rw [hlen, hfull]), hcells]) hnm
    simpa [hfull] using this
  · simp only [hfull, if_false]
    exact key T hn hlen (by omega) h2 hrow hcells hnm

theorem insert_rows_inserted {α : Type} [Zero α] (n : Nat) (rows : List (List α)) :
    ∀ (T : ftab_t α) (rs : List (List α)), inserted n T rs → (∀ r ∈ rows, r.length = n) →
      ∃ T1, insert_rows T rows = .ok T1 ∧ inserted n T1 (rs ++ rows) := by
  induction rows with
  | nil => intro T rs hT _; exact ⟨T, rfl, by simpa using hT⟩
  | cons r rows ih =>
    intro T rs hT hrows
    obtain ⟨T1, h1, hT1⟩ := ftab_insert_inserted n T rs r hT (hrows r (by simp))
    obtain ⟨T2, h2, hT2⟩ := ih T1 (rs ++ [r]) hT1 (fun x hx => hrows x (by simp [hx]))
    refine ⟨T2, ?_, by simpa using hT2⟩
    simp [insert_rows, h1, h2]

theorem ftab_new_inserted {α : Type} [Zero α] (ncol : Int) (h : 1 ≤ ncol) :
    ∃ T0 : ftab_t α, ftab_new ncol = some T0 ∧ inserted ncol.toNat T0 [] := by
  refine ⟨_, by simp [ftab_new, not_lt.mpr h]; rfl, ?_⟩
  refine ⟨rfl, ?_, ?_, ?_, rfl, ?_, rfl⟩
  · simp [calloc, Nat.mul_comm]
  · simp
  · simp
  · simp

/-- C2 (growth invariant): for `ncol ≥ 1` and any rows of `ncol` values each, `ftab_new`
followed by one `ftab_insert` per row returns a table with `nrow` equal to the number of
rows, `nrow ≤ nrow_alloc`, and the cell at `i * ncol + j` equal to value `j` of row `i`. -/
theorem ftab_insert_growth_invariant {α : Type} [Zero α] (ncol : Int) (rows : List (List α))
    (hncol : 1 ≤ ncol) (hrows : ∀ r ∈ rows, r.length = ncol.toNat) :
    ∃ T0 T : ftab_t α, ftab_new ncol = some T0 ∧ insert_rows T0 rows = .ok T ∧
      T.nrow = rows.length ∧ T.nrow ≤ T.nrow_alloc ∧ T.ncol = ncol.toNat ∧
      T.T.length = T.nrow_alloc * T.ncol ∧
      ∀ i j, i < rows.length → j < ncol.toNat →
        ∃ v, T.T[i * ncol.toNat + j]? = some v ∧ (rows[i]?).bind (fun r => r[j]?) = some v := by
  obtain ⟨T0, h0, hT0⟩ := ftab_new_inserted (α := α) ncol hncol
  obtain ⟨T, h1, hn, hlen, hle, _, hrow, hcells, _⟩ :=
    insert_rows_inserted ncol.toNat rows T0 [] hT0 hrows
  simp only [List.nil_append] at hrow hcells
  refine ⟨T0, T, h0, h1, hrow, hle, hn, by rw [hlen, hn], ?_⟩
  intro i j hi hj
  have hget := flatten_uniform_get ncol.toNat rows hrows i j hj
  have hlt : i * ncol.toNat + j < T.nrow * ncol.toNat := by
    rw [hrow]
    calc i * ncol.toNat + j < i * ncol.toNat + ncol.toNat := by omega
      _ = (i + 1) * ncol.toNat := by ring
      _ ≤ rows.length * ncol.toNat := Nat.mul_le_mul_right _ hi
  have htake : T.T[i * ncol.toNat + j]? = rows.flatten[i * ncol.toNat + j]? := by
    rw [← hcells, List.getElem?_take, if_pos hlt]
  have hr : ∃ r, rows[i]? = some r ∧ r ∈ rows := by
    refine ⟨rows[i], by simp [hi], List.getElem_mem _⟩
  obtain ⟨r, hri, hrm⟩ := hr
  have hrl := hrows r hrm
  refine ⟨r[j], ?_, ?_⟩
  · rw [htake, hget, hri]; simp [hrl, hj]
  · rw [hri]; simp [hrl, hj]

theorem ftab_insert_growth_invariant_witness :
    ∃ T0 T : ftab_t Int, ftab_new 2 = some T0 ∧ insert_rows T0 [[1, 2], [3, 4]] = .ok T ∧
      T.nrow = [[1, 2], [3, 4]].length ∧ T.nrow ≤ T.nrow_alloc ∧ T.ncol = (2 : Int).toNat ∧
      T.T.length = T.nrow_alloc * T.ncol ∧
      ∀ i j, i < [[(1 : Int), 2], [3, 4]].length → j < (2 : Int).toNat →
        ∃ v, T.T[i * (2 : Int).toNat + j]? = some v ∧
          ([[(1 : Int), 2], [3, 4]][i]?).bind (fun r => r[j]?) = some v :=
  ftab_insert_growth_invariant 2 [[1, 2], [3, 4]] (by decide) (by decide)


/-! ## Rows of a row-major block -/

theorem row_of_append_left {α : Type} (n : Nat) (l1 l2 : List α) (i : Nat)
    (h : (i + 1) * n ≤ l1.length) : row_of n (l1 ++ l2) i = row_of n l1 i := by
  have e : (i + 1) * n = i * n + n := by ring
  unfold row_of
  rw [List.drop_append_of_le_length (by omega),
    List.take_append_of_le_length (by rw [List.length_drop]; omega)]

theorem row_of_append_right {α : Type} (n : Nat) (l1 l2 : List α) (m i : Nat)
    (h : l1.length = m * n) : row_of n (l1 ++ l2) (m + i) = row_of n l2 i := by
  unfold row_of
  have e : (m + i) * n = l1.length + i * n := by rw [h]; ring
  rw [e, List.drop_append]

theorem row_of_take {α : Type} (n : Nat) (l : List α) (k i : Nat) (h : (i + 1) * n ≤ k) :
    row_of n (l.take k) i = row_of n l i := by
  have e : (i + 1) * n = i * n + n := by ring
  unfold row_of
  rw [List.drop_take, List.take_take, Nat.min_eq_left (by omega)]

theorem row_of_length {α : Type} (n : Nat) (l : List α) (i : Nat) (h : (i + 1) * n ≤ l.length) :
    (row_of n l i).length = n := by
  have e : (i + 1) * n = i * n + n := by ring
  unfold row_of
  rw [List.length_take, List.length_drop]; omega

theorem row_of_getElem? {α : Type} (n : Nat) (l : List α) (i j : Nat) (hj : j < n) :
    (row_of n l i)[j]? = l[i * n + j]? := by
  unfold row_of
  rw [List.getElem?_take, if_pos hj, List.getElem?_drop]

theorem map_row_of_flatten {α : Type} (n : Nat) (rs : List (List α))
    (h : ∀ r ∈ rs, r.length = n) (tail : List α) :
    (List.range rs.length).map (row_of n (rs.flatten ++ tail)) = rs := by
  induction rs with
  | nil => rfl
  | cons r rs ih =>
    have h1 : r.length = n := h r (by simp)
    have h2 := ih (fun x hx => h x (by simp [hx]))
    rw [List.length_cons, List.range_succ_eq_map, List.map_cons, List.map_map]
    congr 1
    · simp [row_of, h1]
    · have hm : List.map (row_of n ((r :: rs).flatten ++ tail) ∘ Nat.succ)
          (List.range rs.length) =
          List.map (row_of n (rs.flatten ++ tail)) (List.range rs.length) := by
        apply List.map_congr_left
        intro i _
        have := row_of_append_right n r (rs.flatten ++ tail) 1 i (by simp [h1])
        simp only [Function.comp, Nat.succ_eq_add_one, List.flatten_cons, List.append_assoc]
        rw [Nat.add_comm i 1, this]
      rw [hm, h2]

theorem flatten_map_row_of {α : Type} (n : Nat) (l : List α) (k : Nat) (h : k * n ≤ l.length) :
    ((List.range k).map (row_of n l)).flatten = l.take (k * n) := by
  induction k with
  | zero => simp
  | succ k ih =>
    have e : (k + 1) * n = k * n + n := by ring
    rw [List.range_succ, List.map_append, List.flatten_append, ih (by omega)]
    simp only [List.map_cons, List.map_nil, List.flatten_cons, List.flatten_nil,
      List.append_nil, row_of]
    rw [e, List.take_add]

theorem rows_eq_of_cells {α : Type} (A B : ftab_t α) (hc : A.ncol = B.ncol)
    (hr : A.nrow = B.nrow) (h : A.cells = B.cells) : A.rows = B.rows := by
  unfold ftab_t.rows ftab_t.row
  rw [hr]
  apply List.map_congr_left
  intro i hi
  have hi1 : (i + 1) * B.ncol ≤ B.nrow * B.ncol :=
    Nat.mul_le_mul_right _ (by simpa using hi)
  rw [← row_of_take A.ncol A.T (A.nrow * A.ncol) i (by rw [hc, hr]; exact hi1),
    ← row_of_take B.ncol B.T (B.nrow * B.ncol) i hi1]
  unfold ftab_t.cells at h
  rw [h, hc]

theorem flatten_rows {α : Type} (A : ftab_t α) (h : A.nrow * A.ncol ≤ A.T.length) :
    A.rows.flatten = A.cells :=
  flatten_map_row_of A.ncol A.T A.nrow h

/-! ## Counted loops -/

theorem for_loop_const {σ : Type} (body : Nat → σ → Except Fault σ) (s : σ) (n : Nat) :
    ∀ k, (∀ kk, k ≤ kk → kk < k + n → body kk s = .ok s) → for_loop body n k s = .ok s := by
  induction n with
  | zero => intro k _; rfl
  | succ n ih =>
    intro k h
    rw [for_loop, h k (le_refl _) (by omega)]
    exact ih (k + 1) (fun kk h1 h2 => h kk (by omega) (by omega))

theorem strcmp_self (s : List Char) : strcmp s s = 0 := by
  induction s with
  | nil => rfl
  | cons c s ih => simp [strcmp, ih]

theorem colname_at_map_some (names : List (List Char)) (kk : Nat) (h : kk < names.length) :
    ∃ s, colname_at (some (names.map some)) kk = .ok (some s) := by
  refine ⟨names[kk], ?_⟩
  simp [colname_at, List.getElem?_eq_getElem, h]

/-! ## Comparison -/

theorem ftab_compare_some {α : Type} [DecidableEq α] (A B : ftab_t α)
    (hA : A.names_all_or_none) (hAT : A.nrow * A.ncol ≤ A.T.length)
    (hBT : B.nrow * B.ncol ≤ B.T.length) :
    ftab_compare (some A) (some B) = .ok 0 ↔
      A.ncol = B.ncol ∧ A.nrow = B.nrow ∧ (A.colnames.isSome ↔ B.colnames.isSome) ∧
        (A.nrow = 0 ∨ A.cells = B.cells) := by
  unfold ftab_compare
  by_cases hc : A.ncol = B.ncol
  swap
  · simp [hc]
  by_cases hr : A.nrow = B.nrow
  swap
  · simp [hc, hr]
  simp only [hc, hr, ne_eq, not_true_eq_false, if_false, true_and, or_self]
  rcases hA with hn | ⟨names, hlen, hn⟩
  · -- no names on `A`
    cases hB : B.colnames with
    | some nb => simp [hn]
    | none =>
      simp only [hn, Option.isNone_none, Option.isSome_none, if_true, Bool.false_eq_true,
        if_false, false_and, iff_self, true_and]
      by_cases h0 : B.nrow = 0
      · simp [h0]
      · have hm : B.ncol * B.nrow ≤ A.T.length ∧ B.ncol * B.nrow ≤ B.T.length := by
          rw [hr, hc] at hAT
          constructor <;> rw [Nat.mul_comm] <;> assumption
        simp only [one_ne_zero, if_false, h0, memcmp, hm, and_self, if_true, false_or]
        unfold ftab_t.cells
        rw [hr, hc, Nat.mul_comm B.nrow]
        by_cases heq : List.take (B.ncol * B.nrow) A.T = List.take (B.ncol * B.nrow) B.T
        · simp [heq]
        · simp [heq]
  · -- all names assigned on `A`
    cases hB : B.colnames with
    | none => simp [hn]
    | some nb =>
      have hloop : for_loop (ftab_compare_name A) B.ncol 0 1 = .ok 1 := by
        apply for_loop_const
        intro kk _ hk
        obtain ⟨s, hs⟩ := colname_at_map_some names kk (by rw [hlen, hc]; omega)
        unfold ftab_compare_name
        rw [hn, hs]
        simp [strcmp_self]
      simp only [hn, Option.isNone_some, Option.isSome_some, Bool.false_eq_true, if_false,
        and_self, if_true, iff_self, true_and]
      rw [hloop]
      by_cases h0 : B.nrow = 0
      · simp [h0]
      · have hm : B.ncol * B.nrow ≤ A.T.length ∧ B.ncol * B.nrow ≤ B.T.length := by
          rw [hr, hc] at hAT
          constructor <;> rw [Nat.mul_comm] <;> assumption
        simp only [one_ne_zero, if_false, h0, memcmp, hm, and_self, if_true, false_or]
        unfold ftab_t.cells
        rw [hr, hc, Nat.mul_comm B.nrow]
        by_cases heq : List.take (B.ncol * B.nrow) A.T = List.take (B.ncol * B.nrow) B.T
        · simp [heq]
        · simp [heq]

/-- C9 (compare characterisation): for present tables whose valid cells lie inside their
buffers and where the names of `A` are absent or assigned on every column, `ftab_compare`
returns 0 exactly when both tables are present, `ncol` and `nrow` agree, both or neither
carry names, and `nrow = 0` or the first `nrow * ncol` cells are identical.  The text of
the names does not occur in the condition. -/
theorem ftab_compare_characterisation {α : Type} [DecidableEq α] (A B : Option (ftab_t α))
    (hA : ∀ a, A = some a → a.names_all_or_none ∧ a.nrow * a.ncol ≤ a.T.length)
    (hB : ∀ b, B = some b → b.names_all_or_none ∧ b.nrow * b.ncol ≤ b.T.length) :
    ftab_compare A B = .ok 0 ↔
      ∃ a b, A = some a ∧ B = some b ∧ a.ncol = b.ncol ∧ a.nrow = b.nrow ∧
        (a.colnames.isSome ↔ b.colnames.isSome) ∧ (a.nrow = 0 ∨ a.cells = b.cells) := by
  cases A with
  | none => simp [ftab_compare]
  | some a =>
    cases B with
    | none => simp [ftab_compare]
    | some b =>
      rw [ftab_compare_some a b (hA a rfl).1 (hA a rfl).2 (hB b rfl).2]
      simp

theorem ftab_compare_characterisation_witness :
    ftab_compare
      (some (⟨[1, 2], 1, 2, 1, some [some ['x'], some ['y']]⟩ : ftab_t Int))
      (some (⟨[1, 2, 7, 7], 1, 2, 2, some [some ['a'], some ['b']]⟩ : ftab_t Int)) = .ok 0 :=
  (ftab_compare_characterisation
      (some (⟨[1, 2], 1, 2, 1, some [some ['x'], some ['y']]⟩ : ftab_t Int))
      (some (⟨[1, 2, 7, 7], 1, 2, 2, some [some ['a'], some ['b']]⟩ : ftab_t Int))
      (fun a h => by
        cases h
        exact ⟨Or.inr ⟨[['x'], ['y']], rfl, rfl⟩, by decide⟩)
      (fun b h => by
        cases h
        exact ⟨Or.inr ⟨[['a'], ['b']], rfl, rfl⟩, by decide⟩)).mpr
    ⟨_, _, rfl, rfl, rfl, rfl, by decide, Or.inr (by decide)⟩

/-! ## Copy -/

theorem memcpy_calloc_all {α : Type} [Zero α] (src : List α) (n : Nat) (h : n ≤ src.length) :
    memcpy (calloc n : List α) 0 src 0 n = .ok (src.take n) := by
  have hc : 0 + n ≤ src.length ∧ 0 + n ≤ (calloc n : List α).length := by
    simp [calloc, h]
  rw [memcpy, if_pos hc]
  simp [calloc]

theorem ftab_copy_names_loop {α : Type} (T : ftab_t α) (arr : List (Option (List Char)))
    (h : T.colnames = some arr) (n : Nat) :
    ∀ k, k + n = arr.length →
      for_loop (ftab_copy_name T) n k (arr.take k ++ List.replicate n none) = .ok arr := by
  induction n with
  | zero =>
    intro k hk
    simp only [Nat.add_zero] at hk
    simp [for_loop, hk]
  | succ n ih =>
    intro k hk
    have hk1 : k < arr.length := by omega
    have hget : colname_at T.colnames k = .ok arr[k] := by
      simp [colname_at, h, List.getElem?_eq_getElem, hk1]
    have hlen : (arr.take k).length = k := by simp; omega
    have hnext : arr.take (k + 1) ++ List.replicate n none =
        arr.take k ++ arr[k] :: List.replicate n none := by
      rw [List.take_succ, List.getElem?_eq_getElem hk1]
      simp only [Option.toList, List.append_assoc, List.singleton_append]
    have hset : ∀ x : Option (List Char),
        (arr.take k ++ List.replicate (n + 1) none).set k x =
          arr.take k ++ x :: List.replicate n none := by
      intro x
      rw [List.set_append_right _ _ (by rw [hlen]), hlen, Nat.sub_self,
        List.replicate_succ, List.set_cons_zero]
    have hstep : ftab_copy_name T k (arr.take k ++ List.replicate (n + 1) none) =
        .ok (arr.take (k + 1) ++ List.replicate n none) := by
      unfold ftab_copy_name
      rw [hget, hnext]
      cases hv : arr[k] with
      | none => simp [List.replicate_succ]
      | some s => simp [hset]
    rw [for_loop, hstep]
    exact ih (k + 1) (by omega)

theorem ftab_copy_spec {α : Type} [Zero α] (T : ftab_t α) (hT : T.nrow * T.ncol ≤ T.T.length)
    (hn : ∀ arr, T.colnames = some arr → arr.length = T.ncol) :
    ftab_copy T = .ok (some ⟨T.cells, T.nrow, T.ncol, T.nrow, T.colnames⟩) := by
  unfold ftab_copy
  simp only [memcpy_calloc_all T.T _ hT]
  cases hc : T.colnames with
  | none => rfl
  | some arr =>
    have := ftab_copy_names_loop T arr hc T.ncol 0 (by rw [hn arr hc]; omega)
    simp only [List.take_zero, List.nil_append] at this
    simp only [this]
    rfl

theorem names_length_of_all_or_none {α : Type} (T : ftab_t α) (h : T.names_all_or_none) :
    ∀ arr, T.colnames = some arr → arr.length = T.ncol := by
  intro arr ha
  rcases h with h | ⟨names, hl, h⟩
  · rw [h] at ha; cases ha
  · rw [h] at ha; cases ha; simpa using hl

/-- C10 (deep copy): for a table whose valid cells lie inside its buffer and whose names are
absent or assigned on every column, `ftab_copy` returns a table with the same `nrow`, the
same `ncol`, the same valid cells and rows and the same names, and `ftab_compare` of the
table and its copy returns 0.  The argument is not written to (it is passed by value). -/
theorem ftab_copy_deep {α : Type} [Zero α] [DecidableEq α] (T : ftab_t α)
    (hn : T.names_all_or_none) (hT : T.nrow * T.ncol ≤ T.T.length) :
    ∃ C, ftab_copy T = .ok (some C) ∧ C.nrow = T.nrow ∧ C.ncol = T.ncol ∧
      C.cells = T.cells ∧ C.rows = T.rows ∧ C.colnames = T.colnames ∧
      ftab_compare (some T) (some C) = .ok 0 := by
  refine ⟨_, ftab_copy_spec T hT (names_length_of_all_or_none T hn), rfl, rfl, ?_, ?_, rfl, ?_⟩
  · simp [ftab_t.cells]
  · refine rows_eq_of_cells ⟨T.cells, T.nrow, T.ncol, T.nrow, T.colnames⟩ T rfl rfl ?_
    simp [ftab_t.cells]
  · rw [ftab_compare_some T _ hn hT (by simp [ftab_t.cells, hT])]
    refine ⟨rfl, rfl, Iff.rfl, Or.inr ?_⟩
    simp [ftab_t.cells]

theorem ftab_copy_deep_witness :
    ∃ C, ftab_copy (⟨[1, 2, 3, 4, 9, 9], 2, 2, 3, some [some ['x'], some ['y']]⟩ : ftab_t Int) =
        .ok (some C) ∧
      C.nrow = 2 ∧ C.ncol = 2 ∧
      C.cells = (⟨[1, 2, 3, 4, 9, 9], 2, 2, 3, some [some ['x'], some ['y']]⟩ : ftab_t Int).cells ∧
      C.rows = (⟨[1, 2, 3, 4, 9, 9], 2, 2, 3, some [some ['x'], some ['y']]⟩ : ftab_t Int).rows ∧
      C.colnames = some [some ['x'], some ['y']] ∧
      ftab_compare (some (⟨[1, 2, 3, 4, 9, 9], 2, 2, 3, some [some ['x'], some ['y']]⟩ :
        ftab_t Int)) (some C) = .ok 0 :=
  ftab_copy_deep _ (Or.inr ⟨[['x'], ['y']], rfl, rfl⟩) (by decide)

/-! ## Row concatenation -/

theorem ftab_concatenate_rows_spec {α : Type} [Zero α] (Tp D : ftab_t α)
    (hc : Tp.ncol = D.ncol) (hT : Tp.nrow * Tp.ncol ≤ Tp.T.length)
    (hD : D.nrow * D.ncol ≤ D.T.length) :
    ftab_concatenate_rows (some Tp) (some D) =
      .ok (some ⟨Tp.cells ++ D.cells, Tp.nrow + D.nrow, Tp.ncol, Tp.nrow + D.nrow, none⟩) := by
  unfold ftab_concatenate_rows
  simp only [hc, ne_eq, not_true_eq_false, if_false]
  have hz : (calloc ((Tp.nrow + D.nrow) * D.ncol) : List α) =
      List.replicate (Tp.nrow * D.ncol) 0 ++ List.replicate (D.nrow * D.ncol) 0 := by
    rw [calloc, Nat.add_mul, List.replicate_add]
  rw [hc] at hT
  have h1 : memcpy (calloc ((Tp.nrow + D.nrow) * D.ncol) : List α) 0 Tp.T 0 (Tp.nrow * D.ncol) =
      .ok (Tp.T.take (Tp.nrow * D.ncol) ++ List.replicate (D.nrow * D.ncol) 0) := by
    have hcnd : 0 + Tp.nrow * D.ncol ≤ Tp.T.length ∧
        0 + Tp.nrow * D.ncol ≤ (calloc ((Tp.nrow + D.nrow) * D.ncol) : List α).length := by
      simp [calloc, hT, Nat.add_mul]
    rw [memcpy, if_pos hcnd, hz]
    simp
  have hl : (Tp.T.take (Tp.nrow * D.ncol)).length = Tp.nrow * D.ncol := by
    rw [List.length_take]; omega
  have h2 : memcpy (Tp.T.take (Tp.nrow * D.ncol) ++ List.replicate (D.nrow * D.ncol) (0 : α))
      (Tp.nrow * D.ncol) D.T 0 (D.nrow * D.ncol) =
      .ok (Tp.T.take (Tp.nrow * D.ncol) ++ D.T.take (D.nrow * D.ncol)) := by
    have hcnd : 0 + D.nrow * D.ncol ≤ D.T.length ∧ Tp.nrow * D.ncol + D.nrow * D.ncol ≤
        (Tp.T.take (Tp.nrow * D.ncol) ++ List.replicate (D.nrow * D.ncol) (0 : α)).length := by
      simp [hl, hD]
    rw [memcpy, if_pos hcnd]
    rw [List.take_left' hl]
    have : Tp.nrow * D.ncol + D.nrow * D.ncol =
        (Tp.T.take (Tp.nrow * D.ncol) ++ List.replicate (D.nrow * D.ncol) (0 : α)).length := by
      simp [hl]
    rw [this, List.drop_length]
    simp
  simp only [h1, h2, ftab_t.cells, hc]

theorem rows_of_concat {α : Type} (Tp D C : ftab_t α) (hc : Tp.ncol = D.ncol)
    (hT : Tp.nrow * Tp.ncol ≤ Tp.T.length)
    (hC : C = ⟨Tp.cells ++ D.cells, Tp.nrow + D.nrow, Tp.ncol, Tp.nrow + D.nrow, none⟩) :
    C.rows = Tp.rows ++ D.rows := by
  subst hC
  have hl : Tp.cells.length = Tp.nrow * Tp.ncol := by
    rw [ftab_t.cells, List.length_take]; omega
  unfold ftab_t.rows ftab_t.row
  simp only []
  rw [List.range_add, List.map_append, List.map_map]
  congr 1
  · apply List.map_congr_left
    intro i hi
    have hi1 : (i + 1) * Tp.ncol ≤ Tp.nrow * Tp.ncol :=
      Nat.mul_le_mul_right _ (by simpa using hi)
    rw [row_of_append_left _ _ _ _ (by rw [hl]; exact hi1), ftab_t.cells,
      row_of_take _ _ _ _ hi1]
  · apply List.map_congr_left
    intro i hi
    have hi1 : (i + 1) * D.ncol ≤ D.nrow * D.ncol :=
      Nat.mul_le_mul_right _ (by simpa using hi)
    simp only [Function.comp]
    rw [row_of_append_right _ _ _ _ _ hl, hc, ftab_t.cells, row_of_take _ _ _ _ hi1]

/-- C8 (row concatenation): with exactly one side absent `ftab_concatenate_rows` is
`ftab_copy` of the other side, which returns a table with the same `nrow`, `ncol`, valid
cells and names; with both sides present it returns no table exactly when the column counts
differ, and otherwise returns a table with `ncol = Top.ncol`, `nrow = Top.nrow + Down.nrow`,
the rows of `Top` followed by the rows of `Down`, and no column names.  The tables have
their valid cells inside their buffers and names arrays of `ncol` entries. -/
theorem ftab_concatenate_rows_correct {α : Type} [Zero α] (Tp D : ftab_t α)
    (hT : Tp.nrow * Tp.ncol ≤ Tp.T.length) (hD : D.nrow * D.ncol ≤ D.T.length)
    (hTn : ∀ arr, Tp.colnames = some arr → arr.length = Tp.ncol)
    (hDn : ∀ arr, D.colnames = some arr → arr.length = D.ncol) :
    ftab_concatenate_rows none (some D) = ftab_copy D ∧
    ftab_concatenate_rows none (some D) =
      .ok (some ⟨D.cells, D.nrow, D.ncol, D.nrow, D.colnames⟩) ∧
    ftab_concatenate_rows (some Tp) none = ftab_copy Tp ∧
    ftab_concatenate_rows (some Tp) none =
      .ok (some ⟨Tp.cells, Tp.nrow, Tp.ncol, Tp.nrow, Tp.colnames⟩) ∧
    (ftab_concatenate_rows (some Tp) (some D) = .ok none ↔ Tp.ncol ≠ D.ncol) ∧
    (Tp.ncol = D.ncol →
      ∃ C, ftab_concatenate_rows (some Tp) (some D) = .ok (some C) ∧
        C.ncol = Tp.ncol ∧ C.nrow = Tp.nrow + D.nrow ∧ C.rows = Tp.rows ++ D.rows ∧
        C.cells = Tp.cells ++ D.cells ∧ C.colnames = none) := by
  refine ⟨rfl, ftab_copy_spec D hD hDn, rfl, ftab_copy_spec Tp hT hTn, ?_, ?_⟩
  · by_cases hc : Tp.ncol = D.ncol
    · rw [ftab_concatenate_rows_spec Tp D hc hT hD]
      simp [hc]
    · simp [ftab_concatenate_rows, hc]
  · intro hc
    refine ⟨_, ftab_concatenate_rows_spec Tp D hc hT hD, rfl, rfl,
      rows_of_concat Tp D _ hc hT rfl, ?_, rfl⟩
    have hl : (Tp.cells ++ D.cells).length = (Tp.nrow + D.nrow) * Tp.ncol := by
      rw [List.length_append, ftab_t.cells, ftab_t.cells, List.length_take, List.length_take,
        Nat.add_mul, hc]
      rw [hc] at hT
      omega
    show List.take ((Tp.nrow + D.nrow) * Tp.ncol) (Tp.cells ++ D.cells) = _
    rw [← hl, List.take_length]

theorem ftab_concatenate_rows_correct_witness :
    ftab_concatenate_rows none (some (⟨[5, 6], 1, 2, 1, none⟩ : ftab_t Int)) =
      ftab_copy ⟨[5, 6], 1, 2, 1, none⟩ ∧
    ftab_concatenate_rows none (some (⟨[5, 6], 1, 2, 1, none⟩ : ftab_t Int)) =
      .ok (some ⟨(⟨[5, 6], 1, 2, 1, none⟩ : ftab_t Int).cells, 1, 2, 1, none⟩) ∧
    ftab_concatenate_rows
        (some (⟨[1, 2, 3, 4], 2, 2, 2, some [some ['x'], some ['y']]⟩ : ftab_t Int)) none =
      ftab_copy ⟨[1, 2, 3, 4], 2, 2, 2, some [some ['x'], some ['y']]⟩ ∧
    ftab_concatenate_rows
        (some (⟨[1, 2, 3, 4], 2, 2, 2, some [some ['x'], some ['y']]⟩ : ftab_t Int)) none =
      .ok (some ⟨(⟨[1, 2, 3, 4], 2, 2, 2, some [some ['x'], some ['y']]⟩ : ftab_t Int).cells,
        2, 2, 2, some [some ['x'], some ['y']]⟩) ∧
    (ftab_concatenate_rows
        (some (⟨[1, 2, 3, 4], 2, 2, 2, some [some ['x'], some ['y']]⟩ : ftab_t Int))
        (some ⟨[5, 6], 1, 2, 1, none⟩) = .ok none ↔ (2 : Nat) ≠ 2) ∧
    ((2 : Nat) = 2 →
      ∃ C, ftab_concatenate_rows
          (some (⟨[1, 2, 3, 4], 2, 2, 2, some [some ['x'], some ['y']]⟩ : ftab_t Int))
          (some ⟨[5, 6], 1, 2, 1, none⟩) = .ok (some C) ∧
        C.ncol = 2 ∧ C.nrow = 2 + 1 ∧
        C.rows =
          (⟨[1, 2, 3, 4], 2, 2, 2, some [some ['x'], some ['y']]⟩ : ftab_t Int).rows ++
            (⟨[5, 6], 1, 2, 1, none⟩ : ftab_t Int).rows ∧
        C.cells =
          (⟨[1, 2, 3, 4], 2, 2, 2, some [some ['x'], some ['y']]⟩ : ftab_t Int).cells ++
            (⟨[5, 6], 1, 2, 1, none⟩ : ftab_t Int).cells ∧
        C.colnames = none) :=
  ftab_concatenate_rows_correct
    (⟨[1, 2, 3, 4], 2, 2, 2, some [some ['x'], some ['y']]⟩ : ftab_t Int)
    ⟨[5, 6], 1, 2, 1, none⟩ (by decide) (by decide)
    (fun arr h => by cases h; rfl) (fun arr h => by cases h)

/-! ## Column concatenation -/

/-- C7 (column concatenation), the failing input: two tables without names, as returned by
`ftab_new(1)`, have equal row counts, and `ftab_concatenate_columns` reads `L->colnames[0]`
through the null pointer `L->colnames` instead of returning the two-column table. -/
theorem ftab_concatenate_columns_unnamed_fault :
    (ftab_new 1 : Option (ftab_t Int)) = some ⟨List.replicate 1024 0, 0, 1, 1024, none⟩ ∧
    ftab_concatenate_columns (⟨List.replicate 1024 0, 0, 1, 1024, none⟩ : ftab_t Int)
      ⟨List.replicate 1024 0, 0, 1, 1024, none⟩ = .error .memory_fault := by
  constructor
  · rfl
  · rfl

/-! ## Row selection -/

theorem kept_succ (mask : List Nat) (k : Nat) :
    kept mask (k + 1) = if 0 < mask[k]?.getD 0 then kept mask k ++ [k] else kept mask k := by
  unfold kept
  rw [List.range_succ, List.filter_append]
  by_cases h : 0 < mask[k]?.getD 0
  · simp [h]
  · simp [h]

theorem kept_length_le (mask : List Nat) (k : Nat) : (kept mask k).length ≤ k := by
  unfold kept
  calc _ ≤ (List.range k).length := List.length_filter_le _ _
    _ = k := List.length_range k

theorem kept_lt (mask : List Nat) (k : Nat) : ∀ i ∈ kept mask k, i < k := by
  intro i hi
  unfold kept at hi
  simpa using (List.mem_filter.mp hi).1

theorem kept_length_countP (mask : List Nat) :
    (kept mask mask.length).length = mask.countP (fun x => decide (0 < x)) := by
  induction mask with
  | nil => rfl
  | cons a m ih =>
    unfold kept at ih ⊢
    rw [List.length_cons, List.range_succ_eq_map, List.filter_cons, List.filter_map,
      List.countP_cons]
    have hf : ((fun i => decide (0 < (a :: m)[i]?.getD 0)) ∘ Nat.succ) =
        (fun i => decide (0 < m[i]?.getD 0)) := by
      funext i; simp
    rw [hf]
    by_cases h : 0 < a
    · simp [h, ih]
    · simp [h, ih]

theorem kept_all (mask : List Nat) (k : Nat) (hk : k ≤ mask.length) (h : ∀ x ∈ mask, 0 < x) :
    kept mask k = List.range k := by
  unfold kept
  apply List.filter_eq_self.mpr
  intro i hi
  have hi1 : i < mask.length := by
    have := List.mem_range.mp hi; omega
  have : mask[i]?.getD 0 = mask[i] := by simp [hi1]
  simp only [this, h mask[i] (List.getElem_mem _)]
  decide

theorem kept_none (mask : List Nat) (k : Nat) (h : ∀ x ∈ mask, x = 0) : kept mask k = [] := by
  unfold kept
  apply List.filter_eq_nil_iff.mpr
  intro i _
  by_cases hi1 : i < mask.length
  · have : mask[i]?.getD 0 = mask[i] := by simp [hi1]
    simp only [this, h mask[i] (List.getElem_mem _)]
    decide
  · simp [List.getElem?_eq_none (not_lt.mp hi1)]

theorem load_nat {α : Type} (p : List α) (i : Nat) (h : i < p.length) :
    load p (i : Int) = .ok p[i] := by
  unfold load
  simp [List.getElem?_eq_getElem h]

theorem subselect_row_step {α : Type} (n : Nat) (orig : List α) (mask : List Nat) (nrow k : Nat)
    (hlen : nrow * n ≤ orig.length) (hm : mask.length = nrow) (hk : k < nrow)
    (st : List α × Nat) (hst : subselected n orig mask k st) :
    ∃ st1, subselect_row n mask k st = .ok st1 ∧ subselected n orig mask (k + 1) st1 := by
  obtain ⟨buf, nsel⟩ := st
  obtain ⟨h1, h2, h3, h4⟩ := hst
  simp only at h1 h2 h3 h4
  have hle : nsel ≤ k := by rw [h1]; exact kept_length_le mask k
  have hk1 : (k + 1) * n ≤ orig.length := le_trans (Nat.mul_le_mul_right n hk) hlen
  have e1 : (k + 1) * n = k * n + n := by ring
  have hdrop : buf.drop ((k + 1) * n) = orig.drop ((k + 1) * n) := by
    rw [e1, ← List.drop_drop, ← List.drop_drop, h4]
  have hrow : (buf.drop (k * n)).take n = row_of n orig k := by rw [h4]; rfl
  have hmk : mask[k]?.getD 0 = mask[k] := by
    simp [hm, hk]
  unfold subselect_row
  rw [load_nat mask k (by omega)]
  simp only [gt_iff_lt]
  by_cases hsel : 0 < mask[k]
  · have hks : kept mask (k + 1) = kept mask k ++ [k] := by
      rw [kept_succ, hmk, if_pos hsel]
    simp only [hsel, if_true]
    by_cases hkn : k = nsel
    · have hne : ¬(k ≠ nsel) := not_not.mpr hkn
      rw [if_neg hne]
      refine ⟨_, rfl, ?_, h2, ?_, hdrop⟩
      · show nsel + 1 = (kept mask (k + 1)).length
        rw [hks, List.length_append, ← h1]; rfl
      · show List.take ((nsel + 1) * n) buf = _
        rw [hks, List.map_append, List.flatten_append, ← h3]
        conv_lhs => rw [← hkn, e1, List.take_add, hrow]
        simp [hkn]
    · have hlt : nsel < k := by omega
      have e2 : (nsel + 1) * n = nsel * n + n := by ring
      have hns : nsel * n + n ≤ k * n := by
        rw [← e2]; exact Nat.mul_le_mul_right n hlt
      have hcond : k * n + n ≤ buf.length ∧ nsel * n + n ≤ buf.length := by
        rw [h2]; constructor <;> omega
      simp only [ne_eq, hkn, not_false_eq_true, if_true, memcpy, hcond, and_self]
      rw [hrow]
      have hl1 : (buf.take (nsel * n)).length = nsel * n := by
        rw [List.length_take, h2]; omega
      have hl2 : (row_of n orig k).length = n := row_of_length n orig k hk1
      refine ⟨_, rfl, ?_, ?_, ?_, ?_⟩
      · show nsel + 1 = (kept mask (k + 1)).length
        rw [hks, List.length_append, ← h1]; rfl
      · simp only [List.length_append, hl1, hl2, List.length_drop, h2]
        omega
      · show List.take ((nsel + 1) * n) _ = _
        rw [hks, List.map_append, List.flatten_append, ← h3]
        rw [List.take_append_of_le_length (by
          simp only [List.length_append, hl1, hl2]; omega)]
        rw [List.take_of_length_le (by
          simp only [List.length_append, hl1, hl2]; omega)]
        simp
      · show List.drop ((k + 1) * n) _ = _
        have hl12 : (buf.take (nsel * n) ++ row_of n orig k).length = nsel * n + n := by
          simp only [List.length_append, hl1, hl2]
        have e3 : (k + 1) * n = (nsel * n + n) + ((k + 1) * n - (nsel * n + n)) := by omega
        rw [e3, ← hl12, List.drop_append, List.drop_drop, hl12, ← e3]
        exact hdrop
  · have hks : kept mask (k + 1) = kept mask k := by
      rw [kept_succ, hmk, if_neg hsel]
    simp only [hsel, if_false]
    exact ⟨_, rfl, by rw [hks]; exact h1, h2, by rw [hks]; exact h3, hdrop⟩

theorem subselect_loop {α : Type} (n : Nat) (orig : List α) (mask : List Nat) (nrow : Nat)
    (hlen : nrow * n ≤ orig.length) (hm : mask.length = nrow) (m : Nat) :
    ∀ k st, k + m = nrow → subselected n orig mask k st →
      ∃ st1, for_loop (subselect_row n mask) m k st = .ok st1 ∧
        subselected n orig mask nrow st1 := by
  induction m with
  | zero =>
    intro k st hk hst
    simp only [Nat.add_zero] at hk
    subst hk
    exact ⟨st, rfl, hst⟩
  | succ m ih =>
    intro k st hk hst
    obtain ⟨st1, hs1, hst1⟩ :=
      subselect_row_step n orig mask nrow k hlen hm (by omega) st hst
    obtain ⟨st2, hs2, hst2⟩ := ih (k + 1) st1 (by omega) hst1
    exact ⟨st2, by rw [for_loop, hs1]; exact hs2, hst2⟩

theorem ftab_subselect_rows_spec {α : Type} (T : ftab_t α) (mask : List Nat)
    (hT : T.nrow * T.ncol ≤ T.T.length) (hm : mask.length = T.nrow) :
    ∃ T1, ftab_subselect_rows T mask = .ok T1 ∧
      T1.rows = (kept mask T.nrow).map T.row ∧ T1.nrow = (kept mask T.nrow).length ∧
      T1.nrow_alloc = T.nrow_alloc ∧ T1.ncol = T.ncol ∧ T1.colnames = T.colnames ∧
      T1.T.length = T.T.length := by
  obtain ⟨st, hs, h1, h2, h3, _⟩ :=
    subselect_loop T.ncol T.T mask T.nrow hT hm T.nrow 0 (T.T, 0) (by omega)
      ⟨by simp [kept], rfl, by simp [kept], rfl⟩
  refine ⟨{ T with T := st.1, nrow := st.2 }, ?_, ?_, h1, rfl, rfl, rfl, h2⟩
  · unfold ftab_subselect_rows
    rw [hs]
  · have huni : ∀ r ∈ (kept mask T.nrow).map (row_of T.ncol T.T), r.length = T.ncol := by
      intro r hr
      obtain ⟨i, hi, rfl⟩ := List.mem_map.mp hr
      exact row_of_length _ _ _
        (le_trans (Nat.mul_le_mul_right _ (kept_lt mask T.nrow i hi)) hT)
    have hsplit : st.1 = ((kept mask T.nrow).map (row_of T.ncol T.T)).flatten ++
        st.1.drop (st.2 * T.ncol) := by
      rw [← h3, List.take_append_drop]
    have := map_row_of_flatten T.ncol _ huni (st.1.drop (st.2 * T.ncol))
    rw [← hsplit, List.length_map, ← h1] at this
    exact this

/-- C4 (row selection): for a table whose valid cells lie inside its buffer and a mask with
one entry per row, `ftab_subselect_rows` leaves as valid rows the original rows whose mask
entry is nonzero, in their original order; `nrow` is the number of nonzero entries;
`nrow_alloc`, `ncol` and the names are unchanged.  An all-nonzero mask keeps rows and count,
an all-zero mask gives `nrow = 0`. -/
theorem ftab_subselect_rows_correct {α : Type} (T : ftab_t α) (mask : List Nat)
    (hT : T.nrow * T.ncol ≤ T.T.length) (hm : mask.length = T.nrow) :
    ∃ T1, ftab_subselect_rows T mask = .ok T1 ∧
      T1.rows = (kept mask T.nrow).map T.row ∧ T1.rows.Sublist T.rows ∧
      T1.nrow = mask.countP (fun x => decide (0 < x)) ∧
      T1.nrow_alloc = T.nrow_alloc ∧ T1.ncol = T.ncol ∧ T1.colnames = T.colnames ∧
      ((∀ x ∈ mask, 0 < x) → T1.rows = T.rows ∧ T1.nrow = T.nrow) ∧
      ((∀ x ∈ mask, x = 0) → T1.nrow = 0) := by
  obtain ⟨T1, h0, h1, h2, h3, h4, h5, _⟩ := ftab_subselect_rows_spec T mask hT hm
  refine ⟨T1, h0, h1, ?_, ?_, h3, h4, h5, ?_, ?_⟩
  · rw [h1]
    exact List.Sublist.map _ (List.filter_sublist _)
  · rw [h2, ← hm, kept_length_countP]
  · intro hall
    have hk := kept_all mask T.nrow (by omega) hall
    constructor
    · rw [h1, hk]; rfl
    · rw [h2, hk, List.length_range]
  · intro hall
    rw [h2, kept_none mask T.nrow hall]
    rfl

theorem ftab_subselect_rows_correct_witness :
    ∃ T1, ftab_subselect_rows (⟨[1, 2, 3, 4, 5, 6, 0, 0], 3, 2, 4, none⟩ : ftab_t Int)
        [0, 1, 7] = .ok T1 ∧
      T1.rows = (kept [0, 1, 7] 3).map
        (⟨[1, 2, 3, 4, 5, 6, 0, 0], 3, 2, 4, none⟩ : ftab_t Int).row ∧
      T1.rows.Sublist (⟨[1, 2, 3, 4, 5, 6, 0, 0], 3, 2, 4, none⟩ : ftab_t Int).rows ∧
      T1.nrow = [0, 1, 7].countP (fun x => decide (0 < x)) ∧
      T1.nrow_alloc = 4 ∧ T1.ncol = 2 ∧ T1.colnames = none ∧
      ((∀ x ∈ [0, 1, 7], 0 < x) →
        T1.rows = (⟨[1, 2, 3, 4, 5, 6, 0, 0], 3, 2, 4, none⟩ : ftab_t Int).rows ∧ T1.nrow = 3) ∧
      ((∀ x ∈ [0, 1, 7], x = 0) → T1.nrow = 0) :=
  ftab_subselect_rows_correct (⟨[1, 2, 3, 4, 5, 6, 0, 0], 3, 2, 4, none⟩ : ftab_t Int)
    [0, 1, 7] (by decide) (by decide)

/-! ## Sorting -/

theorem ftab_sort_pair_cmp_le {α : Type} [LinearOrder α] (a b : ftab_sort_pair α) :
    ftab_sort_pair_cmp a b ≤ 0 ↔ b.value ≤ a.value := by
  unfold ftab_sort_pair_cmp
  by_cases h1 : a.value = b.value
  · simp [h1]
  · by_cases h2 : a.value < b.value
    · simp [h1, h2]
    · simp only [h1, h2, if_false]
      constructor
      · intro _; exact not_lt.mp h2
      · intro _; decide

theorem ftab_sort_fill_loop {α : Type} [Zero α] (T : ftab_t α) (c : Nat) (hc : c < T.ncol)
    (hT : T.nrow * T.ncol ≤ T.T.length) (d : ftab_sort_pair α) (m : Nat) :
    ∀ k, k + m = T.nrow →
      for_loop (ftab_sort_fill T (c : Int)) m k
        ((List.range k).map (sort_pair_of T c) ++ List.replicate m d) =
        .ok ((List.range T.nrow).map (sort_pair_of T c)) := by
  induction m with
  | zero =>
    intro k hk
    simp only [Nat.add_zero] at hk
    simp [for_loop, hk]
  | succ m ih =>
    intro k hk
    have hkn : k < T.nrow := by omega
    have hidx : k * T.ncol + c < T.T.length := by
      have : (k + 1) * T.ncol ≤ T.nrow * T.ncol := Nat.mul_le_mul_right _ hkn
      have e : (k + 1) * T.ncol = k * T.ncol + T.ncol := by ring
      omega
    have hload : load T.T (((k * T.ncol : Nat) : Int) + (c : Int)) =
        .ok T.T[k * T.ncol + c] := by
      have : ((k * T.ncol : Nat) : Int) + (c : Int) = ((k * T.ncol + c : Nat) : Int) := by
        push_cast; ring
      rw [this, load_nat T.T _ hidx]
    have hval : sort_pair_of T c k = { value := T.T[k * T.ncol + c], idx := k } := by
      simp [sort_pair_of, List.getElem?_eq_getElem hidx]
    have hlen : ((List.range k).map (sort_pair_of T c)).length = k := by simp
    have hstep : ftab_sort_fill T (c : Int) k
        ((List.range k).map (sort_pair_of T c) ++ List.replicate (m + 1) d) =
        .ok ((List.range (k + 1)).map (sort_pair_of T c) ++ List.replicate m d) := by
      unfold ftab_sort_fill
      rw [hload]
      simp only [store, List.length_append, hlen, List.length_replicate]
      rw [if_pos (by omega)]
      rw [List.set_append_right _ _ (by rw [hlen]), hlen, Nat.sub_self, List.replicate_succ,
        List.set_cons_zero, List.range_succ, List.map_append, ← hval]
      simp
    rw [for_loop, hstep]
    exact ih (k + 1) (by omega)

theorem ftab_sort_move_loop {α : Type} [Zero α] (T : ftab_t α) (P : List (ftab_sort_pair α))
    (hT : T.nrow * T.ncol ≤ T.T.length) (cap : Nat) (hcap : T.nrow * T.ncol ≤ cap)
    (hP : P.length = T.nrow) (hidx : ∀ p ∈ P, p.idx < T.nrow) (m : Nat) :
    ∀ k, k + m = T.nrow →
      for_loop (ftab_sort_move T P) m k
        (((P.take k).map (fun p => row_of T.ncol T.T p.idx)).flatten ++
          List.replicate (cap - k * T.ncol) (0 : α)) =
        .ok ((P.map (fun p => row_of T.ncol T.T p.idx)).flatten ++
          List.replicate (cap - T.nrow * T.ncol) (0 : α)) := by
  induction m with
  | zero =>
    intro k hk
    simp only [Nat.add_zero] at hk
    subst hk
    rw [← hP, List.take_length]
    rfl
  | succ m ih =>
    intro k hk
    have hkn : k < T.nrow := by omega
    have hkP : k < P.length := by omega
    have e1 : (k + 1) * T.ncol = k * T.ncol + T.ncol := by ring
    have hk1 : (k + 1) * T.ncol ≤ T.nrow * T.ncol := Nat.mul_le_mul_right _ hkn
    have hp : P[k].idx < T.nrow := hidx _ (List.getElem_mem _)
    have hp1 : (P[k].idx + 1) * T.ncol ≤ T.nrow * T.ncol := Nat.mul_le_mul_right _ hp
    have e2 : (P[k].idx + 1) * T.ncol = P[k].idx * T.ncol + T.ncol := by ring
    have huni : ∀ r ∈ (P.take k).map (fun p => row_of T.ncol T.T p.idx),
        r.length = T.ncol := by
      intro r hr
      obtain ⟨p, hpm, rfl⟩ := List.mem_map.mp hr
      have := hidx p (List.mem_of_mem_take hpm)
      exact row_of_length _ _ _ (le_trans (Nat.mul_le_mul_right _ this) hT)
    have hfl : (((P.take k).map (fun p => row_of T.ncol T.T p.idx)).flatten).length =
        k * T.ncol := by
      rw [flatten_uniform_length T.ncol _ huni]
      simp [List.length_take, Nat.min_eq_left (le_of_lt hkP)]
    have hstep : ftab_sort_move T P k
        (((P.take k).map (fun p => row_of T.ncol T.T p.idx)).flatten ++
          List.replicate (cap - k * T.ncol) (0 : α)) =
        .ok (((P.take (k + 1)).map (fun p => row_of T.ncol T.T p.idx)).flatten ++
          List.replicate (cap - (k + 1) * T.ncol) (0 : α)) := by
      unfold ftab_sort_move
      have hget : P.get? k = some P[k] := by simp [List.getElem?_eq_getElem hkP]
      rw [hget]
      simp only
      have hcond : P[k].idx * T.ncol + T.ncol ≤ T.T.length ∧ k * T.ncol + T.ncol ≤
          (((P.take k).map (fun p => row_of T.ncol T.T p.idx)).flatten ++
            List.replicate (cap - k * T.ncol) (0 : α)).length := by
        rw [List.length_append, hfl, List.length_replicate]
        constructor <;> omega
      rw [memcpy, if_pos hcond, List.take_left' hfl]
      have hd : List.drop (k * T.ncol + T.ncol)
          (((P.take k).map (fun p => row_of T.ncol T.T p.idx)).flatten ++
            List.replicate (cap - k * T.ncol) (0 : α)) =
          List.replicate (cap - (k + 1) * T.ncol) (0 : α) := by
        rw [← hfl, List.drop_append, hfl, List.drop_replicate]
        congr 1
        omega
      have htk : P.take (k + 1) = P.take k ++ [P[k]] := by
        rw [List.take_succ, List.getElem?_eq_getElem hkP]; rfl
      rw [hd, htk, List.map_append, List.flatten_append]
      simp [row_of]
    rw [for_loop, hstep]
    exact ih (k + 1) (by omega)

theorem ftab_sort_spec {α : Type} [Zero α] [LinearOrder α]
    (qsort : (ftab_sort_pair α → ftab_sort_pair α → Int) → List (ftab_sort_pair α) →
      List (ftab_sort_pair α))
    (T : ftab_t α) (c : Nat)
    (hperm : ∀ l, (qsort ftab_sort_pair_cmp l).Perm l)
    (hT : T.nrow * T.ncol ≤ T.T.length) (hcap : T.nrow ≤ T.nrow_alloc) (hc : c < T.ncol) :
    ∃ T1 P, ftab_sort qsort T (c : Int) = .ok T1 ∧
      P = qsort ftab_sort_pair_cmp ((List.range T.nrow).map (sort_pair_of T c)) ∧
      T1.rows = P.map (fun p => T.row p.idx) ∧
      T1.nrow = T.nrow ∧ T1.ncol = T.ncol ∧ T1.nrow_alloc = T.nrow_alloc ∧
      T1.colnames = T.colnames := by
  have hP0 := hperm ((List.range T.nrow).map (sort_pair_of T c))
  generalize hPdef : qsort ftab_sort_pair_cmp ((List.range T.nrow).map (sort_pair_of T c)) = P
    at hP0
  have hPlen : P.length = T.nrow := by rw [hP0.length_eq]; simp
  have hidx : ∀ p ∈ P, p.idx < T.nrow := by
    intro p hp
    obtain ⟨kk, hkk, rfl⟩ := List.mem_map.mp (hP0.mem_iff.mp hp)
    simpa [sort_pair_of] using hkk
  have hcapn : T.nrow * T.ncol ≤ T.ncol * T.nrow_alloc := by
    rw [Nat.mul_comm T.ncol]; exact Nat.mul_le_mul_right _ hcap
  have hfill := ftab_sort_fill_loop T c hc hT { value := 0, idx := 0 } T.nrow 0 (by omega)
  have hmove := ftab_sort_move_loop T P hT (T.ncol * T.nrow_alloc) hcapn hPlen hidx T.nrow 0
    (by omega)
  simp only [List.range_zero, List.map_nil, List.nil_append, List.take_zero,
    List.flatten_nil, Nat.zero_mul, Nat.sub_zero] at hfill hmove
  have hne : ¬((c : Int) = -1) := by omega
  refine ⟨{ T with T := (P.map (fun p => row_of T.ncol T.T p.idx)).flatten ++
      List.replicate (T.ncol * T.nrow_alloc - T.nrow * T.ncol) (0 : α) }, P, ?_, rfl, ?_,
    rfl, rfl, rfl, rfl⟩
  · unfold ftab_sort
    rw [if_neg hne, hfill]
    simp only [hPdef, calloc, hmove]
  · have huni : ∀ r ∈ P.map (fun p => row_of T.ncol T.T p.idx), r.length = T.ncol := by
      intro r hr
      obtain ⟨p, hpm, rfl⟩ := List.mem_map.mp hr
      exact row_of_length _ _ _ (le_trans (Nat.mul_le_mul_right _ (hidx p hpm)) hT)
    have := map_row_of_flatten T.ncol _ huni
      (List.replicate (T.ncol * T.nrow_alloc - T.nrow * T.ncol) (0 : α))
    rw [List.length_map, hPlen] at this
    exact this

theorem sort_pair_value {α : Type} [Zero α] (T : ftab_t α) (c : Nat) (hc : c < T.ncol)
    (hT : T.nrow * T.ncol ≤ T.T.length) (p : ftab_sort_pair α)
    (hp : p ∈ (List.range T.nrow).map (sort_pair_of T c)) :
    (T.row p.idx)[c]? = some p.value := by
  obtain ⟨kk, hkk, rfl⟩ := List.mem_map.mp hp
  have hkn : kk < T.nrow := List.mem_range.mp hkk
  have hidx : kk * T.ncol + c < T.T.length := by
    have : (kk + 1) * T.ncol ≤ T.nrow * T.ncol := Nat.mul_le_mul_right _ hkn
    have e : (kk + 1) * T.ncol = kk * T.ncol + T.ncol := by ring
    omega
  unfold ftab_t.row
  rw [row_of_getElem? _ _ _ _ hc]
  simp [sort_pair_of, List.getElem?_eq_getElem hidx]

theorem insertion_qsort_perm {α : Type} [LinearOrder α] (l : List (ftab_sort_pair α)) :
    (insertion_qsort ftab_sort_pair_cmp l).Perm l :=
  List.perm_insertionSort _ l

theorem insertion_qsort_sorted {α : Type} [LinearOrder α] (l : List (ftab_sort_pair α)) :
    (insertion_qsort ftab_sort_pair_cmp l).Pairwise
      (fun a b => ftab_sort_pair_cmp a b ≤ 0) := by
  haveI : IsTotal (ftab_sort_pair α) (fun a b => ftab_sort_pair_cmp a b ≤ 0) :=
    ⟨fun a b => by
      rw [ftab_sort_pair_cmp_le, ftab_sort_pair_cmp_le]
      exact le_total b.value a.value⟩
  haveI : IsTrans (ftab_sort_pair α) (fun a b => ftab_sort_pair_cmp a b ≤ 0) :=
    ⟨fun a b c h1 h2 => by
      rw [ftab_sort_pair_cmp_le] at h1 h2 ⊢
      exact le_trans h2 h1⟩
  exact List.sorted_insertionSort _ l

/-- C3 (sort correctness): let `qsort` return, for the comparison `ftab_sort_pair_cmp`, a
permutation of its input in which no element compares greater than a later one.  For a
table of totally ordered cells with `nrow ≤ nrow_alloc` whose valid cells lie inside the
buffer and a column `c < ncol`, `ftab_sort` returns a table whose rows are a permutation of
the rows before, whose cells in column `c` never increase from a row to a later one (in
particular from row `i` to row `i + 1`), and whose `nrow`, `ncol`, `nrow_alloc` and names
are unchanged. -/
theorem ftab_sort_correct {α : Type} [Zero α] [LinearOrder α]
    (qsort : (ftab_sort_pair α → ftab_sort_pair α → Int) → List (ftab_sort_pair α) →
      List (ftab_sort_pair α))
    (T : ftab_t α) (c : Nat)
    (hperm : ∀ l, (qsort ftab_sort_pair_cmp l).Perm l)
    (hsort : ∀ l, (qsort ftab_sort_pair_cmp l).Pairwise (fun a b => ftab_sort_pair_cmp a b ≤ 0))
    (hT : T.nrow * T.ncol ≤ T.T.length) (hcap : T.nrow ≤ T.nrow_alloc) (hc : c < T.ncol) :
    ∃ T1, ftab_sort qsort T (c : Int) = .ok T1 ∧
      T1.rows.Perm T.rows ∧
      T1.rows.Pairwise (fun r1 r2 => ∃ x y, r1[c]? = some x ∧ r2[c]? = some y ∧ y ≤ x) ∧
      (∀ i, i + 1 < T.nrow →
        ∃ x y, T1.T[i * T.ncol + c]? = some x ∧ T1.T[(i + 1) * T.ncol + c]? = some y ∧ y ≤ x) ∧
      T1.nrow = T.nrow ∧ T1.ncol = T.ncol ∧ T1.nrow_alloc = T.nrow_alloc ∧
      T1.colnames = T.colnames := by
  obtain ⟨T1, P, h0, hP, hrows, hn, hnc, hna, hnm⟩ := ftab_sort_spec qsort T c hperm hT hcap hc
  have hPperm : P.Perm ((List.range T.nrow).map (sort_pair_of T c)) := by
    rw [hP]; exact hperm _
  have hPsort : P.Pairwise (fun a b => ftab_sort_pair_cmp a b ≤ 0) := by
    rw [hP]; exact hsort _
  have hpair : T1.rows.Pairwise
      (fun r1 r2 => ∃ x y, r1[c]? = some x ∧ r2[c]? = some y ∧ y ≤ x) := by
    rw [hrows, List.pairwise_map]
    refine List.Pairwise.imp_of_mem ?_ hPsort
    intro a b ha hb hab
    exact ⟨a.value, b.value, sort_pair_value T c hc hT a (hPperm.mem_iff.mp ha),
      sort_pair_value T c hc hT b (hPperm.mem_iff.mp hb), (ftab_sort_pair_cmp_le a b).mp hab⟩
  refine ⟨T1, h0, ?_, hpair, ?_, hn, hnc, hna, hnm⟩
  · rw [hrows]
    have : T.rows = ((List.range T.nrow).map (sort_pair_of T c)).map (fun p => T.row p.idx) := by
      rw [List.map_map]; rfl
    rw [this]
    exact hPperm.map _
  · intro i hi
    have hlen : T1.rows.length = T.nrow := by simp [ftab_t.rows, hn]
    have hi0 : i < T1.rows.length := by omega
    have hi1 : i + 1 < T1.rows.length := by omega
    have h := (List.pairwise_iff_getElem.mp hpair) i (i + 1) hi0 hi1 (by omega)
    obtain ⟨x, y, hx, hy, hxy⟩ := h
    have hri : T1.rows[i] = row_of T.ncol T1.T i := by
      simp [ftab_t.rows, ftab_t.row, hnc]
    have hrj : T1.rows[i + 1] = row_of T.ncol T1.T (i + 1) := by
      simp [ftab_t.rows, ftab_t.row, hnc]
    rw [hri, row_of_getElem? _ _ _ _ hc] at hx
    rw [hrj, row_of_getElem? _ _ _ _ hc] at hy
    exact ⟨x, y, hx, hy, hxy⟩

theorem ftab_sort_correct_witness :
    ftab_sort insertion_qsort
        (⟨[1, 2, 1.5, 3, 4, 2.5], 2, 3, 2, some [some ['x'], some ['y'], some ['v']]⟩ : ftab_t ℚ)
        ((2 : Nat) : Int) =
      .ok ⟨[3, 4, 2.5, 1, 2, 1.5], 2, 3, 2, some [some ['x'], some ['y'], some ['v']]⟩ ∧
    ∃ T1, ftab_sort insertion_qsort
        (⟨[1, 2, 1.5, 3, 4, 2.5], 2, 3, 2, some [some ['x'], some ['y'], some ['v']]⟩ : ftab_t ℚ)
        ((2 : Nat) : Int) = .ok T1 ∧
      T1.rows.Perm
        (⟨[1, 2, 1.5, 3, 4, 2.5], 2, 3, 2, some [some ['x'], some ['y'], some ['v']]⟩ :
          ftab_t ℚ).rows ∧
      T1.rows.Pairwise (fun r1 r2 => ∃ x y, r1[2]? = some x ∧ r2[2]? = some y ∧ y ≤ x) ∧
      (∀ i, i + 1 < 2 →
        ∃ x y, T1.T[i * 3 + 2]? = some x ∧ T1.T[(i + 1) * 3 + 2]? = some y ∧ y ≤ x) ∧
      T1.nrow = 2 ∧ T1.ncol = 3 ∧ T1.nrow_alloc = 2 ∧
      T1.colnames = some [some ['x'], some ['y'], some ['v']] :=
  ⟨by
      have h2 : Int.toNat 2 = 2 := rfl
      have h5 : Int.toNat 5 = 5 := rfl
      norm_num [ftab_sort, ftab_sort_fill, ftab_sort_move, for_loop, load, store, memcpy,
        calloc, insertion_qsort, ftab_sort_pair_cmp, List.insertionSort, List.orderedInsert,
        h2, h5],
    ftab_sort_correct insertion_qsort
      (⟨[1, 2, 1.5, 3, 4, 2.5], 2, 3, 2, some [some ['x'], some ['y'], some ['v']]⟩ : ftab_t ℚ)
      2 insertion_qsort_perm insertion_qsort_sorted (by decide) (by decide) (by decide)⟩

/-! ## Header parsing -/

theorem splitOn_nil (d : Char) : ([] : List Char).splitOn d = [[]] := rfl

theorem splitOn_cons (d c : Char) (cs : List Char) :
    (c :: cs).splitOn d =
      if c = d then [] :: cs.splitOn d else (cs.splitOn d).modifyHead (List.cons c) := by
  unfold List.splitOn
  rw [List.splitOnP_cons]
  by_cases h : c = d
  · simp [h]
  · simp [h]

theorem splitOn_ne_nil (d : Char) (s : List Char) : s.splitOn d ≠ [] :=
  List.splitOnP_ne_nil _ _

theorem strsep_scan_splitOn (d : Char) (s : List Char) :
    s.splitOn d =
      match (strsep_scan [d] s).2 with
      | none => [(strsep_scan [d] s).1]
      | some r => (strsep_scan [d] s).1 :: r.splitOn d := by
  induction s with
  | nil => rfl
  | cons c cs ih =>
    rw [splitOn_cons]
    unfold strsep_scan
    by_cases h : c = d
    · simp [h]
    · have hm : ¬(c ∈ [d]) := by simpa using h
      simp only [h, hm, if_false]
      rw [ih]
      cases (strsep_scan [d] cs).2 <;> rfl

theorem length_splitOn (d : Char) (s : List Char) :
    (s.splitOn d).length = 1 + s.count d := by
  induction s with
  | nil => rfl
  | cons c cs ih =>
    rw [splitOn_cons, List.count_cons]
    by_cases h : c = d
    · simp [h, ih]; omega
    · have h1 : (c == d) = false := by simpa using h
      simp only [h, if_false, h1]
      cases hs : cs.splitOn d with
      | nil => exact absurd hs (splitOn_ne_nil d cs)
      | cons a l => rw [hs] at ih; simpa [List.modifyHead] using ih

theorem trim_first_eq (s : List Char) :
    s.drop (trim_first s) = s.dropWhile (fun c => decide (c = ' ')) := by
  induction s with
  | nil => rfl
  | cons c cs ih =>
    unfold trim_first
    by_cases h : c = ' '
    · simp [h, ih]
    · simp [h]

theorem trim_first_le (s : List Char) : trim_first s ≤ s.length := by
  induction s with
  | nil => simp [trim_first]
  | cons c cs ih =>
    unfold trim_first
    by_cases h : c = ' '
    · simp [h]; omega
    · simp [h]

theorem trim_last_spec (str : List Char) (first : Nat) (m : Nat) :
    first ≤ m → m ≤ str.length →
      first ≤ trim_last str first m ∧ trim_last str first m ≤ m ∧
      (str.take (trim_last str first m)).drop first =
        ((str.take m).drop first).rdropWhile
          (fun c => decide (c = ' ' ∨ c = '\n' ∨ c = '\r')) := by
  induction m with
  | zero =>
    intro h1 _
    have : first = 0 := by omega
    subst this
    simp [trim_last]
  | succ m ih =>
    intro h1 h2
    have hm : m < str.length := by omega
    unfold trim_last
    by_cases hf : first ≤ m
    · have htk : (str.take (m + 1)).drop first = (str.take m).drop first ++ [str[m]] := by
        rw [List.take_succ, List.getElem?_eq_getElem hm]
        simp only [Option.toList]
        rw [List.drop_append_of_le_length (by rw [List.length_take]; omega)]
      have hget : str.get? m = some str[m] := by simp [List.getElem?_eq_getElem hm]
      simp only [hf, if_true, hget]
      by_cases hw : str[m] = ' ' ∨ str[m] = '\n' ∨ str[m] = '\r'
      · obtain ⟨i1, i2, i3⟩ := ih hf (by omega)
        simp only [hw, if_true]
        refine ⟨i1, by omega, ?_⟩
        rw [i3, htk, List.rdropWhile_concat_pos _ _ _ (by simpa using hw)]
      · simp only [hw, if_false]
        refine ⟨h1, le_refl _, ?_⟩
        rw [htk, List.rdropWhile_concat_neg _ _ _ (by simpa using hw)]
    · have : first = m + 1 := by omega
      simp only [hf, if_false]
      refine ⟨h1, le_refl _, ?_⟩
      rw [this, List.drop_of_length_le (by rw [List.length_take]; omega)]
      rfl

theorem trim_whitespace_eq (s : List Char) : trim_whitespace s = trimmed_field s := by
  unfold trim_whitespace trimmed_field
  by_cases h : s.length = 0
  · have : s = [] := List.length_eq_zero.mp h
    subst this
    rfl
  · simp only [h, if_false]
    obtain ⟨h1, h2, h3⟩ := trim_last_spec s (trim_first s) s.length (trim_first_le s) (le_refl _)
    rw [List.take_length] at h3
    rw [← trim_first_eq, ← h3, List.drop_take]

/-- The names stored by the loop of `parse_col_names` for the rest `s` of the line. -/
theorem parse_col_names_loop (d : Char) (m : Nat) :
    ∀ (k : Nat) (s : List Char) (pre : List (Option (List Char))),
      pre.length = k → (s.splitOn d).length = m + 1 →
        for_loop (parse_col_names_token [d]) (m + 1) k
          (some s, pre ++ List.replicate (m + 1) none) =
          .ok (none, pre ++ (s.splitOn d).map (fun f => some (trimmed_field f))) := by
  induction m with
  | zero =>
    intro k s pre hk hlen
    have hsp := strsep_scan_splitOn d s
    have hset : (pre ++ List.replicate 1 (none : Option (List Char))).set k
        (some (trim_whitespace (strsep_scan [d] s).1)) =
        pre ++ [some (trimmed_field (strsep_scan [d] s).1)] := by
      rw [List.set_append_right _ _ (by omega), hk, Nat.sub_self, trim_whitespace_eq]
      rfl
    cases hr : (strsep_scan [d] s).2 with
    | none =>
      rw [hr] at hsp
      simp only [for_loop, parse_col_names_token, strsep, hr, List.length_append, hk,
        List.length_replicate, Nat.lt_add_one, if_true, hset, hsp, List.map_cons, List.map_nil]
    | some r =>
      rw [hr] at hsp
      rw [hsp, List.length_cons] at hlen
      have := splitOn_ne_nil d r
      have : (r.splitOn d).length ≠ 0 := fun h => this (List.length_eq_zero.mp h)
      omega
  | succ m ih =>
    intro k s pre hk hlen
    have hsp := strsep_scan_splitOn d s
    cases hr : (strsep_scan [d] s).2 with
    | none =>
      rw [hr] at hsp
      rw [hsp] at hlen
      simp at hlen
    | some r =>
      rw [hr] at hsp
      rw [hsp, List.length_cons] at hlen
      have hset : (pre ++ List.replicate (m + 1 + 1) (none : Option (List Char))).set k
          (some (trim_whitespace (strsep_scan [d] s).1)) =
          (pre ++ [some (trimmed_field (strsep_scan [d] s).1)]) ++
            List.replicate (m + 1) none := by
        rw [List.set_append_right _ _ (by omega), hk, Nat.sub_self, trim_whitespace_eq,
          List.replicate_succ, List.set_cons_zero]
        simp
      have hstep : parse_col_names_token [d] k
          (some s, pre ++ List.replicate (m + 1 + 1) none) =
          .ok (some r, (pre ++ [some (trimmed_field (strsep_scan [d] s).1)]) ++
            List.replicate (m + 1) none) := by
        simp only [parse_col_names_token, strsep, hr, List.length_append, hk,
          List.length_replicate]
        rw [if_pos (by omega), hset]
      rw [for_loop, hstep]
      simp only
      rw [ih (k + 1) r _ (by simp [hk]) (by omega), hsp]
      simp

theorem parse_col_names_spec {α : Type} (T : ftab_t α) (line : List Char) (d : Char)
    (h : line ≠ []) :
    parse_col_names T line [d] =
      .ok ({ T with ncol := 1 + line.count d,
                    colnames := some ((line.splitOn d).map (fun f => some (trimmed_field f))) },
        1 + line.count d) := by
  unfold parse_col_names
  have hl : ¬(line.length = 0) := fun h0 => h (List.length_eq_zero.mp h0)
  have hcount : line.countP (fun c => decide (some c = [d].head?)) = line.count d := by
    unfold List.count
    congr 1
    funext c
    by_cases hcd : c = d
    · simp [hcd]
    · have : ¬(d = c) := fun e => hcd e.symm
      simp [hcd, this]
  simp only [hl, if_false, hcount]
  have := parse_col_names_loop d (line.count d) 0 line [] rfl
    (by rw [length_splitOn]; omega)
  simp only [List.nil_append] at this
  rw [Nat.add_comm 1, this]

/-- C5 (header parsing): for a non-empty header line and a delimiter character `d`,
`parse_col_names` returns and stores the column count `1 + (occurrences of d)`, which is the
number of `d`-separated fields, and stores for every column the name obtained from the
field at that position by removing all leading spaces and all trailing spaces, carriage
returns and newlines; no entry is left null and other characters are kept in order. -/
theorem parse_col_names_correct {α : Type} (T : ftab_t α) (line : List Char) (d : Char)
    (h : line ≠ []) :
    ∃ T1, parse_col_names T line [d] = .ok (T1, 1 + line.count d) ∧
      T1.ncol = 1 + line.count d ∧
      (line.splitOn d).length = 1 + line.count d ∧
      T1.colnames = some ((line.splitOn d).map (fun f => some (trimmed_field f))) ∧
      (∀ k, k < T1.ncol → ∃ f name, (line.splitOn d)[k]? = some f ∧
        colname_at T1.colnames k = .ok (some name) ∧
        name = (f.dropWhile (fun c => decide (c = ' '))).rdropWhile
          (fun c => decide (c = ' ' ∨ c = '\n' ∨ c = '\r'))) ∧
      T1.T = T.T ∧ T1.nrow = T.nrow ∧ T1.nrow_alloc = T.nrow_alloc := by
  refine ⟨_, parse_col_names_spec T line d h, rfl, length_splitOn d line, rfl, ?_,
    rfl, rfl, rfl⟩
  intro k hk
  have hk1 : k < (line.splitOn d).length := by rw [length_splitOn]; exact hk
  refine ⟨(line.splitOn d)[k], trimmed_field (line.splitOn d)[k],
    List.getElem?_eq_getElem hk1, ?_, rfl⟩
  simp [colname_at, List.getElem?_eq_getElem hk1]

theorem parse_col_names_correct_witness :
    parse_col_names (⟨[], 0, 0, 0, none⟩ : ftab_t Int)
        ['x', ',', 'y', ',', 'v', 'a', 'l', 'u', 'e', '\n'] [','] =
      .ok (⟨[], 0, 3, 0, some [some ['x'], some ['y'], some ['v', 'a', 'l', 'u', 'e']]⟩, 3) ∧
    ∃ T1, parse_col_names (⟨[], 0, 0, 0, none⟩ : ftab_t Int)
        ['x', ',', 'y', ',', 'v', 'a', 'l', 'u', 'e', '\n'] [','] =
        .ok (T1, 1 + ['x', ',', 'y', ',', 'v', 'a', 'l', 'u', 'e', '\n'].count ',') ∧
      T1.ncol = 1 + ['x', ',', 'y', ',', 'v', 'a', 'l', 'u', 'e', '\n'].count ',' ∧
      (['x', ',', 'y', ',', 'v', 'a', 'l', 'u', 'e', '\n'].splitOn ',').length =
        1 + ['x', ',', 'y', ',', 'v', 'a', 'l', 'u', 'e', '\n'].count ',' ∧
      T1.colnames = some ((['x', ',', 'y', ',', 'v', 'a', 'l', 'u', 'e', '\n'].splitOn ',').map
        (fun f => some (trimmed_field f))) ∧
      (∀ k, k < T1.ncol → ∃ f name,
        (['x', ',', 'y', ',', 'v', 'a', 'l', 'u', 'e', '\n'].splitOn ',')[k]? = some f ∧
        colname_at T1.colnames k = .ok (some name) ∧
        name = (f.dropWhile (fun c => decide (c = ' '))).rdropWhile
          (fun c => decide (c = ' ' ∨ c = '\n' ∨ c = '\r'))) ∧
      T1.T = [] ∧ T1.nrow = 0 ∧ T1.nrow_alloc = 0 :=
  ⟨by decide,
    parse_col_names_correct (⟨[], 0, 0, 0, none⟩ : ftab_t Int)
      ['x', ',', 'y', ',', 'v', 'a', 'l', 'u', 'e', '\n'] ',' (by decide)⟩

/-! ## Data lines -/

theorem strsep_nil (d : Char) (l : Option (List Char)) (h : rest_fields d l = []) :
    (strsep l [d]).1 = none := by
  cases l with
  | none => rfl
  | some s => exact absurd h (splitOn_ne_nil d s)

theorem strsep_cons (d : Char) (l : Option (List Char)) (f : List Char) (fs : List (List Char))
    (h : rest_fields d l = f :: fs) :
    (strsep l [d]).1 = some f ∧ rest_fields d (strsep l [d]).2 = fs := by
  cases l with
  | none => cases h
  | some s =>
    have hsp := strsep_scan_splitOn d s
    simp only [rest_fields] at h
    simp only [strsep]
    cases hr : (strsep_scan [d] s).2 with
    | none =>
      rw [hr] at hsp
      simp only at hsp
      rw [hsp] at h
      cases h
      exact ⟨rfl, rfl⟩
    | some r =>
      rw [hr] at hsp
      simp only at hsp
      rw [hsp] at h
      cases h
      exact ⟨rfl, rfl⟩

theorem store_ok {α : Type} (buf : List α) (i : Nat) (v : α) (h : i < buf.length) :
    store buf i v = .ok (buf.take i ++ v :: buf.drop (i + 1)) := by
  rw [store, if_pos h, List.set_eq_take_append_cons_drop, if_pos h]

theorem parse_floats_loop_ok {α : Type} (atof : List Char → α) (d : Char) (off : Nat) (n : Nat) :
    ∀ (kk : Nat) (l : Option (List Char)) (buf : List α),
      n ≤ (rest_fields d l).length → off + kk + n ≤ buf.length →
        parse_floats_loop atof [d] off n kk l buf =
          .ok (buf.take (off + kk) ++ ((rest_fields d l).take n).map atof ++
            buf.drop (off + kk + n), 1) := by
  induction n with
  | zero =>
    intro kk l buf _ _
    simp [parse_floats_loop]
  | succ n ih =>
    intro kk l buf hn hb
    cases hf : rest_fields d l with
    | nil => rw [hf] at hn; simp at hn
    | cons f fs =>
      obtain ⟨h1, h2⟩ := strsep_cons d l f fs hf
      have hst := store_ok buf (off + kk) (atof f) (by omega)
      have hlen : (buf.take (off + kk)).length = off + kk := by
        rw [List.length_take]; omega
      rw [parse_floats_loop]
      have hsplit : strsep l [d] = (some f, (strsep l [d]).2) := by
        rw [← h1]
      rw [hsplit]
      simp only [hst]
      rw [ih (kk + 1) _ _ (by rw [h2]; rw [hf] at hn; simpa using hn)
        (by simp only [List.length_append, hlen, List.length_cons, List.length_drop]; omega)]
      rw [h2]
      have hA : (buf.take (off + kk) ++ atof f :: buf.drop (off + kk + 1)).take
          (off + (kk + 1)) = buf.take (off + kk) ++ [atof f] := by
        have e1 : off + (kk + 1) = (buf.take (off + kk)).length + 1 := by rw [hlen]; ring
        rw [e1, List.take_append]
        rfl
      have hB : (buf.take (off + kk) ++ atof f :: buf.drop (off + kk + 1)).drop
          (off + (kk + 1) + n) = buf.drop (off + kk + (n + 1)) := by
        have e2 : off + (kk + 1) + n = (buf.take (off + kk)).length + (n + 1) := by
          rw [hlen]; ring
        rw [e2, List.drop_append, List.drop_succ_cons, List.drop_drop]
        congr 1
        omega
      rw [hA, hB]
      simp

theorem parse_floats_loop_short {α : Type} (atof : List Char → α) (d : Char) (off : Nat)
    (n : Nat) :
    ∀ (kk : Nat) (l : Option (List Char)) (buf : List α),
      (rest_fields d l).length < n → off + kk + n ≤ buf.length →
        ∃ buf1, parse_floats_loop atof [d] off n kk l buf = .ok (buf1, 0) ∧
          buf1.length = buf.length ∧ buf1.take (off + kk) = buf.take (off + kk) := by
  induction n with
  | zero => intro kk l buf h _; omega
  | succ n ih =>
    intro kk l buf hn hb
    rw [parse_floats_loop]
    cases hf : rest_fields d l with
    | nil =>
      have h1 := strsep_nil d l hf
      have hsplit : strsep l [d] = (none, (strsep l [d]).2) := by rw [← h1]
      rw [hsplit]
      exact ⟨buf, rfl, rfl, rfl⟩
    | cons f fs =>
      obtain ⟨h1, h2⟩ := strsep_cons d l f fs hf
      have hst := store_ok buf (off + kk) (atof f) (by omega)
      have hlen : (buf.take (off + kk)).length = off + kk := by
        rw [List.length_take]; omega
      have hsplit : strsep l [d] = (some f, (strsep l [d]).2) := by rw [← h1]
      rw [hsplit]
      simp only [hst]
      have hl1 : (buf.take (off + kk) ++ atof f :: buf.drop (off + kk + 1)).length =
          buf.length := by
        simp only [List.length_append, hlen, List.length_cons, List.length_drop]; omega
      obtain ⟨buf1, i1, i2, i3⟩ := ih (kk + 1) (strsep l [d]).2
        (buf.take (off + kk) ++ atof f :: buf.drop (off + kk + 1))
        (by rw [h2]; rw [hf] at hn; simpa using hn) (by rw [hl1]; omega)
      refine ⟨buf1, i1, by rw [i2, hl1], ?_⟩
      have : buf1.take (off + kk) = (buf1.take (off + (kk + 1))).take (off + kk) := by
        rw [List.take_take, Nat.min_eq_left (by omega)]
      rw [this, i3, List.take_take, Nat.min_eq_left (by omega),
        List.take_append_of_le_length (by rw [hlen]), List.take_take, Nat.min_self]

theorem parse_floats_ok {α : Type} (atof : List Char → α) (d : Char) (l : List Char)
    (buf : List α) (off k : Nat) (hk : 1 ≤ k) (hb : off + k ≤ buf.length)
    (hf : k ≤ (l.splitOn d).length) :
    parse_floats atof l buf off k [d] =
      .ok (buf.take off ++ ((l.splitOn d).take k).map atof ++ buf.drop (off + k), 1) := by
  have h := parse_floats_loop_ok atof d off k 0 (some l) buf hf (by omega)
  obtain ⟨k1, rfl⟩ : ∃ k1, k = k1 + 1 := ⟨k - 1, by omega⟩
  rw [parse_floats_loop] at h
  unfold parse_floats
  simp only [Nat.add_sub_cancel, Nat.add_zero] at h ⊢
  exact h

theorem parse_floats_short {α : Type} (atof : List Char → α) (d : Char) (l : List Char)
    (buf : List α) (off k : Nat) (hk : 1 ≤ k) (hb : off + k ≤ buf.length)
    (hf : (l.splitOn d).length < k) :
    ∃ buf1, parse_floats atof l buf off k [d] = .ok (buf1, 0) ∧
      buf1.length = buf.length ∧ buf1.take off = buf.take off := by
  have h := parse_floats_loop_short atof d off k 0 (some l) buf hf (by omega)
  obtain ⟨k1, rfl⟩ : ∃ k1, k = k1 + 1 := ⟨k - 1, by omega⟩
  rw [parse_floats_loop] at h
  unfold parse_floats
  simp only [Nat.add_sub_cancel, Nat.add_zero] at h ⊢
  exact h

/-! ## Reading a file -/

theorem parsed_row_length {α : Type} (atof : List Char → α) (d : Char) (k : Nat)
    (line : List Char) (r : List α) (h : parsed_row atof d k line = some r) : r.length = k := by
  unfold parsed_row at h
  split at h
  · cases h
  · split at h
    · rename_i hk
      cases h
      simp [List.length_take, hk]
    · cases h

theorem filterMap_parsed_row_length {α : Type} (atof : List Char → α) (d : Char) (k : Nat)
    (lines : List (List Char)) :
    ((lines.filterMap (parsed_row atof d k)).flatten).length =
      (lines.filterMap (parsed_row atof d k)).length * k := by
  apply flatten_uniform_length
  intro r hr
  obtain ⟨line, _, hl⟩ := List.mem_filterMap.mp hr
  exact parsed_row_length atof d k line r hl

theorem read_rows_spec {α : Type} (atof : List Char → α) (d : Char) (k : Nat) (hk : 1 ≤ k)
    (cap : Nat) (lines : List (List Char)) :
    ∀ (buf : List α) (row : Nat) (pre : List α),
      buf.length = cap * k → row + lines.length ≤ cap → pre.length = row * k →
      buf.take (row * k) = pre →
        ∃ buf1, read_rows atof [d] k lines buf row =
            .ok (buf1, row + (lines.filterMap (parsed_row atof d k)).length) ∧
          buf1.length = cap * k ∧
          buf1.take ((row + (lines.filterMap (parsed_row atof d k)).length) * k) =
            pre ++ (lines.filterMap (parsed_row atof d k)).flatten := by
  induction lines with
  | nil =>
    intro buf row pre hlen _ _ htake
    exact ⟨buf, rfl, hlen, by simpa using htake⟩
  | cons line rest ih =>
    intro buf row pre hlen hcap hpre htake
    simp only [List.length_cons] at hcap
    have hoff : row * k + k ≤ buf.length := by
      rw [hlen]
      calc row * k + k = (row + 1) * k := by ring
        _ ≤ cap * k := Nat.mul_le_mul_right k (by omega)
    rw [read_rows]
    by_cases h0 : (cstr line).length = 0
    · have hp : parsed_row atof d k line = none := by simp [parsed_row, h0]
      simp only [h0, if_true, List.filterMap_cons, hp]
      exact ih buf row pre hlen (by omega) hpre htake
    · simp only [h0, if_false]
      by_cases hf : k ≤ ((cstr line).splitOn d).length
      · have hp : parsed_row atof d k line =
            some ((((cstr line).splitOn d).take k).map atof) := by
          simp [parsed_row, h0, hf]
        rw [parse_floats_ok atof d (cstr line) buf (row * k) k hk hoff hf]
        simp only [List.filterMap_cons, hp]
        have hvl : ((((cstr line).splitOn d).take k).map atof).length = k := by
          simp [List.length_take, hf]
        have hl1 : (buf.take (row * k)).length = row * k := by
          rw [List.length_take]; omega
        obtain ⟨buf1, i1, i2, i3⟩ := ih
          (buf.take (row * k) ++ (((cstr line).splitOn d).take k).map atof ++
            buf.drop (row * k + k)) (row + 1)
          (pre ++ (((cstr line).splitOn d).take k).map atof)
          (by simp only [List.length_append, hl1, hvl, List.length_drop]; omega)
          (by omega)
          (by simp only [List.length_append, hpre, hvl]; ring)
          (by
            rw [List.take_append_of_le_length (by
              simp only [List.length_append, hl1, hvl]; apply le_of_eq; ring)]
            rw [List.take_of_length_le (by
              simp only [List.length_append, hl1, hvl]; apply le_of_eq; ring), htake])
        refine ⟨buf1, ?_, i2, ?_⟩
        · rw [i1, List.length_cons]
          congr 2
          omega
        · rw [List.length_cons]
          have e : row + ((rest.filterMap (parsed_row atof d k)).length + 1) =
              row + 1 + (rest.filterMap (parsed_row atof d k)).length := by omega
          rw [e, i3]
          simp
      · have hp : parsed_row atof d k line = none := by simp [parsed_row, h0, hf]
        obtain ⟨b1, j1, j2, j3⟩ :=
          parse_floats_short atof d (cstr line) buf (row * k) k hk hoff (by omega)
        rw [j1]
        simp only [List.filterMap_cons, hp, Nat.add_zero]
        exact ih b1 row pre (by rw [j2, hlen]) (by omega) hpre (by rw [j3, htake])

theorem getlines_length_le (s : List Char) : (getlines s).length ≤ s.count '\n' + 1 := by
  induction s with
  | nil => simp [getlines]
  | cons c cs ih =>
    rw [getlines, List.count_cons]
    by_cases h : c = '\n'
    · simp [h]; omega
    · have h1 : (c == '\n') = false := by simpa using h
      simp only [h, if_false, h1]
      cases hg : getlines cs with
      | nil => simp
      | cons l ls => rw [hg] at ih; simpa using ih

theorem ftab_from_dlm_spec {α : Type} [Zero α] (atof : List Char → α) (d : Char)
    (text hdr : List Char) (rest : List (List Char)) (hg : getlines text = hdr :: rest)
    (hh : cstr hdr ≠ []) :
    ∃ T, ftab_from_dlm atof (some text) [d] = .ok (some T) ∧
      T.ncol = 1 + (cstr hdr).count d ∧
      T.nrow = (rest.filterMap (parsed_row atof d (1 + (cstr hdr).count d))).length ∧
      T.cells = (rest.filterMap (parsed_row atof d (1 + (cstr hdr).count d))).flatten ∧
      T.colnames = some (((cstr hdr).splitOn d).map (fun f => some (trimmed_field f))) ∧
      T.nrow_alloc = count_newlines text + 1 ∧ T.T.length = T.nrow_alloc * T.ncol ∧
      T.nrow ≤ T.nrow_alloc := by
  have hlen := getlines_length_le text
  rw [hg, List.length_cons] at hlen
  obtain ⟨buf1, i1, i2, i3⟩ := read_rows_spec atof d (1 + (cstr hdr).count d) (by omega)
    (count_newlines text + 1) rest
    (calloc ((count_newlines text + 1) * (1 + (cstr hdr).count d))) 0 []
    (by simp [calloc]) (by unfold count_newlines; omega) (by simp) (by simp)
  simp only [Nat.zero_add, List.nil_append] at i1 i3
  refine ⟨{ T := buf1, nrow := (rest.filterMap (parsed_row atof d (1 + (cstr hdr).count d))).length,
            ncol := 1 + (cstr hdr).count d, nrow_alloc := count_newlines text + 1,
            colnames := some (((cstr hdr).splitOn d).map (fun f => some (trimmed_field f))) },
    ?_, rfl, rfl, i3, rfl, rfl, i2, ?_⟩
  · unfold ftab_from_dlm
    simp only [hg, parse_col_names_spec _ (cstr hdr) d hh, i1]
  · show (rest.filterMap (parsed_row atof d (1 + (cstr hdr).count d))).length ≤
      count_newlines text + 1
    have := List.length_filterMap_le (parsed_row atof d (1 + (cstr hdr).count d)) rest
    unfold count_newlines
    omega

/-! ## Malformed data lines -/

theorem getlines_ne_nil (c : Char) (cs : List Char) : getlines (c :: cs) ≠ [] := by
  rw [getlines]
  by_cases h : c = '\n'
  · simp [h]
  · simp only [h, if_false]
    cases getlines cs <;> simp

theorem getlines_append_newline (a b : List Char) :
    getlines (a ++ '\n' :: b) = getlines (a ++ ['\n']) ++ getlines b := by
  induction a with
  | nil => simp [getlines]
  | cons c t ih =>
    simp only [List.cons_append]
    rw [getlines, getlines]
    by_cases h : c = '\n'
    · simp [h, ih]
    · simp only [h, if_false]
      rw [ih]
      cases hg : getlines (t ++ ['\n']) with
      | nil =>
        cases t with
        | nil => simp [getlines] at hg
        | cons x xs => exact absurd hg (getlines_ne_nil x _)
      | cons l ls => rfl

theorem getlines_no_newline (s : List Char) (h : '\n' ∉ s) (hs : s ≠ []) :
    getlines s = [s] := by
  induction s with
  | nil => exact absurd rfl hs
  | cons c cs ih =>
    have hc : c ≠ '\n' := fun e => h (by simp [e])
    have hcs : '\n' ∉ cs := fun e => h (by simp [e])
    rw [getlines]
    simp only [hc, if_false]
    cases cs with
    | nil => simp [getlines]
    | cons x xs => rw [ih hcs (by simp)]

theorem getlines_line (body : List Char) (h : '\n' ∉ body) :
    getlines (body ++ ['\n']) = [body ++ ['\n']] := by
  induction body with
  | nil => simp [getlines]
  | cons c cs ih =>
    have hc : c ≠ '\n' := fun e => h (by simp [e])
    have hcs : '\n' ∉ cs := fun e => h (by simp [e])
    simp only [List.cons_append]
    rw [getlines]
    simp only [hc, if_false, ih hcs]

theorem getlines_insert_line (pre0 line post : List Char) (hl : is_file_line line post) :
    getlines ((pre0 ++ ['\n']) ++ line ++ post) =
      getlines (pre0 ++ ['\n']) ++ [line] ++ getlines post ∧
    getlines ((pre0 ++ ['\n']) ++ post) = getlines (pre0 ++ ['\n']) ++ getlines post := by
  constructor
  · have e : (pre0 ++ ['\n']) ++ line ++ post = pre0 ++ '\n' :: (line ++ post) := by simp
    rw [e, getlines_append_newline pre0 (line ++ post)]
    rcases hl with ⟨body, rfl, hb⟩ | ⟨rfl, hn, hne⟩
    · have e2 : body ++ ['\n'] ++ post = body ++ '\n' :: post := by simp
      rw [e2, getlines_append_newline body post, getlines_line body hb]
      simp
    · rw [List.append_nil, getlines_no_newline line hn hne]
      simp [getlines]
  · have e : (pre0 ++ ['\n']) ++ post = pre0 ++ '\n' :: post := by simp
    rw [e, getlines_append_newline pre0 post]

theorem count_takeWhile_le (d : Char) (p : Char → Bool) (s : List Char) :
    (s.takeWhile p).count d ≤ s.count d :=
  (List.takeWhile_sublist p).count_le d

theorem parsed_row_short {α : Type} (atof : List Char → α) (d : Char) (k : Nat)
    (line : List Char) (h : (line.splitOn d).length < k) : parsed_row atof d k line = none := by
  unfold parsed_row
  have h1 : ((cstr line).splitOn d).length ≤ (line.splitOn d).length := by
    rw [length_splitOn, length_splitOn]
    have := count_takeWhile_le d (fun c => c != Char.ofNat 0) line
    unfold cstr
    omega
  by_cases h0 : (cstr line).length = 0
  · simp [h0]
  · have : ¬(k ≤ ((cstr line).splitOn d).length) := by omega
    simp [h0, this]

/-- C6 (malformed rows are dropped): let the file consist of complete lines `pre` (the
header and possibly data lines, ending in a newline), one data line `line`, and the rest
`post`, where the header holds a non-empty string and so `k = 1 + (occurrences of d)`
columns, and `line` has fewer than `k` fields.  Then `ftab_from_dlm` returns a table for the
file and for the file without `line`, and the two tables have the same `nrow`, `ncol`,
valid rows and cells, and names. -/
theorem ftab_from_dlm_drops_short_line {α : Type} [Zero α] (atof : List Char → α) (d : Char)
    (pre0 line post hdr : List Char) (more : List (List Char))
    (hpre : getlines (pre0 ++ ['\n']) = hdr :: more) (hh : cstr hdr ≠ [])
    (hl : is_file_line line post)
    (hshort : (line.splitOn d).length < 1 + (cstr hdr).count d) :
    ∃ T1 T2, ftab_from_dlm atof (some ((pre0 ++ ['\n']) ++ line ++ post)) [d] = .ok (some T1) ∧
      ftab_from_dlm atof (some ((pre0 ++ ['\n']) ++ post)) [d] = .ok (some T2) ∧
      T1.ncol = 1 + (cstr hdr).count d ∧ T2.ncol = T1.ncol ∧ T1.nrow = T2.nrow ∧
      T1.rows = T2.rows ∧ T1.cells = T2.cells ∧ T1.colnames = T2.colnames ∧
      T1.nrow = ((more ++ getlines post).filterMap
        (parsed_row atof d (1 + (cstr hdr).count d))).length := by
  obtain ⟨g1, g2⟩ := getlines_insert_line pre0 line post hl
  rw [hpre] at g1 g2
  have g1c : getlines ((pre0 ++ ['\n']) ++ line ++ post) =
      hdr :: (more ++ [line] ++ getlines post) := by simpa using g1
  have g2c : getlines ((pre0 ++ ['\n']) ++ post) = hdr :: (more ++ getlines post) := by
    simpa using g2
  obtain ⟨T1, a1, a2, a3, a4, a5, _⟩ :=
    ftab_from_dlm_spec atof d _ hdr (more ++ [line] ++ getlines post) g1c hh
  obtain ⟨T2, b1, b2, b3, b4, b5, _⟩ :=
    ftab_from_dlm_spec atof d _ hdr (more ++ getlines post) g2c hh
  have hfm : (more ++ [line] ++ getlines post).filterMap
      (parsed_row atof d (1 + (cstr hdr).count d)) =
      (more ++ getlines post).filterMap (parsed_row atof d (1 + (cstr hdr).count d)) := by
    simp [List.filterMap_append, parsed_row_short atof d _ line hshort]
  rw [hfm] at a3 a4
  have hn : T1.nrow = T2.nrow := by rw [a3, b3]
  have hc : T1.cells = T2.cells := by rw [a4, b4]
  exact ⟨T1, T2, a1, b1, a2, by rw [a2, b2], hn,
    rows_eq_of_cells T1 T2 (by rw [a2, b2]) hn hc, hc, by rw [a5, b5], a3⟩

theorem ftab_from_dlm_drops_short_line_witness :
    ∃ T1 T2, ftab_from_dlm atof6 (some ((['x', ',', 'y'] ++ ['\n']) ++ ['7', '\n'] ++
        ['1', ',', '2', '\n'])) [','] = .ok (some T1) ∧
      ftab_from_dlm atof6 (some ((['x', ',', 'y'] ++ ['\n']) ++ ['1', ',', '2', '\n'])) [','] =
        .ok (some T2) ∧
      T1.ncol = 1 + (cstr ['x', ',', 'y', '\n']).count ',' ∧ T2.ncol = T1.ncol ∧
      T1.nrow = T2.nrow ∧ T1.rows = T2.rows ∧ T1.cells = T2.cells ∧
      T1.colnames = T2.colnames ∧
      T1.nrow = (([] ++ getlines ['1', ',', '2', '\n']).filterMap
        (parsed_row atof6 ',' (1 + (cstr ['x', ',', 'y', '\n']).count ','))).length :=
  ftab_from_dlm_drops_short_line atof6 ',' ['x', ',', 'y'] ['7', '\n'] ['1', ',', '2', '\n']
    ['x', ',', 'y', '\n'] [] (by decide) (by decide) (Or.inl ⟨['7'], rfl, by decide⟩)
    (by decide)

/-! ## Writing a table -/

theorem for_loop_sep {n : Nat} (sep : List Char) (g : Nat → List Char)
    (body : Nat → List Char → Except Fault (List Char)) (m : Nat) :
    ∀ (k : Nat) (out : List Char), k + m = n →
      (∀ cc out1, k ≤ cc → cc < n →
        body cc out1 = .ok (if cc + 1 ≠ n then out1 ++ g cc ++ sep else out1 ++ g cc)) →
      for_loop body m k out = .ok (out ++ sep_join sep ((List.range' k m).map g)) := by
  induction m with
  | zero => intro k out _ _; simp [for_loop, sep_join]
  | succ m ih =>
    intro k out hk hb
    rw [for_loop, hb k out (le_refl _) (by omega)]
    simp only
    rw [ih (k + 1) _ (by omega) (fun cc o h1 h2 => hb cc o (by omega) h2)]
    cases m with
    | zero =>
      have : k + 1 = n := by omega
      simp [this, sep_join]
    | succ m =>
      have : k + 1 ≠ n := by omega
      simp [this, sep_join, List.range'_succ]

theorem for_loop_append (h : Nat → List Char)
    (body : Nat → List Char → Except Fault (List Char)) (m : Nat) :
    ∀ (k : Nat) (out : List Char),
      (∀ cc out1, k ≤ cc → cc < k + m → body cc out1 = .ok (out1 ++ h cc)) →
      for_loop body m k out = .ok (out ++ ((List.range' k m).map h).flatten) := by
  induction m with
  | zero => intro k out _; simp [for_loop]
  | succ m ih =>
    intro k out hb
    rw [for_loop, hb k out (le_refl _) (by omega)]
    simp only
    rw [ih (k + 1) _ (fun cc o h1 h2 => hb cc o (by omega) (by omega))]
    simp [List.range'_succ]

theorem range'_map_names (names : List (List Char)) :
    (List.range' 0 names.length).map (fun cc => (names[cc]?).getD []) = names := by
  apply List.ext_getElem
  · simp
  · intro i h1 h2
    simp at h1
    simp [h1]

theorem range'_map_row {α : Type} (fmt : α → List Char) (n : Nat) (buf : List α) (rr : Nat)
    (h : (rr + 1) * n ≤ buf.length) :
    (List.range' 0 n).map (fun cc => (buf[rr * n + cc]?).elim [] fmt) =
      (row_of n buf rr).map fmt := by
  have e : (rr + 1) * n = rr * n + n := by ring
  apply List.ext_getElem
  · simp [row_of_length n buf rr h]
  · intro i h1 h2
    simp at h1
    have hi : rr * n + i < buf.length := by omega
    simp only [List.getElem_map, List.getElem_range', Nat.zero_add, Nat.one_mul]
    have := row_of_getElem? n buf rr i h1
    rw [List.getElem?_eq_getElem hi] at this
    rw [List.getElem?_eq_getElem hi]
    have hlen : i < (row_of n buf rr).length := by rw [row_of_length n buf rr h]; exact h1
    rw [List.getElem?_eq_getElem hlen] at this
    simp only [Option.some.injEq] at this
    simp [this]

theorem ftab_print_spec {α : Type} (fmt : α → List Char) (T : ftab_t α) (sep : List Char)
    (names : List (List Char)) (hn : T.colnames = some (names.map some))
    (hlen : names.length = T.ncol) (hT : T.nrow * T.ncol ≤ T.T.length) :
    ftab_print fmt T sep =
      .ok (sep_join sep names ++ ['\n'] ++
        (T.rows.map (fun r => sep_join sep (r.map fmt) ++ ['\n'])).flatten) := by
  have hhead : for_loop (ftab_print_name T sep) T.ncol 0 [] = .ok (sep_join sep names) := by
    rw [for_loop_sep (n := T.ncol) sep (fun cc => (names[cc]?).getD []) _ T.ncol 0 []
      (by omega)]
    · rw [← hlen, range'_map_names]; rfl
    · intro cc out _ hcc
      have hc : cc < names.length := by omega
      unfold ftab_print_name
      simp only [hn, colname_at, List.get?_eq_getElem?, List.getElem?_map,
        List.getElem?_eq_getElem hc, Option.map_some', Option.getD_some]
  have hrow : ∀ rr out, rr < T.nrow → ftab_print_row fmt T sep rr out =
      .ok (out ++ (sep_join sep ((T.row rr).map fmt) ++ ['\n'])) := by
    intro rr out hrr
    have hr1 : (rr + 1) * T.ncol ≤ T.T.length :=
      le_trans (Nat.mul_le_mul_right _ hrr) hT
    have e : (rr + 1) * T.ncol = rr * T.ncol + T.ncol := by ring
    unfold ftab_print_row
    rw [for_loop_sep (n := T.ncol) sep (fun cc => (T.T[rr * T.ncol + cc]?).elim [] fmt) _
      T.ncol 0 out (by omega)]
    · simp only [range'_map_row fmt T.ncol T.T rr hr1, ftab_t.row, List.append_assoc]
    · intro cc out1 _ hcc
      have hi : rr * T.ncol + cc < T.T.length := by omega
      unfold ftab_print_cell
      rw [load_nat T.T _ hi]
      simp [List.getElem?_eq_getElem hi]
  unfold ftab_print
  rw [hhead]
  simp only
  rw [for_loop_append (fun rr => sep_join sep ((T.row rr).map fmt) ++ ['\n']) _ T.nrow 0 _
    (fun cc out1 _ h2 => hrow cc out1 (by omega))]
  simp only [ftab_t.rows, List.range_eq_range', List.map_map, List.append_assoc]
  rfl

/-! ## Round trip -/

theorem mem_sep_join (sep : List Char) (c : Char) (items : List (List Char)) :
    c ∈ sep_join sep items → c ∈ sep ∨ ∃ x ∈ items, c ∈ x := by
  induction items with
  | nil => intro h; simp [sep_join] at h
  | cons x r ih =>
    cases r with
    | nil => intro h; right; exact ⟨x, by simp, by simpa [sep_join] using h⟩
    | cons y r =>
      intro h
      simp only [sep_join, List.mem_append] at h
      rcases h with (h | h) | h
      · right; exact ⟨x, by simp, h⟩
      · left; exact h
      · rcases ih h with h1 | ⟨z, hz, hc⟩
        · left; exact h1
        · right; exact ⟨z, by simp [hz], hc⟩

theorem splitOn_no_delim (d : Char) (x : List Char) (h : d ∉ x) : x.splitOn d = [x] := by
  induction x with
  | nil => rfl
  | cons c cs ih =>
    have hc : c ≠ d := fun e => h (by simp [e])
    have hcs : d ∉ cs := fun e => h (by simp [e])
    rw [splitOn_cons, if_neg hc, ih hcs]
    rfl

theorem splitOn_append_delim (d : Char) (x rest : List Char) (h : d ∉ x) :
    (x ++ d :: rest).splitOn d = x :: rest.splitOn d := by
  induction x with
  | nil => simp [splitOn_cons]
  | cons c cs ih =>
    have hc : c ≠ d := fun e => h (by simp [e])
    have hcs : d ∉ cs := fun e => h (by simp [e])
    rw [List.cons_append, splitOn_cons, if_neg hc, ih hcs]
    rfl

theorem splitOn_sep_join (d : Char) (tail : List Char) (ht : d ∉ tail)
    (items : List (List Char)) (hne : items ≠ []) (hi : ∀ x ∈ items, d ∉ x) :
    (sep_join [d] items ++ tail).splitOn d = append_last tail items := by
  induction items with
  | nil => exact absurd rfl hne
  | cons x r ih =>
    cases r with
    | nil =>
      simp only [sep_join, append_last]
      apply splitOn_no_delim
      intro hm
      rcases List.mem_append.mp hm with h | h
      · exact hi x (by simp) h
      · exact ht h
    | cons y r =>
      simp only [sep_join, append_last]
      have e : x ++ [d] ++ sep_join [d] (y :: r) ++ tail =
          x ++ d :: (sep_join [d] (y :: r) ++ tail) := by simp
      rw [e, splitOn_append_delim d x _ (hi x (by simp)),
        ih (by simp) (fun z hz => hi z (by simp [hz]))]

theorem length_append_last (tail : List Char) (items : List (List Char)) :
    (append_last tail items).length = items.length := by
  induction items with
  | nil => rfl
  | cons x r ih =>
    cases r with
    | nil => rfl
    | cons y r => simp only [append_last, List.length_cons] at ih ⊢; omega

theorem map_atof_append_last {α : Type} (fmt : α → List Char) (atof : List Char → α)
    (tail : List Char) (r : List α)
    (h : ∀ v ∈ r, atof (fmt v) = v ∧ atof (fmt v ++ tail) = v) :
    (append_last tail (r.map fmt)).map atof = r := by
  induction r with
  | nil => rfl
  | cons v r ih =>
    cases r with
    | nil => simp [append_last, (h v (by simp)).2]
    | cons w r =>
      have := ih (fun z hz => h z (by simp [hz]))
      simp only [List.map_cons, append_last] at this ⊢
      rw [this, (h v (by simp)).1]

theorem getlines_lines (ls : List (List Char)) (h : ∀ l ∈ ls, '\n' ∉ l) :
    getlines ((ls.map (fun l => l ++ ['\n'])).flatten) = ls.map (fun l => l ++ ['\n']) := by
  induction ls with
  | nil => rfl
  | cons l ls ih =>
    simp only [List.map_cons, List.flatten_cons]
    have e : l ++ ['\n'] ++ (ls.map (fun l => l ++ ['\n'])).flatten =
        l ++ '\n' :: (ls.map (fun l => l ++ ['\n'])).flatten := by simp
    rw [e, getlines_append_newline l _, getlines_line l (h l (by simp)),
      ih (fun x hx => h x (by simp [hx]))]
    rfl

theorem cstr_self (l : List Char) (h : ∀ c ∈ l, c ≠ Char.ofNat 0) : cstr l = l := by
  unfold cstr
  apply List.takeWhile_eq_self_iff.mpr
  intro c hc
  simpa using h c hc

theorem count_no_delim (d : Char) (x : List Char) (h : d ∉ x) : x.count d = 0 :=
  List.count_eq_zero.mpr h

theorem count_sep_join (d : Char) (items : List (List Char)) (hi : ∀ x ∈ items, d ∉ x) :
    (sep_join [d] items).count d = items.length - 1 := by
  induction items with
  | nil => rfl
  | cons x r ih =>
    cases r with
    | nil => simp [sep_join, count_no_delim d x (hi x (by simp))]
    | cons y r =>
      have := ih (fun z hz => hi z (by simp [hz]))
      simp only [sep_join, List.count_append, this, count_no_delim d x (hi x (by simp)),
        List.length_cons]
      simp
      omega

/-- The rows of a table lie among its valid cells and have `ncol` cells each. -/
theorem rows_mem {α : Type} (T : ftab_t α) (hT : T.nrow * T.ncol ≤ T.T.length) (r : List α)
    (hr : r ∈ T.rows) : r.length = T.ncol ∧ ∀ v ∈ r, v ∈ T.cells := by
  constructor
  · unfold ftab_t.rows at hr
    obtain ⟨i, hi, rfl⟩ := List.mem_map.mp hr
    exact row_of_length _ _ _
      (le_trans (Nat.mul_le_mul_right _ (List.mem_range.mp hi)) hT)
  · intro v hv
    rw [← flatten_rows T hT]
    exact List.mem_flatten.mpr ⟨r, hr, hv⟩

/-- C1 (round trip), amended: let every column of `T` carry a name, `ncol ≥ 1`, and the
valid cells lie inside the buffer; let the delimiter `d` be neither newline nor NUL, let no
name contain `d`, newline or NUL, and let every valid cell `v` have a rendering that
contains none of these characters and that `atof` reads back as `v`, also when the
newline follows it.  Then `ftab_print` writes a text from which `ftab_from_dlm` with the
same delimiter returns a table that `ftab_compare` reports equal to `T`. -/
theorem ftab_print_parse_roundtrip {α : Type} [Zero α] [DecidableEq α]
    (fmt : α → List Char) (atof : List Char → α) (T : ftab_t α) (d : Char)
    (names : List (List Char))
    (hncol : 1 ≤ T.ncol) (hn : T.colnames = some (names.map some))
    (hlen : names.length = T.ncol) (hT : T.nrow * T.ncol ≤ T.T.length)
    (hd : d ≠ '\n' ∧ d ≠ Char.ofNat 0)
    (hnames : ∀ x ∈ names, ∀ c ∈ x, c ≠ d ∧ c ≠ '\n' ∧ c ≠ Char.ofNat 0)
    (hcells : ∀ v ∈ T.cells, (∀ c ∈ fmt v, c ≠ d ∧ c ≠ '\n' ∧ c ≠ Char.ofNat 0) ∧
      atof (fmt v) = v ∧ atof (fmt v ++ ['\n']) = v) :
    ∃ text T2, ftab_print fmt T [d] = .ok text ∧
      ftab_from_dlm atof (some text) [d] = .ok (some T2) ∧
      T2.nrow = T.nrow ∧ T2.ncol = T.ncol ∧ T2.cells = T.cells ∧
      ftab_compare (some T) (some T2) = .ok 0 := by
  have hprint := ftab_print_spec fmt T [d] names hn hlen hT
  have hnames_ne : names ≠ [] := by
    intro h; rw [h] at hlen; simp at hlen; omega
  -- the written lines, without their newline
  have hhdr_chars : ∀ c ∈ sep_join [d] names, c ≠ '\n' ∧ c ≠ Char.ofNat 0 := by
    intro c hc
    rcases mem_sep_join [d] c names hc with h | ⟨x, hx, hcx⟩
    · have : c = d := by simpa using h
      rw [this]; exact hd
    · exact (hnames x hx c hcx).2
  have hrow_chars : ∀ r ∈ T.rows, ∀ c ∈ sep_join [d] (r.map fmt),
      c ≠ '\n' ∧ c ≠ Char.ofNat 0 := by
    intro r hr c hc
    rcases mem_sep_join [d] c _ hc with h | ⟨x, hx, hcx⟩
    · have : c = d := by simpa using h
      rw [this]; exact hd
    · obtain ⟨v, hv, rfl⟩ := List.mem_map.mp hx
      exact ((hcells v ((rows_mem T hT r hr).2 v hv)).1 c hcx).2
  have htext : sep_join [d] names ++ ['\n'] ++
      (T.rows.map (fun r => sep_join [d] (r.map fmt) ++ ['\n'])).flatten =
      (((sep_join [d] names) :: T.rows.map (fun r => sep_join [d] (r.map fmt))).map
        (fun l => l ++ ['\n'])).flatten := by
    simp only [List.map_cons, List.flatten_cons, List.map_map, List.append_assoc]
    rfl
  have hlines := getlines_lines ((sep_join [d] names) :: T.rows.map
      (fun r => sep_join [d] (r.map fmt))) (by
    intro l hl hm
    rcases List.mem_cons.mp hl with rfl | hl
    · exact (hhdr_chars _ hm).1 rfl
    · obtain ⟨r, hr, rfl⟩ := List.mem_map.mp hl
      exact (hrow_chars r hr _ hm).1 rfl)
  rw [← htext] at hlines
  simp only [List.map_cons, List.map_map] at hlines
  have hcstr_hdr : cstr (sep_join [d] names ++ ['\n']) = sep_join [d] names ++ ['\n'] := by
    apply cstr_self
    intro c hc
    rcases List.mem_append.mp hc with h | h
    · exact (hhdr_chars c h).2
    · have : c = '\n' := by simpa using h
      rw [this]; decide
  have hk : 1 + (cstr (sep_join [d] names ++ ['\n'])).count d = T.ncol := by
    rw [hcstr_hdr, List.count_append, count_sep_join d names
      (fun x hx hm => (hnames x hx d hm).1 rfl), hlen]
    have : (['\n'] : List Char).count d = 0 :=
      List.count_eq_zero.mpr (by simpa using hd.1)
    omega
  obtain ⟨T2, p1, p2, p3, p4, p5, p6, p7, p8⟩ := ftab_from_dlm_spec atof d _
    (sep_join [d] names ++ ['\n'])
    (T.rows.map ((fun l => l ++ ['\n']) ∘ fun r => sep_join [d] (r.map fmt))) hlines
    (by rw [hcstr_hdr]; simp)
  rw [hk] at p2 p3 p4
  -- every written row is read back
  have hparsed : ∀ r ∈ T.rows,
      parsed_row atof d T.ncol (sep_join [d] (r.map fmt) ++ ['\n']) = some r := by
    intro r hr
    obtain ⟨hrl, hrc⟩ := rows_mem T hT r hr
    have hcs : cstr (sep_join [d] (r.map fmt) ++ ['\n']) =
        sep_join [d] (r.map fmt) ++ ['\n'] := by
      apply cstr_self
      intro c hc
      rcases List.mem_append.mp hc with h | h
      · exact (hrow_chars r hr c h).2
      · have : c = '\n' := by simpa using h
        rw [this]; decide
    have hsp := splitOn_sep_join d ['\n'] (by simpa using hd.1) (r.map fmt)
      (by
        intro h
        have : r = [] := List.map_eq_nil_iff.mp h
        rw [this] at hrl; simp at hrl; omega)
      (by
        intro x hx hm
        obtain ⟨v, hv, rfl⟩ := List.mem_map.mp hx
        exact ((hcells v (hrc v hv)).1 d hm).1 rfl)
    have hl : (append_last ['\n'] (r.map fmt)).length = T.ncol := by
      rw [length_append_last, List.length_map, hrl]
    unfold parsed_row
    rw [hcs, hsp, hl]
    simp only [List.length_append, List.length_singleton, Nat.add_one_ne_zero, if_false,
      le_refl, if_true]
    rw [List.take_of_length_le (by rw [hl]),
      map_atof_append_last fmt atof ['\n'] r (fun v hv => (hcells v (hrc v hv)).2)]
  have hfm : (T.rows.map ((fun l => l ++ ['\n']) ∘ fun r => sep_join [d] (r.map fmt))).filterMap
      (parsed_row atof d T.ncol) = T.rows := by
    rw [List.filterMap_map]
    have : ∀ r ∈ T.rows, (parsed_row atof d T.ncol ∘
        ((fun l => l ++ ['\n']) ∘ fun r => sep_join [d] (r.map fmt))) r = some r := by
      intro r hr; exact hparsed r hr
    rw [List.filterMap_congr this]
    simp
  rw [hfm] at p3 p4
  have hnrow : T2.nrow = T.nrow := by rw [p3]; simp [ftab_t.rows]
  have hcell : T2.cells = T.cells := by rw [p4, flatten_rows T hT]
  refine ⟨_, T2, hprint, p1, hnrow, p2, hcell, ?_⟩
  rw [ftab_compare_some T T2 (Or.inr ⟨names, hlen, hn⟩) hT (by
    rw [p7]; exact Nat.mul_le_mul_right _ p8)]
  exact ⟨p2.symm, hnrow.symm, by rw [hn, p5]; rfl, Or.inr hcell.symm⟩

theorem ftab_print_parse_roundtrip_witness :
    ∃ text T2,
      ftab_print fmt6 (⟨[1000000, 2000000, 3000000, 1230000], 1, 4, 1,
        some [some ['x'], some ['y'], some ['z'], some ['v', 'a', 'l', 'u', 'e']]⟩ : ftab_t Int)
        ['\t'] = .ok text ∧
      ftab_from_dlm atof6 (some text) ['\t'] = .ok (some T2) ∧
      T2.nrow = 1 ∧ T2.ncol = 4 ∧
      T2.cells = (⟨[1000000, 2000000, 3000000, 1230000], 1, 4, 1,
        some [some ['x'], some ['y'], some ['z'], some ['v', 'a', 'l', 'u', 'e']]⟩ :
          ftab_t Int).cells ∧
      ftab_compare (some (⟨[1000000, 2000000, 3000000, 1230000], 1, 4, 1,
        some [some ['x'], some ['y'], some ['z'], some ['v', 'a', 'l', 'u', 'e']]⟩ : ftab_t Int))
        (some T2) = .ok 0 :=
  ftab_print_parse_roundtrip fmt6 atof6
    (⟨[1000000, 2000000, 3000000, 1230000], 1, 4, 1,
      some [some ['x'], some ['y'], some ['z'], some ['v', 'a', 'l', 'u', 'e']]⟩ : ftab_t Int)
    '\t' [['x'], ['y'], ['z'], ['v', 'a', 'l', 'u', 'e']]
    (by decide) rfl rfl (by decide) (by decide) (by decide) (by decide)

set_option maxRecDepth 100000 in
/-- C1 (round trip), the counterexample: the table made by `ftab_new(1)` and one
`ftab_insert` of the value 1.5 has no names; `ftab_print` writes the placeholder `col_1`
as its header, `ftab_from_tsv` reads the placeholder as a name, and `ftab_compare` returns
1 because only the table read back carries names. -/
theorem ftab_roundtrip_unnamed_counterexample :
    (ftab_new 1 : Option (ftab_t Int)) = some ⟨List.replicate 1024 0, 0, 1, 1024, none⟩ ∧
    ftab_insert (⟨List.replicate 1024 0, 0, 1, 1024, none⟩ : ftab_t Int) [1500000] =
      .ok ⟨1500000 :: List.replicate 1023 0, 1, 1, 1024, none⟩ ∧
    ftab_print fmt6 (⟨1500000 :: List.replicate 1023 0, 1, 1, 1024, none⟩ : ftab_t Int) ['\t'] =
      .ok ['c', 'o', 'l', '_', '1', '\n', '1', '.', '5', '0', '0', '0', '0', '0', '\n'] ∧
    ftab_from_tsv atof6
        (some ['c', 'o', 'l', '_', '1', '\n', '1', '.', '5', '0', '0', '0', '0', '0', '\n']) =
      .ok (some ⟨[1500000, 0, 0], 1, 1, 3, some [some ['c', 'o', 'l', '_', '1']]⟩) ∧
    ftab_compare (some (⟨1500000 :: List.replicate 1023 0, 1, 1, 1024, none⟩ : ftab_t Int))
      (some ⟨[1500000, 0, 0], 1, 1, 3, some [some ['c', 'o', 'l', '_', '1']]⟩) = .ok 1 := by
  refine ⟨rfl, rfl, ?_, ?_, ?_⟩
  · decide
  · decide
  · decide

/-! ## Column concatenation of named tables -/

theorem ftab_set_colname_ok {α : Type} (T : ftab_t α) (col : Nat) (s : List Char)
    (hc : col < T.ncol) (hv : (names_view T).length = T.ncol) :
    ftab_set_colname T (col : Int) (some s) =
      .ok { T with colnames := some ((names_view T).set col (some s)) } := by
  unfold ftab_set_colname
  have h1 : ¬((col : Int) < 0 ∨ (col : Int) ≥ (T.ncol : Int)) := by omega
  simp only [h1, if_false, Int.toNat_ofNat]
  unfold names_view at hv ⊢
  cases hn : T.colnames with
  | none =>
    rw [hn] at hv
    simp only [hv, hc, if_true]
  | some a =>
    rw [hn] at hv
    simp only [hv, hc, if_true]

theorem concatenate_columns_name_loop {α : Type} (S : ftab_t α) (sn : List (List Char))
    (hS : S.colnames = some (sn.map some)) (shift : Nat) (m : Nat) :
    ∀ (k : Nat) (T : ftab_t α) (A B : List (Option (List Char))),
      k + m = sn.length → names_view T = A ++ List.replicate m none ++ B →
      A.length = k + shift → (names_view T).length = T.ncol →
      ∃ T1, for_loop (concatenate_columns_name S shift) m k T = .ok T1 ∧
        names_view T1 = A ++ (sn.drop k).map some ++ B ∧
        T1.T = T.T ∧ T1.nrow = T.nrow ∧ T1.ncol = T.ncol ∧ T1.nrow_alloc = T.nrow_alloc ∧
        (T1.colnames.isSome ∨ (m = 0 ∧ T1.colnames = T.colnames)) := by
  induction m with
  | zero =>
    intro k T A B hk hv _ _
    refine ⟨T, rfl, ?_, rfl, rfl, rfl, rfl, Or.inr ⟨rfl, rfl⟩⟩
    have : sn.drop k = [] := List.drop_of_length_le (by omega)
    simpa [this] using hv
  | succ m ih =>
    intro k T A B hk hv hA hlen
    have hks : k < sn.length := by omega
    have hget : colname_at S.colnames k = .ok (some sn[k]) := by
      simp [colname_at, hS, List.getElem?_eq_getElem hks]
    have hcol : k + shift < T.ncol := by
      rw [← hlen, hv]
      simp only [List.length_append, List.length_replicate, hA]
      omega
    have hset : (names_view T).set (k + shift) (some sn[k]) =
        (A ++ [some sn[k]]) ++ List.replicate m none ++ B := by
      rw [hv, List.append_assoc, List.set_append_right _ _ (by omega), hA, Nat.sub_self,
        List.replicate_succ]
      simp
    have hstep : concatenate_columns_name S shift k T =
        .ok { T with colnames := some ((names_view T).set (k + shift) (some sn[k])) } := by
      unfold concatenate_columns_name
      rw [hget]
      exact ftab_set_colname_ok T (k + shift) sn[k] hcol hlen
    rw [for_loop, hstep]
    simp only
    obtain ⟨T1, i1, i2, i3, i4, i5, i6, i7⟩ := ih (k + 1)
      { T with colnames := some ((names_view T).set (k + shift) (some sn[k])) }
      (A ++ [some sn[k]]) B (by omega) (by simp only [names_view]; exact hset)
      (by simp [hA]; omega) (by simp only [names_view, List.length_set]; exact hlen)
    refine ⟨T1, i1, ?_, i3, i4, i5, i6, ?_⟩
    · rw [i2, List.drop_eq_getElem_cons hks, List.map_cons]
      simp only [List.append_assoc, List.singleton_append, List.cons_append, List.nil_append]
    · left
      rcases i7 with h | ⟨_, h⟩
      · exact h
      · rw [h]; rfl

theorem store_segment {α : Type} (src : List α) (soff base : Nat)
    (body : Nat → List α → Except Fault (List α))
    (hbody : ∀ ll b v, load src ((soff + ll : Nat) : Int) = .ok v →
      body ll b = store b (base + ll) v) (m : Nat) :
    ∀ (k : Nat) (buf : List α),
      soff + k + m ≤ src.length → base + k + m ≤ buf.length →
      for_loop body m k buf =
        .ok (buf.take (base + k) ++ (src.drop (soff + k)).take m ++ buf.drop (base + k + m)) := by
  induction m with
  | zero => intro k buf _ _; simp [for_loop]
  | succ m ih =>
    intro k buf hs hb
    have hi : soff + k < src.length := by omega
    have hlen : (buf.take (base + k)).length = base + k := by
      rw [List.length_take]; omega
    rw [for_loop, hbody k buf _ (load_nat src _ hi)]
    simp only [store_ok buf (base + k) src[soff + k] (by omega)]
    rw [ih (k + 1) _ (by omega)
      (by simp only [List.length_append, hlen, List.length_cons, List.length_drop]; omega)]
    have hA : (buf.take (base + k) ++ src[soff + k] :: buf.drop (base + k + 1)).take
        (base + (k + 1)) = buf.take (base + k) ++ [src[soff + k]] := by
      have e1 : base + (k + 1) = (buf.take (base + k)).length + 1 := by rw [hlen]; ring
      rw [e1, List.take_append]
      rfl
    have hB : (buf.take (base + k) ++ src[soff + k] :: buf.drop (base + k + 1)).drop
        (base + (k + 1) + m) = buf.drop (base + k + (m + 1)) := by
      have e2 : base + (k + 1) + m = (buf.take (base + k)).length + (m + 1) := by
        rw [hlen]; ring
      rw [e2, List.drop_append, List.drop_succ_cons, List.drop_drop]
      congr 1
      omega
    rw [hA, hB, List.drop_eq_getElem_cons hi]
    simp [Nat.add_assoc]

theorem concatenate_columns_row {α : Type} (S : ftab_t α) (ncol shift kk : Nat)
    (done X rest : List α) (hS : (kk + 1) * S.ncol ≤ S.T.length)
    (hd : done.length = kk * ncol + shift) (hX : X.length = S.ncol) :
    for_loop (concatenate_columns_cell S ncol shift kk) S.ncol 0 (done ++ X ++ rest) =
      .ok (done ++ S.row kk ++ rest) := by
  have e : (kk + 1) * S.ncol = kk * S.ncol + S.ncol := by ring
  have hbody : ∀ ll b v, load S.T ((kk * S.ncol + ll : Nat) : Int) = .ok v →
      concatenate_columns_cell S ncol shift kk ll b = store b (kk * ncol + shift + ll) v := by
    intro ll b v hv
    unfold concatenate_columns_cell
    rw [hv]
    have : kk * ncol + ll + shift = kk * ncol + shift + ll := by omega
    rw [this]
  rw [store_segment S.T (kk * S.ncol) (kk * ncol + shift) _ hbody S.ncol 0 _ (by omega)
    (by simp only [List.length_append, hd, hX]; omega)]
  simp only [Nat.add_zero]
  have h1 : (done ++ X ++ rest).take (kk * ncol + shift) = done := by
    rw [← hd, List.append_assoc, List.take_left]
  have h2 : (done ++ X ++ rest).drop (kk * ncol + shift + S.ncol) = rest := by
    rw [← hd, ← hX, ← List.length_append, List.drop_left]
  rw [h1, h2]
  rfl

theorem concatenate_columns_left {α : Type} [Zero α] (L : ftab_t α) (rncol : Nat) (m : Nat) :
    ∀ (k : Nat) (done : List α), (k + m) * L.ncol ≤ L.T.length →
      done.length = k * (L.ncol + rncol) →
      for_loop (fun kk buf =>
          for_loop (concatenate_columns_cell L (L.ncol + rncol) 0 kk) L.ncol 0 buf) m k
        (done ++ List.replicate (m * (L.ncol + rncol)) 0) =
        .ok (done ++ ((List.range' k m).map
          (fun kk => L.row kk ++ List.replicate rncol 0)).flatten) := by
  induction m with
  | zero => intro k done _ _; simp [for_loop]
  | succ m ih =>
    intro k done hL hd
    have hsplit : List.replicate ((m + 1) * (L.ncol + rncol)) (0 : α) =
        List.replicate L.ncol 0 ++
          (List.replicate rncol 0 ++ List.replicate (m * (L.ncol + rncol)) 0) := by
      rw [← List.replicate_add, ← List.replicate_add]
      congr 1
      ring
    have hk1 : (k + 1) * L.ncol ≤ L.T.length := by
      refine le_trans (Nat.mul_le_mul_right _ ?_) hL
      omega
    rw [for_loop, hsplit, ← List.append_assoc,
      concatenate_columns_row L (L.ncol + rncol) 0 k done _ _ hk1 (by rw [hd]; ring)
        (by simp)]
    simp only
    have := ih (k + 1) (done ++ L.row k ++ List.replicate rncol 0)
      (by rw [show k + 1 + m = k + (m + 1) by ring]; exact hL)
      (by
        simp only [List.length_append, hd, List.length_replicate, ftab_t.row,
          row_of_length L.ncol L.T k hk1]
        ring)
    rw [← List.append_assoc, this]
    simp [List.range'_succ]

theorem concatenate_columns_right {α : Type} [Zero α] (L R : ftab_t α) (m : Nat) :
    ∀ (k : Nat) (done : List α), (k + m) * R.ncol ≤ R.T.length →
      (k + m) * L.ncol ≤ L.T.length → done.length = k * (L.ncol + R.ncol) →
      for_loop (fun kk buf =>
          for_loop (concatenate_columns_cell R (L.ncol + R.ncol) L.ncol kk) R.ncol 0 buf) m k
        (done ++ ((List.range' k m).map
          (fun kk => L.row kk ++ List.replicate R.ncol 0)).flatten) =
        .ok (done ++ ((List.range' k m).map (fun kk => L.row kk ++ R.row kk)).flatten) := by
  induction m with
  | zero => intro k done _ _ _; simp [for_loop]
  | succ m ih =>
    intro k done hR hL hd
    have hk1 : (k + 1) * R.ncol ≤ R.T.length := by
      refine le_trans (Nat.mul_le_mul_right _ ?_) hR
      omega
    have hl1 : (k + 1) * L.ncol ≤ L.T.length := by
      refine le_trans (Nat.mul_le_mul_right _ ?_) hL
      omega
    have hLr : (L.row k).length = L.ncol := row_of_length L.ncol L.T k hl1
    have hRr : (R.row k).length = R.ncol := row_of_length R.ncol R.T k hk1
    have hshape : done ++ ((List.range' k (m + 1)).map
        (fun kk => L.row kk ++ List.replicate R.ncol (0 : α))).flatten =
        (done ++ L.row k) ++ List.replicate R.ncol 0 ++
          ((List.range' (k + 1) m).map
            (fun kk => L.row kk ++ List.replicate R.ncol (0 : α))).flatten := by
      simp [List.range'_succ]
    rw [for_loop, hshape,
      concatenate_columns_row R (L.ncol + R.ncol) L.ncol k (done ++ L.row k) _ _ hk1
        (by simp only [List.length_append, hd, hLr]) (by simp)]
    simp only
    have := ih (k + 1) (done ++ L.row k ++ R.row k)
      (by rw [show k + 1 + m = k + (m + 1) by ring]; exact hR)
      (by rw [show k + 1 + m = k + (m + 1) by ring]; exact hL)
      (by simp only [List.length_append, hd, hLr, hRr]; ring)
    rw [this]
    simp [List.range'_succ]

/-- On two tables with equal row counts whose columns all carry names,
`ftab_concatenate_columns` returns a table with `nrow` rows, the columns and names of `L`
followed by those of `R`, and each row the row of `L` followed by the row of `R`; on tables
with different row counts it returns no table. -/
theorem ftab_concatenate_columns_named {α : Type} [Zero α] (L R : ftab_t α)
    (ln rn : List (List Char)) (hLn : L.colnames = some (ln.map some))
    (hRn : R.colnames = some (rn.map some)) (hll : ln.length = L.ncol)
    (hrl : rn.length = R.ncol) (hL : L.nrow * L.ncol ≤ L.T.length)
    (hR : R.nrow * R.ncol ≤ R.T.length) (hcol : 1 ≤ L.ncol + R.ncol) :
    (L.nrow ≠ R.nrow → ftab_concatenate_columns L R = .ok none) ∧
    (L.nrow = R.nrow →
      ∃ T, ftab_concatenate_columns L R = .ok (some T) ∧ T.nrow = L.nrow ∧
        T.ncol = L.ncol + R.ncol ∧ T.colnames = some ((ln ++ rn).map some) ∧
        T.rows = (List.range L.nrow).map (fun i => L.row i ++ R.row i)) := by
  constructor
  · intro h
    simp [ftab_concatenate_columns, h]
  · intro hrow
    have hnew : (ftab_new ((L.ncol + R.ncol : Nat) : Int) : Option (ftab_t α)) =
        some ⟨calloc ((L.ncol + R.ncol) * 1024), 0, L.ncol + R.ncol, 1024, none⟩ := by
      unfold ftab_new
      have : ¬(((L.ncol + R.ncol : Nat) : Int) < 1) := by omega
      simp only [this, if_false, Int.toNat_ofNat]
    obtain ⟨T1, a1, a2, a3, a4, a5, a6, a7⟩ := concatenate_columns_name_loop L ln hLn 0 L.ncol 0
      (⟨calloc ((L.ncol + R.ncol) * 1024), 0, L.ncol + R.ncol, 1024, none⟩ : ftab_t α)
      [] (List.replicate R.ncol none) (by omega)
      (by
        show List.replicate (L.ncol + R.ncol) none = _
        rw [List.replicate_add]; rfl)
      rfl
      (by
        show (List.replicate (L.ncol + R.ncol) (none : Option (List Char))).length = _
        exact List.length_replicate _ _)
    simp only [List.drop_zero, List.nil_append] at a2
    obtain ⟨T2, b1, b2, b3, b4, b5, b6, b7⟩ := concatenate_columns_name_loop R rn hRn L.ncol
      R.ncol 0 T1 (ln.map some) [] (by omega)
      (by rw [a2]; simp) (by simp [hll]) (by rw [a2, a5]; simp [hll])
    simp only [List.drop_zero, List.append_nil] at b2
    have hT2names : T2.colnames = some ((ln ++ rn).map some) := by
      have hsome : T2.colnames.isSome := by
        rcases b7 with h | ⟨h0, h⟩
        · exact h
        · rcases a7 with g | ⟨g0, _⟩
          · rw [h]; exact g
          · omega
      cases hc : T2.colnames with
      | none => rw [hc] at hsome; cases hsome
      | some a =>
        have : names_view T2 = a := by simp [names_view, hc]
        rw [← this, b2, List.map_append]
    have c1 := concatenate_columns_left L R.ncol L.nrow 0 [] (by simpa using hL) (by simp)
    have c2 := concatenate_columns_right L R L.nrow 0 [] (by rw [hrow]; simpa using hR)
      (by simpa using hL) (by simp)
    simp only [List.nil_append] at c1 c2
    refine ⟨{ T2 with T := ((List.range' 0 L.nrow).map (fun kk => L.row kk ++ R.row kk)).flatten,
                      ncol := L.ncol + R.ncol, nrow := L.nrow, nrow_alloc := L.nrow },
      ?_, rfl, rfl, hT2names, ?_⟩
    · unfold ftab_concatenate_columns
      have hne : ¬(L.nrow ≠ R.nrow) := not_not.mpr hrow
      simp only [hne, if_false, Nat.cast_add]
      have hnew1 : (ftab_new ((L.ncol : Int) + (R.ncol : Int)) : Option (ftab_t α)) =
          some ⟨calloc ((L.ncol + R.ncol) * 1024), 0, L.ncol + R.ncol, 1024, none⟩ := by
        rw [← hnew]; congr 1
      rw [hnew1]
      simp only []
      rw [a1]
      simp only []
      rw [b1]
      simp only [calloc]
      rw [c1]
      simp only []
      rw [← hrow, c2]
    · have huni : ∀ r ∈ (List.range' 0 L.nrow).map (fun kk => L.row kk ++ R.row kk),
          r.length = L.ncol + R.ncol := by
        intro r hr
        obtain ⟨i, hi, rfl⟩ := List.mem_map.mp hr
        have hi1 : i < L.nrow := by simpa using (List.mem_range'_1.mp hi).2
        have h1 := row_of_length L.ncol L.T i (le_trans (Nat.mul_le_mul_right _ hi1) hL)
        have h2 := row_of_length R.ncol R.T i
          (le_trans (Nat.mul_le_mul_right _ (by omega)) hR)
        simp only [List.length_append, ftab_t.row, h1, h2]
      have := map_row_of_flatten (L.ncol + R.ncol) _ huni []
      simp only [List.append_nil, List.length_map, List.length_range'] at this
      show List.map (row_of (L.ncol + R.ncol)
        ((List.range' 0 L.nrow).map (fun kk => L.row kk ++ R.row kk)).flatten)
        (List.range L.nrow) = _
      rw [this, List.range_eq_range']

/-! ## Create and truncate -/

/-- C19 (create): `ftab_new` returns no table exactly when `ncol < 1`; for `ncol ≥ 1` it
returns the table with that column count, `nrow = 0`, `nrow_alloc = 1024`, a buffer of
`1024 * ncol` cells that are all zero, and no names array. -/
theorem ftab_new_correct {α : Type} [Zero α] (ncol : Int) :
    ((ftab_new ncol : Option (ftab_t α)) = none ↔ ncol < 1) ∧
    (1 ≤ ncol →
      ∃ T : ftab_t α, ftab_new ncol = some T ∧ T.ncol = ncol.toNat ∧ (T.ncol : Int) = ncol ∧
        T.nrow = 0 ∧ T.nrow_alloc = 1024 ∧ T.T.length = 1024 * T.ncol ∧
        (∀ v ∈ T.T, v = 0) ∧ T.colnames = none) := by
  constructor
  · unfold ftab_new
    by_cases h : ncol < 1
    · simp [h]
    · simp [h]
  · intro h
    have hn : ¬(ncol < 1) := by omega
    refine ⟨⟨calloc (ncol.toNat * 1024), 0, ncol.toNat, 1024, none⟩,
      by simp only [ftab_new, hn, if_false], rfl, ?_, rfl, rfl, ?_, ?_, rfl⟩
    · show ((ncol.toNat : Nat) : Int) = ncol
      omega
    · show (calloc (ncol.toNat * 1024) : List α).length = 1024 * ncol.toNat
      simp [calloc, Nat.mul_comm]
    · intro v hv
      exact (List.mem_replicate.mp hv).2

theorem ftab_new_correct_witness :
    ((ftab_new 3 : Option (ftab_t Int)) = none ↔ (3 : Int) < 1) ∧
    (∃ T : ftab_t Int, ftab_new 3 = some T ∧ T.ncol = (3 : Int).toNat ∧ (T.ncol : Int) = 3 ∧
        T.nrow = 0 ∧ T.nrow_alloc = 1024 ∧ T.T.length = 1024 * T.ncol ∧
        (∀ v ∈ T.T, v = 0) ∧ T.colnames = none) ∧
    (ftab_new 0 : Option (ftab_t Int)) = none :=
  ⟨(ftab_new_correct 3).1, (ftab_new_correct 3).2 (by decide), rfl⟩

/-- C20 (truncate): `ftab_head` leaves the table unchanged when `n < 0`; otherwise it sets
`nrow` to the minimum of `nrow` and `n` and leaves `ncol`, `nrow_alloc`, the buffer and the
names unchanged.  It never increases `nrow`, and a second call with the same `n` changes
nothing. -/
theorem ftab_head_correct {α : Type} (T : ftab_t α) (n : Int) :
    (n < 0 → ftab_head T n = T) ∧
    (0 ≤ n → ((ftab_head T n).nrow : Int) = min (T.nrow : Int) n ∧
      (ftab_head T n).ncol = T.ncol ∧ (ftab_head T n).nrow_alloc = T.nrow_alloc ∧
      (ftab_head T n).T = T.T ∧ (ftab_head T n).colnames = T.colnames) ∧
    (ftab_head T n).nrow ≤ T.nrow ∧
    ftab_head (ftab_head T n) n = ftab_head T n := by
  by_cases h : n < 0
  · have e : ftab_head T n = T := by simp [ftab_head, h]
    refine ⟨fun _ => e, fun h0 => by omega, by rw [e], by rw [e, e]⟩
  · have hn : 0 ≤ n := by omega
    by_cases hgt : n > (T.nrow : Int)
    · have e : ftab_head T n = T := by
        simp only [ftab_head, h, if_false, hgt, if_true, Int.toNat_ofNat]
      refine ⟨fun h1 => absurd h1 h, fun _ => ?_, by rw [e], by rw [e, e]⟩
      rw [e]
      exact ⟨by omega, rfl, rfl, rfl, rfl⟩
    · have e : ftab_head T n = { T with nrow := n.toNat } := by
        simp only [ftab_head, h, if_false, hgt]
      have e2 : ftab_head { T with nrow := n.toNat } n = { T with nrow := n.toNat } := by
        have : ¬(n > ((n.toNat : Nat) : Int)) := by omega
        simp only [ftab_head, h, if_false, this]
      refine ⟨fun h1 => absurd h1 h, fun _ => ?_, ?_, by rw [e, e2]⟩
      · rw [e]
        refine ⟨?_, rfl, rfl, rfl, rfl⟩
        show ((n.toNat : Nat) : Int) = min (T.nrow : Int) n
        omega
      · rw [e]
        show n.toNat ≤ T.nrow
        omega

theorem ftab_head_correct_witness :
    ftab_head (⟨[1, 2, 3], 3, 1, 3, none⟩ : ftab_t Int) (-1) = ⟨[1, 2, 3], 3, 1, 3, none⟩ ∧
    (((ftab_head (⟨[1, 2, 3], 3, 1, 3, none⟩ : ftab_t Int) 2).nrow : Int) =
        min (((⟨[1, 2, 3], 3, 1, 3, none⟩ : ftab_t Int).nrow : Nat) : Int) 2 ∧
      (ftab_head (⟨[1, 2, 3], 3, 1, 3, none⟩ : ftab_t Int) 2).ncol = 1 ∧
      (ftab_head (⟨[1, 2, 3], 3, 1, 3, none⟩ : ftab_t Int) 2).nrow_alloc = 3 ∧
      (ftab_head (⟨[1, 2, 3], 3, 1, 3, none⟩ : ftab_t Int) 2).T = [1, 2, 3] ∧
      (ftab_head (⟨[1, 2, 3], 3, 1, 3, none⟩ : ftab_t Int) 2).colnames = none) ∧
    ftab_head (⟨[1, 2, 3], 3, 1, 3, none⟩ : ftab_t Int) 2 = ⟨[1, 2, 3], 2, 1, 3, none⟩ ∧
    ftab_head (ftab_head (⟨[1, 2, 3], 3, 1, 3, none⟩ : ftab_t Int) 2) 2 =
      ftab_head (⟨[1, 2, 3], 3, 1, 3, none⟩ : ftab_t Int) 2 :=
  ⟨(ftab_head_correct (⟨[1, 2, 3], 3, 1, 3, none⟩ : ftab_t Int) (-1)).1 (by decide),
    (ftab_head_correct (⟨[1, 2, 3], 3, 1, 3, none⟩ : ftab_t Int) 2).2.1 (by decide),
    by decide,
    (ftab_head_correct (⟨[1, 2, 3], 3, 1, 3, none⟩ : ftab_t Int) 2).2.2.2⟩

/-! ## Name lookup -/

theorem strcmp_eq_zero_iff (a : List Char) : ∀ b, strcmp a b = 0 ↔ a = b := by
  induction a with
  | nil =>
    intro b
    cases b with
    | nil => simp [strcmp]
    | cons y ys => simp [strcmp]
  | cons x xs ih =>
    intro b
    cases b with
    | nil => simp [strcmp]
    | cons y ys =>
      unfold strcmp
      by_cases h : x = y
      · simp [h, ih ys]
      · by_cases h2 : x.toNat < y.toNat
        · simp [h, h2]
        · simp [h, h2]

theorem ftab_get_col_step {α : Type} (T : ftab_t α) (arr : List (Option (List Char)))
    (s : List Char) (h : T.colnames = some arr) (k : Nat) (hk : k < arr.length) (ret : Int)
    (hr : last_match arr s k ret) :
    ∃ ret1, ftab_get_col_name T s k ret = .ok ret1 ∧ last_match arr s (k + 1) ret1 := by
  have hget : colname_at T.colnames k = .ok arr[k] := by
    simp [colname_at, h, List.getElem?_eq_getElem hk]
  have hk2 : arr[k]? = some arr[k] := List.getElem?_eq_getElem hk
  have keep : arr[k] ≠ some s → last_match arr s (k + 1) ret := by
    intro hne
    have hne' : arr[k]? ≠ some (some s) := by
      rw [hk2]; intro e; exact hne (Option.some.inj e)
    rcases hr with ⟨h1, h2⟩ | ⟨i, h1, h2, h3, h4⟩
    · left
      refine ⟨h1, fun j hj => ?_⟩
      by_cases hjk : j = k
      · rw [hjk]; exact hne'
      · exact h2 j (by omega)
    · right
      refine ⟨i, h1, by omega, h3, fun j hij hj => ?_⟩
      by_cases hjk : j = k
      · rw [hjk]; exact hne'
      · exact h4 j hij (by omega)
  unfold ftab_get_col_name
  rw [hget]
  cases hv : arr[k] with
  | none =>
    exact ⟨ret, rfl, keep (by rw [hv]; simp)⟩
  | some x =>
    by_cases hx : x = s
    · have : strcmp x s = 0 := (strcmp_eq_zero_iff x s).mpr hx
      refine ⟨(k : Int), by simp [this], Or.inr ⟨k, rfl, by omega, ?_, fun j h1 h2 => by omega⟩⟩
      rw [hk2, hv, hx]
    · have : ¬(strcmp x s = 0) := fun e => hx ((strcmp_eq_zero_iff x s).mp e)
      refine ⟨ret, by simp [this], keep ?_⟩
      rw [hv]
      intro e
      exact hx (Option.some.inj e)

theorem ftab_get_col_loop {α : Type} (T : ftab_t α) (arr : List (Option (List Char)))
    (s : List Char) (h : T.colnames = some arr) (m : Nat) :
    ∀ (k : Nat) (ret : Int), k + m ≤ arr.length → last_match arr s k ret →
      ∃ ret1, for_loop (ftab_get_col_name T s) m k ret = .ok ret1 ∧
        last_match arr s (k + m) ret1 := by
  induction m with
  | zero => intro k ret _ hr; exact ⟨ret, rfl, hr⟩
  | succ m ih =>
    intro k ret hk hr
    obtain ⟨r1, h1, h2⟩ := ftab_get_col_step T arr s h k (by omega) ret hr
    obtain ⟨r2, h3, h4⟩ := ih (k + 1) r1 (by omega) h2
    refine ⟨r2, by rw [for_loop, h1]; exact h3, ?_⟩
    have : k + (m + 1) = k + 1 + m := by omega
    rw [this]; exact h4

/-- C13 (name lookup): for a table whose names array is allocated with `ncol` entries,
`ftab_get_col` returns -1 when no column is named `s`, and otherwise the largest column
index whose name is present and equal to `s`; null entries are skipped. -/
theorem ftab_get_col_correct {α : Type} (T : ftab_t α) (arr : List (Option (List Char)))
    (s : List Char) (h : T.colnames = some arr) (hl : arr.length = T.ncol) :
    ∃ ret, ftab_get_col T s = .ok ret ∧
      ((ret = -1 ∧ ∀ j, j < T.ncol → arr[j]? ≠ some (some s)) ∨
        ∃ k : Nat, ret = (k : Int) ∧ k < T.ncol ∧ arr[k]? = some (some s) ∧
          ∀ j, k < j → j < T.ncol → arr[j]? ≠ some (some s)) := by
  obtain ⟨ret, h1, h2⟩ := ftab_get_col_loop T arr s h T.ncol 0 (-1) (by omega)
    (Or.inl ⟨rfl, fun j hj => by omega⟩)
  rw [Nat.zero_add] at h2
  exact ⟨ret, h1, h2⟩

theorem ftab_get_col_correct_witness :
    ftab_get_col (⟨[], 0, 4, 0, some [some ['a'], none, some ['a'], some ['b']]⟩ : ftab_t Int)
      ['a'] = .ok 2 ∧
    ∃ ret, ftab_get_col
        (⟨[], 0, 4, 0, some [some ['a'], none, some ['a'], some ['b']]⟩ : ftab_t Int) ['a'] =
        .ok ret ∧
      ((ret = -1 ∧ ∀ j, j < 4 →
          [some ['a'], none, some ['a'], some ['b']][j]? ≠ some (some ['a'])) ∨
        ∃ k : Nat, ret = (k : Int) ∧ k < 4 ∧
          [some ['a'], none, some ['a'], some ['b']][k]? = some (some ['a']) ∧
          ∀ j, k < j → j < 4 →
            [some ['a'], none, some ['a'], some ['b']][j]? ≠ some (some ['a'])) :=
  ⟨by decide,
    ftab_get_col_correct
      (⟨[], 0, 4, 0, some [some ['a'], none, some ['a'], some ['b']]⟩ : ftab_t Int)
      [some ['a'], none, some ['a'], some ['b']] ['a'] rfl rfl⟩

/-- C14 (name lookup without names), the failing input: on the table returned by
`ftab_new(1)`, whose names array is a null pointer, `ftab_get_col` reads `T->colnames[0]`
through the null pointer instead of returning -1.  Only a table without columns gets -1. -/
theorem ftab_get_col_unnamed_fault :
    (ftab_new 1 : Option (ftab_t Int)) = some ⟨List.replicate 1024 0, 0, 1, 1024, none⟩ ∧
    ftab_get_col (⟨List.replicate 1024 0, 0, 1, 1024, none⟩ : ftab_t Int) ['x'] =
      .error .memory_fault ∧
    ftab_get_col (⟨[], 0, 0, 0, none⟩ : ftab_t Int) ['x'] = .ok (-1) :=
  ⟨rfl, rfl, rfl⟩

/-! ## Capacity growth -/

theorem ftab_insert_room {α : Type} [Zero α] (T : ftab_t α) (row : List α)
    (hlen : T.T.length = T.nrow_alloc * T.ncol) (hrow : row.length = T.ncol)
    (hlt : T.nrow < T.nrow_alloc) :
    ftab_insert T row =
      .ok { T with T := T.T.take (T.nrow * T.ncol) ++ row ++ T.T.drop (T.nrow * T.ncol + T.ncol),
                   nrow := T.nrow + 1 } := by
  have hb : (T.nrow + 1) * T.ncol ≤ T.nrow_alloc * T.ncol := Nat.mul_le_mul_right _ hlt
  have e2 : (T.nrow + 1) * T.ncol = T.nrow * T.ncol + T.ncol := by ring
  have hne : ¬(T.nrow = T.nrow_alloc) := by omega
  have hcond : 0 + T.ncol ≤ row.length ∧ T.ncol * T.nrow + T.ncol ≤ T.T.length := by
    rw [hrow, hlen, Nat.mul_comm T.ncol]; constructor <;> omega
  unfold ftab_insert
  simp only [hne, if_false, memcpy, hcond, and_self, if_true]
  rw [Nat.mul_comm T.ncol, List.drop_zero, ← hrow, List.take_length]

theorem ftab_insert_spec {α : Type} [Zero α] (T : ftab_t α) (row : List α)
    (hlen : T.T.length = T.nrow_alloc * T.ncol) (hrow : row.length = T.ncol)
    (hle : T.nrow ≤ T.nrow_alloc) (h2 : T.nrow = T.nrow_alloc → 2 ≤ T.nrow_alloc) :
    ∃ T1, ftab_insert T row = .ok T1 ∧ T1.nrow = T.nrow + 1 ∧ T1.ncol = T.ncol ∧
      T1.colnames = T.colnames ∧
      T1.nrow_alloc =
        (if T.nrow = T.nrow_alloc then grow_nrow_alloc T.nrow_alloc else T.nrow_alloc) ∧
      T1.nrow ≤ T1.nrow_alloc ∧ T1.T.length = T1.nrow_alloc * T1.ncol ∧
      T1.cells = T.cells ++ row := by
  have key : ∀ U : ftab_t α, U.T.length = U.nrow_alloc * U.ncol → row.length = U.ncol →
      U.nrow < U.nrow_alloc →
      ∃ T1, ftab_insert U row = .ok T1 ∧ T1.nrow = U.nrow + 1 ∧ T1.ncol = U.ncol ∧
        T1.colnames = U.colnames ∧ T1.nrow_alloc = U.nrow_alloc ∧ T1.nrow ≤ T1.nrow_alloc ∧
        T1.T.length = T1.nrow_alloc * T1.ncol ∧ T1.cells = U.cells ++ row := by
    intro U ul ur ult
    have hb : (U.nrow + 1) * U.ncol ≤ U.nrow_alloc * U.ncol := Nat.mul_le_mul_right _ ult
    have e2 : (U.nrow + 1) * U.ncol = U.nrow * U.ncol + U.ncol := by ring
    have hl1 : (U.T.take (U.nrow * U.ncol)).length = U.nrow * U.ncol := by
      rw [List.length_take, ul]; omega
    refine ⟨_, ftab_insert_room U row ul ur ult, rfl, rfl, rfl, rfl, ?_, ?_, ?_⟩
    · show U.nrow + 1 ≤ U.nrow_alloc
      omega
    · show (U.T.take (U.nrow * U.ncol) ++ row ++ U.T.drop (U.nrow * U.ncol + U.ncol)).length =
        U.nrow_alloc * U.ncol
      simp only [List.length_append, hl1, ur, List.length_drop, ul]
      omega
    · show List.take ((U.nrow + 1) * U.ncol)
        (U.T.take (U.nrow * U.ncol) ++ row ++ U.T.drop (U.nrow * U.ncol + U.ncol)) = _
      rw [List.take_append_of_le_length (by simp only [List.length_append, hl1, ur]; omega),
        List.take_of_length_le (by simp only [List.length_append, hl1, ur]; omega)]
      rfl
  by_cases hfull : T.nrow = T.nrow_alloc
  · have hg := grow_nrow_alloc_gt T.nrow_alloc (h2 hfull)
    have hmono : T.nrow_alloc * T.ncol ≤ grow_nrow_alloc T.nrow_alloc * T.ncol :=
      Nat.mul_le_mul_right _ (le_of_lt hg)
    have hre : realloc T.T (grow_nrow_alloc T.nrow_alloc * T.ncol) =
        T.T ++ List.replicate (grow_nrow_alloc T.nrow_alloc * T.ncol -
          T.nrow_alloc * T.ncol) 0 := by
      unfold realloc
      rw [hlen, List.take_of_length_le (by rw [hlen]; exact hmono)]
    have hsame : ftab_insert T row =
        ftab_insert { T with nrow_alloc := grow_nrow_alloc T.nrow_alloc,
                             T := realloc T.T (grow_nrow_alloc T.nrow_alloc * T.ncol) } row := by
      have hne : ¬(T.nrow_alloc = grow_nrow_alloc T.nrow_alloc) := by omega
      simp only [ftab_insert, hfull, if_true, hne, if_false]
    obtain ⟨T1, a1, a2, a3, a4, a5, a6, a7, a8⟩ := key
      { T with nrow_alloc := grow_nrow_alloc T.nrow_alloc,
               T := realloc T.T (grow_nrow_alloc T.nrow_alloc * T.ncol) }
      (by
        show (realloc T.T (grow_nrow_alloc T.nrow_alloc * T.ncol)).length = _
        rw [hre, List.length_append, List.length_replicate, hlen]
        show _ = grow_nrow_alloc T.nrow_alloc * T.ncol
        omega)
      hrow (by show T.nrow < grow_nrow_alloc T.nrow_alloc; omega)
    refine ⟨T1, by rw [hsame]; exact a1, a2, a3, a4, by rw [a5, if_pos hfull], a6, a7, ?_⟩
    rw [a8]
    congr 1
    show List.take (T.nrow * T.ncol) (realloc T.T (grow_nrow_alloc T.nrow_alloc * T.ncol)) = _
    rw [hre, List.take_append_of_le_length (by rw [hlen, hfull])]
    rfl
  · obtain ⟨T1, a1, a2, a3, a4, a5, a6, a7, a8⟩ := key T hlen hrow (by omega)
    exact ⟨T1, a1, a2, a3, a4, by rw [a5, if_neg hfull], a6, a7, a8⟩

/-- C12 (growth step), amended: for a table with `nrow ≤ nrow_alloc` and a buffer of
`nrow_alloc * ncol` cells, `ftab_insert` of a row of `ncol` values stores the row and, when
`nrow = nrow_alloc = c` with `c ≥ 2`, first changes `nrow_alloc` to the value of
`c + c*0.69` computed in `double` and truncated towards zero, which is larger than `c`;
when `nrow < nrow_alloc` it leaves `nrow_alloc` unchanged.  From 1024 the growth gives
1730. -/
theorem ftab_insert_growth_step {α : Type} [Zero α] (T : ftab_t α) (row : List α)
    (hlen : T.T.length = T.nrow_alloc * T.ncol) (hrow : row.length = T.ncol)
    (hle : T.nrow ≤ T.nrow_alloc) (h2 : T.nrow = T.nrow_alloc → 2 ≤ T.nrow_alloc) :
    ∃ T1, ftab_insert T row = .ok T1 ∧ T1.nrow = T.nrow + 1 ∧ T1.cells = T.cells ++ row ∧
      (T.nrow = T.nrow_alloc →
        T1.nrow_alloc = grow_nrow_alloc T.nrow_alloc ∧ T.nrow_alloc < T1.nrow_alloc) ∧
      (T.nrow < T.nrow_alloc → T1.nrow_alloc = T.nrow_alloc) ∧
      grow_nrow_alloc 1024 = 1730 := by
  obtain ⟨T1, a1, a2, _, _, a5, _, _, a8⟩ := ftab_insert_spec T row hlen hrow hle h2
  refine ⟨T1, a1, a2, a8, ?_, ?_, by decide⟩
  · intro hfull
    rw [a5, if_pos hfull]
    exact ⟨rfl, grow_nrow_alloc_gt _ (h2 hfull)⟩
  · intro hlt
    rw [a5, if_neg (by omega)]

theorem ftab_insert_growth_step_witness :
    ∃ T1, ftab_insert (⟨[1, 2], 2, 1, 2, none⟩ : ftab_t Int) [3] = .ok T1 ∧
      T1.nrow = 2 + 1 ∧ T1.cells = (⟨[1, 2], 2, 1, 2, none⟩ : ftab_t Int).cells ++ [3] ∧
      ((2 : Nat) = 2 → T1.nrow_alloc = grow_nrow_alloc 2 ∧ 2 < T1.nrow_alloc) ∧
      ((2 : Nat) < 2 → T1.nrow_alloc = 2) ∧
      grow_nrow_alloc 1024 = 1730 :=
  ftab_insert_growth_step (⟨[1, 2], 2, 1, 2, none⟩ : ftab_t Int) [3] (by decide) (by decide)
    (by decide) (by decide)

/-- C12 (growth step), the counterexample: a table with `nrow = nrow_alloc = 1024` gets the
capacity 1730 from `ftab_insert`, not the ceiling 1731 of `1024 * 1.69`. -/
theorem ftab_insert_growth_not_ceiling :
    spec_grown_capacity 1024 = 1731 ∧
    ∃ T1, ftab_insert (⟨List.replicate 1024 0, 1024, 1, 1024, none⟩ : ftab_t Int) [7] = .ok T1 ∧
      T1.nrow_alloc = 1730 ∧ T1.nrow_alloc ≠ spec_grown_capacity 1024 := by
  have hg : grow_nrow_alloc 1024 = 1730 := by decide
  obtain ⟨T1, a1, _, _, _, a5, _⟩ := ftab_insert_spec
    (⟨List.replicate 1024 0, 1024, 1, 1024, none⟩ : ftab_t Int) [7]
    (List.length_replicate 1024 (0 : Int)) rfl (le_refl _) (fun _ => by decide)
  have h5 : T1.nrow_alloc = 1730 := by
    rw [a5, if_pos rfl]; exact hg
  refine ⟨by decide, T1, a1, h5, ?_⟩
  rw [h5]
  decide

set_option maxRecDepth 100000 in
/-- C11 (capacity invariant), the failing input: `ftab_new(1)`, one `ftab_insert`, then
`ftab_copy` give a table with `nrow = nrow_alloc = 1`, and so does `ftab_new_from_data`
for one row.  On it `ftab_insert` computes the
new capacity `grow_nrow_alloc 1 = 1`, so the buffer stays one row long and the row is
written outside it; the same happens after the copy of a table without rows, where the
capacity stays 0. -/
theorem ftab_insert_after_copy_overruns :
    (ftab_new 1 : Option (ftab_t Int)) = some ⟨List.replicate 1024 0, 0, 1, 1024, none⟩ ∧
    ftab_insert (⟨List.replicate 1024 0, 0, 1, 1024, none⟩ : ftab_t Int) [5] =
      .ok ⟨5 :: List.replicate 1023 0, 1, 1, 1024, none⟩ ∧
    ftab_copy (⟨5 :: List.replicate 1023 0, 1, 1, 1024, none⟩ : ftab_t Int) =
      .ok (some ⟨[5], 1, 1, 1, none⟩) ∧
    ftab_new_from_data 1 1 ([5] : List Int) = .ok (some ⟨[5], 1, 1, 1, none⟩) ∧
    grow_nrow_alloc 1 = 1 ∧
    ftab_insert (⟨[5], 1, 1, 1, none⟩ : ftab_t Int) [6] = .error .memory_fault ∧
    ftab_copy (⟨List.replicate 1024 0, 0, 1, 1024, none⟩ : ftab_t Int) =
      .ok (some ⟨[], 0, 1, 0, none⟩) ∧
    grow_nrow_alloc 0 = 0 ∧
    ftab_insert (⟨[], 0, 1, 0, none⟩ : ftab_t Int) [6] = .error .memory_fault := by
  refine ⟨rfl, rfl, ?_, ?_, ?_, ?_, ?_, ?_, ?_⟩ <;> decide

/-! ## Column checks and blank lines -/

/-- C15 (sort rejects invalid columns): `ftab_sort` stops with `exit(EXIT_FAILURE)` for the
column index -1, before it reads a cell, for every table.  No other index is checked: on a
table of two columns and two rows, with room for three, the index 2 is accepted, the cell
after each row is taken as the key and the rows are reordered; the index -2 makes the
first read fall before the buffer. -/
theorem ftab_sort_checks_only_sentinel :
    (∀ (qsort : (ftab_sort_pair Int → ftab_sort_pair Int → Int) → List (ftab_sort_pair Int) →
        List (ftab_sort_pair Int)) (T : ftab_t Int),
      ftab_sort qsort T (-1) = .error .exit_failure) ∧
    ftab_sort insertion_qsort (⟨[1, 2, 0, 4, 9, 9], 2, 2, 3, none⟩ : ftab_t Int) 2 =
      .ok ⟨[0, 4, 1, 2, 0, 0], 2, 2, 3, none⟩ ∧
    ftab_sort insertion_qsort (⟨[1, 2, 0, 4, 9, 9], 2, 2, 3, none⟩ : ftab_t Int) (-2) =
      .error .memory_fault := by
  refine ⟨fun qsort T => ?_, by decide, by decide⟩
  simp [ftab_sort]

theorem parsed_row_blank {α : Type} (atof : List Char → α) (d : Char) (hd : d ≠ '\n')
    (k : Nat) :
    parsed_row atof d k ['\n'] = if k ≤ 1 then some ([['\n']].take k |>.map atof) else none := by
  have hc : cstr ['\n'] = ['\n'] := by decide
  have hs : ['\n'].splitOn d = [['\n']] := by
    rw [splitOn_cons, if_neg (by intro h; exact hd h.symm), splitOn_nil]
    rfl
  unfold parsed_row
  rw [hc, hs]
  simp

/-- C17 (blank lines): let the file consist of complete lines `pre0 ++ "\n"` (the header,
which holds a non-empty string, and possibly data lines), a blank line `"\n"`, and the rest
`post`, with a delimiter other than the newline.  `ftab_from_dlm` returns a table for the
file and for the file without the blank line, with the same number of columns.  With two
or more columns the two tables have the same `nrow` and the same cells.  With one column
the blank line is a row of its own: the table has one row more, which holds
`atof("\n")`, at the position of the blank line. -/
theorem ftab_from_dlm_blank_line {α : Type} [Zero α] (atof : List Char → α) (d : Char)
    (pre0 post hdr : List Char) (more : List (List Char)) (hd : d ≠ '\n')
    (hpre : getlines (pre0 ++ ['\n']) = hdr :: more) (hh : cstr hdr ≠ []) :
    ∃ T1 T2, ftab_from_dlm atof (some ((pre0 ++ ['\n']) ++ ['\n'] ++ post)) [d] = .ok (some T1) ∧
      ftab_from_dlm atof (some ((pre0 ++ ['\n']) ++ post)) [d] = .ok (some T2) ∧
      T1.ncol = 1 + (cstr hdr).count d ∧ T2.ncol = T1.ncol ∧
      (2 ≤ T1.ncol → T1.nrow = T2.nrow ∧ T1.cells = T2.cells) ∧
      (T1.ncol = 1 → T1.nrow = T2.nrow + 1 ∧
        T1.cells = (more.filterMap (parsed_row atof d 1)).flatten ++ [atof ['\n']] ++
          ((getlines post).filterMap (parsed_row atof d 1)).flatten ∧
        T2.cells = (more.filterMap (parsed_row atof d 1)).flatten ++
          ((getlines post).filterMap (parsed_row atof d 1)).flatten) := by
  obtain ⟨g1, g2⟩ := getlines_insert_line pre0 ['\n'] post (Or.inl ⟨[], rfl, by simp⟩)
  rw [hpre] at g1 g2
  have g1c : getlines ((pre0 ++ ['\n']) ++ ['\n'] ++ post) =
      hdr :: (more ++ [['\n']] ++ getlines post) := by simpa using g1
  have g2c : getlines ((pre0 ++ ['\n']) ++ post) = hdr :: (more ++ getlines post) := by
    simpa using g2
  obtain ⟨T1, a1, a2, a3, a4, _⟩ :=
    ftab_from_dlm_spec atof d _ hdr (more ++ [['\n']] ++ getlines post) g1c hh
  obtain ⟨T2, b1, b2, b3, b4, _⟩ :=
    ftab_from_dlm_spec atof d _ hdr (more ++ getlines post) g2c hh
  refine ⟨T1, T2, a1, b1, a2, by rw [a2, b2], ?_, ?_⟩
  · intro h2
    rw [a2] at h2
    have hb : parsed_row atof d (1 + (cstr hdr).count d) ['\n'] = none := by
      rw [parsed_row_blank atof d hd, if_neg (by omega)]
    have hfm : (more ++ [['\n']] ++ getlines post).filterMap
        (parsed_row atof d (1 + (cstr hdr).count d)) =
        (more ++ getlines post).filterMap (parsed_row atof d (1 + (cstr hdr).count d)) := by
      simp [List.filterMap_append, hb]
    rw [a3, a4, b3, b4, hfm]
    exact ⟨rfl, rfl⟩
  · intro h1
    rw [a2] at h1
    have hb : parsed_row atof d 1 ['\n'] = some [atof ['\n']] := by
      rw [parsed_row_blank atof d hd, if_pos (le_refl _)]
      rfl
    rw [h1] at a3 a4 b3 b4
    have hfm : (more ++ [['\n']] ++ getlines post).filterMap (parsed_row atof d 1) =
        more.filterMap (parsed_row atof d 1) ++ [[atof ['\n']]] ++
          (getlines post).filterMap (parsed_row atof d 1) := by
      simp [List.filterMap_append, hb]
    rw [a3, a4, b3, b4, hfm]
    refine ⟨?_, ?_, ?_⟩
    · simp [List.filterMap_append]
      omega
    · simp
    · simp [List.filterMap_append]

theorem ftab_from_dlm_blank_line_witness :
    (ftab_from_dlm atof6 (some ['x', '\n', '\n', '1', '\n']) [','] =
        .ok (some ⟨[0, 1000000, 0, 0], 2, 1, 4, some [some ['x']]⟩) ∧
      ftab_from_dlm atof6 (some ['x', '\n', '1', '\n']) [','] =
        .ok (some ⟨[1000000, 0, 0], 1, 1, 3, some [some ['x']]⟩)) ∧
    ∃ T1 T2, ftab_from_dlm atof6 (some ((['x'] ++ ['\n']) ++ ['\n'] ++ ['1', '\n'])) [','] =
        .ok (some T1) ∧
      ftab_from_dlm atof6 (some ((['x'] ++ ['\n']) ++ ['1', '\n'])) [','] = .ok (some T2) ∧
      T1.ncol = 1 + (cstr ['x', '\n']).count ',' ∧ T2.ncol = T1.ncol ∧
      (2 ≤ T1.ncol → T1.nrow = T2.nrow ∧ T1.cells = T2.cells) ∧
      (T1.ncol = 1 → T1.nrow = T2.nrow + 1 ∧
        T1.cells = (([] : List (List Char)).filterMap (parsed_row atof6 ',' 1)).flatten ++
            [atof6 ['\n']] ++
          ((getlines ['1', '\n']).filterMap (parsed_row atof6 ',' 1)).flatten ∧
        T2.cells = (([] : List (List Char)).filterMap (parsed_row atof6 ',' 1)).flatten ++
          ((getlines ['1', '\n']).filterMap (parsed_row atof6 ',' 1)).flatten) :=
  ⟨⟨by decide, by decide⟩,
    ftab_from_dlm_blank_line atof6 ',' ['x'] ['1', '\n'] ['x', '\n'] [] (by decide) (by decide)
      (by decide)⟩

/-- C18 (empty header): `ftab_from_dlm` returns the null pointer for a path that cannot be
opened and for a file without content.  For a file whose first line is only the newline it
returns a table: `getline` reports one character read, so the check `nread <= 0` does not
apply, and the header is taken as one column (two when the delimiter is the newline).  The
file `"\n"` read as CSV gives a table of one column with the empty name and no rows. -/
theorem ftab_from_dlm_newline_header {α : Type} [Zero α] (atof : List Char → α) (d : Char)
    (post : List Char) :
    ftab_from_dlm atof none [d] = .ok none ∧
    ftab_from_dlm atof (some []) [d] = .ok none ∧
    (∃ T, ftab_from_dlm atof (some ('\n' :: post)) [d] = .ok (some T) ∧ 1 ≤ T.ncol ∧
      (d ≠ '\n' → T.ncol = 1 ∧ T.colnames = some [some []])) ∧
    ftab_from_dlm atof6 (some ['\n']) [','] = .ok (some ⟨[0, 0], 0, 1, 2, some [some []]⟩) := by
  refine ⟨rfl, rfl, ?_, by decide⟩
  have hc : cstr ['\n'] = ['\n'] := by decide
  obtain ⟨T, a1, a2, _, _, a5, _⟩ := ftab_from_dlm_spec atof d ('\n' :: post) ['\n']
    (getlines post) (by simp [getlines]) (by decide)
  refine ⟨T, a1, by omega, fun hd => ?_⟩
  rw [hc] at a2 a5
  have hs : ['\n'].splitOn d = [['\n']] := by
    rw [splitOn_cons, if_neg (by intro h; exact hd h.symm), splitOn_nil]
    rfl
  constructor
  · rw [a2]
    simp [hd]
  · rw [a5, hs]
    simp only [List.map_cons, List.map_nil]
    have : trimmed_field ['\n'] = [] := by decide
    rw [this]

/-! ## Written header -/

theorem ftab_print_name_field {α : Type} (T : ftab_t α) (sep : List Char)
    (hn : ∀ arr, T.colnames = some arr → arr.length = T.ncol) (cc : Nat) (out : List Char)
    (hcc : cc < T.ncol) :
    ftab_print_name T sep cc out =
      .ok (if cc + 1 ≠ T.ncol then out ++ header_field T cc ++ sep
        else out ++ header_field T cc) := by
  unfold ftab_print_name header_field col_placeholder
  cases hc : T.colnames with
  | none => simp only [List.append_assoc]
  | some arr =>
    have hc1 : cc < arr.length := by rw [hn arr hc]; exact hcc
    simp only [colname_at, List.get?_eq_getElem?, List.getElem?_eq_getElem hc1]
    cases arr[cc] with
    | none => simp only [List.append_assoc]
    | some s => rfl

theorem ftab_print_general {α : Type} (fmt : α → List Char) (T : ftab_t α) (sep : List Char)
    (hn : ∀ arr, T.colnames = some arr → arr.length = T.ncol)
    (hT : T.nrow * T.ncol ≤ T.T.length) :
    ftab_print fmt T sep =
      .ok (sep_join sep ((List.range T.ncol).map (header_field T)) ++ ['\n'] ++
        (T.rows.map (fun r => sep_join sep (r.map fmt) ++ ['\n'])).flatten) := by
  have hhead : for_loop (ftab_print_name T sep) T.ncol 0 [] =
      .ok (sep_join sep ((List.range T.ncol).map (header_field T))) := by
    rw [for_loop_sep (n := T.ncol) sep (header_field T) _ T.ncol 0 [] (by omega)]
    · rw [List.range_eq_range']; rfl
    · intro cc out _ hcc
      exact ftab_print_name_field T sep hn cc out hcc
  have hrow : ∀ rr out, rr < T.nrow → ftab_print_row fmt T sep rr out =
      .ok (out ++ (sep_join sep ((T.row rr).map fmt) ++ ['\n'])) := by
    intro rr out hrr
    have hr1 : (rr + 1) * T.ncol ≤ T.T.length :=
      le_trans (Nat.mul_le_mul_right _ hrr) hT
    have e : (rr + 1) * T.ncol = rr * T.ncol + T.ncol := by ring
    unfold ftab_print_row
    rw [for_loop_sep (n := T.ncol) sep (fun cc => (T.T[rr * T.ncol + cc]?).elim [] fmt) _
      T.ncol 0 out (by omega)]
    · simp only [range'_map_row fmt T.ncol T.T rr hr1, ftab_t.row, List.append_assoc]
    · intro cc out1 _ hcc
      have hi : rr * T.ncol + cc < T.T.length := by omega
      unfold ftab_print_cell
      rw [load_nat T.T _ hi]
      simp [List.getElem?_eq_getElem hi]
  unfold ftab_print
  rw [hhead]
  simp only
  rw [for_loop_append (fun rr => sep_join sep ((T.row rr).map fmt) ++ ['\n']) _ T.nrow 0 _
    (fun cc out1 _ h2 => hrow cc out1 (by omega))]
  simp only [ftab_t.rows, List.range_eq_range', List.map_map, List.append_assoc]
  rfl

/-- C16 (written header), amended: for a table whose names array is null or has `ncol`
entries and whose buffer holds the `nrow` valid rows, and for every delimiter, `ftab_print`
writes the header fields of the columns in column order with the delimiter between
consecutive fields and none after the last, then a newline, then one line for each of the
`nrow` rows holding its `ncol` rendered cells joined in the same way.  The field of column
`cc` is its name when one is assigned, and otherwise `col_` followed by the decimal digits
of `cc + 1`. -/
theorem ftab_print_header {α : Type} (fmt : α → List Char) (T : ftab_t α) (sep : List Char)
    (hn : ∀ arr, T.colnames = some arr → arr.length = T.ncol)
    (hT : T.nrow * T.ncol ≤ T.T.length) :
    ftab_print fmt T sep =
      .ok (sep_join sep ((List.range T.ncol).map (header_field T)) ++ ['\n'] ++
        (T.rows.map (fun r => sep_join sep (r.map fmt) ++ ['\n'])).flatten) ∧
    T.rows.length = T.nrow ∧ (∀ r ∈ T.rows, r.length = T.ncol) ∧
    (∀ arr cc s, T.colnames = some arr → arr[cc]? = some (some s) → header_field T cc = s) ∧
    (∀ cc, (∀ arr s, T.colnames = some arr → arr[cc]? ≠ some (some s)) →
      header_field T cc = ['c', 'o', 'l', '_'] ++ Nat.toDigits 10 (cc + 1)) := by
  refine ⟨ftab_print_general fmt T sep hn hT, by simp [ftab_t.rows],
    fun r hr => (rows_mem T hT r hr).1, ?_, ?_⟩
  · intro arr cc s h1 h2
    simp only [header_field, h1, h2]
  · intro cc h
    unfold header_field col_placeholder
    cases hc : T.colnames with
    | none => rfl
    | some arr =>
      simp only
      cases he : arr[cc]? with
      | none => rfl
      | some e =>
        cases e with
        | none => rfl
        | some s => exact absurd he (h arr s hc)

theorem ftab_print_header_witness :
    ftab_print fmt6 (⟨[1000000, 2500000], 1, 2, 1, some [some ['x'], none]⟩ : ftab_t Int) [','] =
      .ok (sep_join [','] ((List.range 2).map
          (header_field (⟨[1000000, 2500000], 1, 2, 1, some [some ['x'], none]⟩ : ftab_t Int))) ++
        ['\n'] ++
        ((⟨[1000000, 2500000], 1, 2, 1, some [some ['x'], none]⟩ : ftab_t Int).rows.map
          (fun r => sep_join [','] (r.map fmt6) ++ ['\n'])).flatten) ∧
    (⟨[1000000, 2500000], 1, 2, 1, some [some ['x'], none]⟩ : ftab_t Int).rows.length = 1 ∧
    (∀ r ∈ (⟨[1000000, 2500000], 1, 2, 1, some [some ['x'], none]⟩ : ftab_t Int).rows,
      r.length = 2) ∧
    (∀ arr cc s,
      (⟨[1000000, 2500000], 1, 2, 1, some [some ['x'], none]⟩ : ftab_t Int).colnames = some arr →
      arr[cc]? = some (some s) →
      header_field (⟨[1000000, 2500000], 1, 2, 1, some [some ['x'], none]⟩ : ftab_t Int) cc = s) ∧
    (∀ cc, (∀ arr s,
      (⟨[1000000, 2500000], 1, 2, 1, some [some ['x'], none]⟩ : ftab_t Int).colnames = some arr →
      arr[cc]? ≠ some (some s)) →
      header_field (⟨[1000000, 2500000], 1, 2, 1, some [some ['x'], none]⟩ : ftab_t Int) cc =
        ['c', 'o', 'l', '_'] ++ Nat.toDigits 10 (cc + 1)) :=
  ftab_print_header fmt6 (⟨[1000000, 2500000], 1, 2, 1, some [some ['x'], none]⟩ : ftab_t Int)
    [','] (by intro arr h; cases h; rfl) (by decide)

/-- C16 (written header), the counterexample: the table that `ftab_new_from_data` builds
from one row of two cells has no names, and `ftab_print` writes the header `col_1,col_2`
for it, which is not the header `column_1,column_2` of the specification. -/
theorem ftab_print_placeholder_counterexample :
    ftab_new_from_data 1 2 ([1000000, 2500000] : List Int) =
      .ok (some ⟨[1000000, 2500000], 1, 2, 1, none⟩) ∧
    ftab_print fmt6 (⟨[1000000, 2500000], 1, 2, 1, none⟩ : ftab_t Int) [','] =
      .ok ("col_1,col_2\n1.000000,2.500000\n").toList ∧
    sep_join [','] ((List.range 2).map
      (spec_header_field (⟨[1000000, 2500000], 1, 2, 1, none⟩ : ftab_t Int))) =
      ("column_1,column_2").toList ∧
    ftab_print fmt6 (⟨[1000000, 2500000], 1, 2, 1, none⟩ : ftab_t Int) [','] ≠
      .ok (sep_join [','] ((List.range 2).map
          (spec_header_field (⟨[1000000, 2500000], 1, 2, 1, none⟩ : ftab_t Int))) ++ ['\n'] ++
        ((⟨[1000000, 2500000], 1, 2, 1, none⟩ : ftab_t Int).rows.map
          (fun r => sep_join [','] (r.map fmt6) ++ ['\n'])).flatten) := by
  refine ⟨by decide, by decide, by decide, by decide⟩

/-! ## Setting a column name -/

/-- C21 (set column name): with a non-null name `s`, `ftab_set_colname` returns the table
unchanged, with a names array that was null still null, when `c < 0` or `c ≥ ncol`.  When
`0 ≤ c < ncol`, on a table whose names array is null or has `ncol` entries, it returns a
table with the same `nrow`, `ncol`, `nrow_alloc` and buffer whose names array has `ncol`
entries, holds `s` at `c`, and at every other column holds the entry it held before, or
the null entry when the array was null before. -/
theorem ftab_set_colname_correct {α : Type} (T : ftab_t α) (c : Int) (s : List Char)
    (hv : ∀ arr, T.colnames = some arr → arr.length = T.ncol) :
    ((c < 0 ∨ (T.ncol : Int) ≤ c) → ftab_set_colname T c (some s) = .ok T) ∧
    (0 ≤ c → c < (T.ncol : Int) →
      ∃ T1 arr1, ftab_set_colname T c (some s) = .ok T1 ∧ T1.nrow = T.nrow ∧
        T1.ncol = T.ncol ∧ T1.nrow_alloc = T.nrow_alloc ∧ T1.T = T.T ∧
        T1.colnames = some arr1 ∧ arr1.length = T.ncol ∧
        arr1[c.toNat]? = some (some s) ∧
        (∀ j, j < T.ncol → j ≠ c.toNat →
          (T.colnames = none → arr1[j]? = some none) ∧
          (∀ arr, T.colnames = some arr → arr1[j]? = arr[j]?))) := by
  constructor
  · intro h
    have h1 : c < 0 ∨ c ≥ (T.ncol : Int) := h
    simp only [ftab_set_colname, h1, if_true]
  · intro h0 h1
    obtain ⟨k, rfl⟩ := Int.eq_ofNat_of_zero_le h0
    have hk : k < T.ncol := by omega
    have hlen : (names_view T).length = T.ncol := by
      unfold names_view
      cases hn : T.colnames with
      | none => simp
      | some a => exact hv a hn
    refine ⟨_, (names_view T).set k (some s), ftab_set_colname_ok T k s hk hlen, rfl, rfl, rfl,
      rfl, rfl, by rw [List.length_set, hlen], ?_, ?_⟩
    · rw [Int.toNat_ofNat, List.getElem?_set_self (by rw [hlen]; exact hk)]
    · intro j hj hne
      rw [Int.toNat_ofNat] at hne
      rw [List.getElem?_set_ne (fun h => hne h.symm)]
      unfold names_view
      constructor
      · intro hn
        rw [hn]
        simp [hj]
      · intro arr hn
        rw [hn]

theorem ftab_set_colname_correct_witness :
    (ftab_set_colname (⟨[7, 8], 1, 2, 1, some [some ['x'], none]⟩ : ftab_t Int) 1 (some ['y']) =
        .ok ⟨[7, 8], 1, 2, 1, some [some ['x'], some ['y']]⟩ ∧
      ftab_set_colname (⟨[7, 8], 1, 2, 1, none⟩ : ftab_t Int) 0 (some ['y']) =
        .ok ⟨[7, 8], 1, 2, 1, some [some ['y'], none]⟩ ∧
      ftab_set_colname (⟨[7, 8], 1, 2, 1, none⟩ : ftab_t Int) 2 (some ['y']) =
        .ok ⟨[7, 8], 1, 2, 1, none⟩) ∧
    (((1 : Int) < 0 ∨
        (((⟨[7, 8], 1, 2, 1, some [some ['x'], none]⟩ : ftab_t Int).ncol : Nat) : Int) ≤ 1) →
      ftab_set_colname (⟨[7, 8], 1, 2, 1, some [some ['x'], none]⟩ : ftab_t Int) 1
          (some ['y']) = .ok ⟨[7, 8], 1, 2, 1, some [some ['x'], none]⟩) ∧
    ((0 : Int) ≤ 1 →
      (1 : Int) < (((⟨[7, 8], 1, 2, 1, some [some ['x'], none]⟩ : ftab_t Int).ncol : Nat) : Int) →
      ∃ T1 arr1, ftab_set_colname (⟨[7, 8], 1, 2, 1, some [some ['x'], none]⟩ : ftab_t Int) 1
          (some ['y']) = .ok T1 ∧ T1.nrow = 1 ∧ T1.ncol = 2 ∧ T1.nrow_alloc = 1 ∧ T1.T = [7, 8] ∧
        T1.colnames = some arr1 ∧ arr1.length = 2 ∧
        arr1[(1 : Int).toNat]? = some (some ['y']) ∧
        (∀ j, j < 2 → j ≠ (1 : Int).toNat →
          ((⟨[7, 8], 1, 2, 1, some [some ['x'], none]⟩ : ftab_t Int).colnames = none →
            arr1[j]? = some none) ∧
          (∀ arr,
            (⟨[7, 8], 1, 2, 1, some [some ['x'], none]⟩ : ftab_t Int).colnames = some arr →
            arr1[j]? = arr[j]?))) :=
  ⟨by decide,
    ftab_set_colname_correct (⟨[7, 8], 1, 2, 1, some [some ['x'], none]⟩ : ftab_t Int) 1 ['y']
      (fun arr h => by cases h; rfl)⟩

/-! ## Buffer bounds of the reader -/

theorem strsep_scan_rest (dlm l : List Char) :
    ((strsep_scan dlm l).2 = none ∧ l.countP (fun c => decide (c ∈ dlm)) = 0) ∨
    ∃ l1, (strsep_scan dlm l).2 = some l1 ∧
      l.countP (fun c => decide (c ∈ dlm)) = l1.countP (fun c => decide (c ∈ dlm)) + 1 := by
  induction l with
  | nil => left; exact ⟨rfl, rfl⟩
  | cons c cs ih =>
    by_cases h : c ∈ dlm
    · right
      refine ⟨cs, by simp only [strsep_scan, h, if_true], ?_⟩
      rw [List.countP_cons_of_pos _ _ (by simpa using h)]
    · have e : (strsep_scan dlm (c :: cs)).2 = (strsep_scan dlm cs).2 := by
        simp only [strsep_scan, h, if_false]
      rw [e, List.countP_cons_of_neg _ _ (by simpa using h)]
      exact ih

theorem parse_col_names_loop_any (dlm : List Char) (m : Nat) :
    ∀ (k : Nat) (lp : Option (List Char)) (arr : List (Option (List Char))),
      m ≤ lp.elim 0 (fun l => 1 + l.countP (fun c => decide (c ∈ dlm))) →
      k + m ≤ arr.length →
      ∃ st, for_loop (parse_col_names_token dlm) m k (lp, arr) = .ok st ∧
        st.2.length = arr.length := by
  induction m with
  | zero => intro k lp arr _ _; exact ⟨(lp, arr), rfl, rfl⟩
  | succ m ih =>
    intro k lp arr hm hk
    cases lp with
    | none => simp at hm
    | some l =>
      simp only [Option.elim] at hm
      have hk1 : k < arr.length := by omega
      have hstep : parse_col_names_token dlm k (some l, arr) =
          .ok ((strsep_scan dlm l).2, arr.set k (some (trim_whitespace (strsep_scan dlm l).1))) := by
        simp only [parse_col_names_token, strsep, hk1, if_true]
      have hm1 : m ≤ (strsep_scan dlm l).2.elim 0
          (fun l => 1 + l.countP (fun c => decide (c ∈ dlm))) := by
        rcases strsep_scan_rest dlm l with ⟨h1, h2⟩ | ⟨l1, h1, h2⟩
        · omega
        · rw [h1]
          simp only [Option.elim]
          omega
      obtain ⟨st, h1, h2⟩ := ih (k + 1) (strsep_scan dlm l).2
        (arr.set k (some (trim_whitespace (strsep_scan dlm l).1))) hm1
        (by rw [List.length_set]; omega)
      refine ⟨st, ?_, by rw [h2, List.length_set]⟩
      rw [for_loop, hstep]
      exact h1

theorem parse_col_names_any {α : Type} (T : ftab_t α) (line dlm : List Char) (h : line ≠ []) :
    ∃ names, parse_col_names T line dlm =
        .ok ({ T with ncol := 1 + line.countP (fun c => decide (some c = dlm.head?)),
                      colnames := some names },
          1 + line.countP (fun c => decide (some c = dlm.head?))) ∧
      names.length = 1 + line.countP (fun c => decide (some c = dlm.head?)) := by
  have hmono : line.countP (fun c => decide (some c = dlm.head?)) ≤
      line.countP (fun c => decide (c ∈ dlm)) := by
    apply List.countP_mono_left
    intro c _ hc
    cases dlm with
    | nil => simp at hc
    | cons d ds =>
      simp only [List.head?_cons, Option.some.injEq, decide_eq_true_eq] at hc
      simp [hc]
  obtain ⟨st, h1, h2⟩ := parse_col_names_loop_any dlm
    (1 + line.countP (fun c => decide (some c = dlm.head?))) 0 (some line)
    (List.replicate (1 + line.countP (fun c => decide (some c = dlm.head?))) none)
    (by simp only [Option.elim]; omega) (by simp)
  have hl : ¬(line.length = 0) := by
    intro h0; exact h (List.length_eq_zero.mp h0)
  refine ⟨st.2, ?_, by rw [h2, List.length_replicate]⟩
  simp only [parse_col_names, hl, if_false, h1]

theorem parse_floats_loop_safe {α : Type} (atof : List Char → α) (dlm : List Char) (off : Nat)
    (n : Nat) :
    ∀ (kk : Nat) (l : Option (List Char)) (buf : List α), off + kk + n ≤ buf.length →
      ∃ buf1 r, parse_floats_loop atof dlm off n kk l buf = .ok (buf1, r) ∧
        buf1.length = buf.length ∧ r ≤ 1 := by
  induction n with
  | zero => intro kk l buf _; exact ⟨buf, 1, rfl, rfl, le_refl _⟩
  | succ n ih =>
    intro kk l buf hb
    rcases hs : strsep l dlm with ⟨_ | f, l1⟩
    · exact ⟨buf, 0, by simp only [parse_floats_loop, hs], rfl, by omega⟩
    · have hi : off + kk < buf.length := by omega
      obtain ⟨buf1, r, h1, h2, h3⟩ := ih (kk + 1) l1 (buf.set (off + kk) (atof f))
        (by rw [List.length_set]; omega)
      refine ⟨buf1, r, ?_, by rw [h2, List.length_set], h3⟩
      simp only [parse_floats_loop, hs, store, hi, if_true]
      exact h1

theorem parse_floats_safe {α : Type} (atof : List Char → α) (dlm l : List Char) (buf : List α)
    (off nval : Nat) (hn : 1 ≤ nval) (hb : off + nval ≤ buf.length) :
    ∃ buf1 r, parse_floats atof l buf off nval dlm = .ok (buf1, r) ∧
      buf1.length = buf.length ∧ r ≤ 1 := by
  have hi : off < buf.length := by omega
  obtain ⟨buf1, r, h1, h2, h3⟩ := parse_floats_loop_safe atof dlm off (nval - 1) 1
    (strsep_scan dlm l).2 (buf.set off (atof (strsep_scan dlm l).1))
    (by rw [List.length_set]; omega)
  refine ⟨buf1, r, ?_, by rw [h2, List.length_set], h3⟩
  simp only [parse_floats, strsep, store, hi, if_true]
  exact h1

theorem read_rows_safe {α : Type} (atof : List Char → α) (dlm : List Char) (ncol nrows : Nat)
    (hn : 1 ≤ ncol) :
    ∀ (lines : List (List Char)) (buf : List α) (row : Nat),
      buf.length = nrows * ncol → row + lines.length ≤ nrows →
      ∃ buf1 row1, read_rows atof dlm ncol lines buf row = .ok (buf1, row1) ∧
        buf1.length = buf.length ∧ row1 ≤ row + lines.length ∧
        ∀ s ∈ read_rows_slots atof dlm ncol lines buf row, s < row + lines.length := by
  intro lines
  induction lines with
  | nil =>
    intro buf row _ _
    exact ⟨buf, row, rfl, rfl, by simp, by simp [read_rows_slots]⟩
  | cons line rest ih =>
    intro buf row hb hr
    rw [List.length_cons] at hr
    by_cases h0 : (cstr line).length = 0
    · obtain ⟨buf1, row1, h1, h2, h3, h4⟩ := ih buf row hb (by omega)
      refine ⟨buf1, row1, by simp only [read_rows, h0, if_true]; exact h1, h2,
        by rw [List.length_cons]; omega, ?_⟩
      intro s hs
      simp only [read_rows_slots, h0, if_true] at hs
      have := h4 s hs
      rw [List.length_cons]; omega
    · have hoff : row * ncol + ncol ≤ buf.length := by
        have : (row + 1) * ncol ≤ nrows * ncol := Nat.mul_le_mul_right _ (by omega)
        rw [hb]
        calc row * ncol + ncol = (row + 1) * ncol := by ring
          _ ≤ nrows * ncol := this
      obtain ⟨b1, r, p1, p2, p3⟩ := parse_floats_safe atof dlm (cstr line) buf (row * ncol) ncol
        hn hoff
      obtain ⟨buf1, row1, h1, h2, h3, h4⟩ := ih b1 (row + r) (by rw [p2]; exact hb) (by omega)
      refine ⟨buf1, row1, by simp only [read_rows, h0, if_false, p1]; exact h1,
        by rw [h2, p2], by rw [List.length_cons]; omega, ?_⟩
      intro s hs
      simp only [read_rows_slots, h0, if_false, p1, List.mem_cons] at hs
      rw [List.length_cons]
      rcases hs with hs | hs
      · omega
      · have := h4 s hs
        omega

theorem read_rows_no_columns {α : Type} (atof : List Char → α) (dlm : List Char) :
    ∀ (lines : List (List Char)) (row : Nat), (∃ line ∈ lines, cstr line ≠ []) →
      read_rows atof dlm 0 lines ([] : List α) row = .error .memory_fault := by
  intro lines
  induction lines with
  | nil => intro row h; obtain ⟨_, h1, _⟩ := h; cases h1
  | cons line rest ih =>
    intro row h
    by_cases h0 : (cstr line).length = 0
    · have hr : ∃ l ∈ rest, cstr l ≠ [] := by
        obtain ⟨l, h1, h2⟩ := h
        rcases List.mem_cons.mp h1 with rfl | h1
        · exact absurd (List.length_eq_zero.mp h0) h2
        · exact ⟨l, h1, h2⟩
      simp only [read_rows, h0, if_true]
      exact ih row hr
    · simp only [read_rows, h0, if_false, parse_floats, strsep, store, List.length_nil,
        Nat.mul_zero, Nat.lt_irrefl]

/-! ## Buffer bounds of the parsed table -/

/-- C22 (parse stays inside its buffer): let `getline` split the file into the header line
`hdr` and the lines `rest`, for any delimiter string.  If the header holds a non-empty
string, `ftab_from_dlm` returns a table with at least one column, `nrow_alloc` equal to the
number of newlines in the file plus one and a buffer of `nrow_alloc * ncol` cells; every
row slot handed to `parse_floats` has an index below `nrow_alloc`, and `nrow` is at most
`nrow_alloc` and at most the number of lines after the header.  If the header line starts
with a NUL character, so that it holds the empty string, and a later line holds a non-empty
string, the table has no columns and a buffer of no cells, and `parse_floats` writes
`row[0]` outside it. -/
theorem ftab_from_dlm_slots_within_buffer {α : Type} [Zero α] (atof : List Char → α)
    (dlm text hdr : List Char) (rest : List (List Char)) (hg : getlines text = hdr :: rest) :
    (cstr hdr ≠ [] →
      ∃ T, ftab_from_dlm atof (some text) dlm = .ok (some T) ∧ 1 ≤ T.ncol ∧
        T.nrow_alloc = count_newlines text + 1 ∧ T.T.length = T.nrow_alloc * T.ncol ∧
        (∀ s ∈ read_rows_slots atof dlm T.ncol rest (calloc (T.nrow_alloc * T.ncol)) 0,
          s < T.nrow_alloc) ∧
        T.nrow ≤ T.nrow_alloc ∧ T.nrow ≤ rest.length) ∧
    (cstr hdr = [] → (∃ line ∈ rest, cstr line ≠ []) →
      ftab_from_dlm atof (some text) dlm = .error .memory_fault) := by
  have hlen := getlines_length_le text
  rw [hg, List.length_cons] at hlen
  have hcn : rest.length ≤ count_newlines text := by unfold count_newlines; omega
  constructor
  · intro hh
    obtain ⟨names, hp, _⟩ := parse_col_names_any (⟨[], 0, 0, 0, none⟩ : ftab_t α) (cstr hdr) dlm hh
    obtain ⟨buf1, row1, h1, h2, h3, h4⟩ := read_rows_safe atof dlm
      (1 + (cstr hdr).countP (fun c => decide (some c = dlm.head?))) (count_newlines text + 1)
      (by omega) rest
      (calloc ((count_newlines text + 1) *
        (1 + (cstr hdr).countP (fun c => decide (some c = dlm.head?))))) 0
      (by simp [calloc]) (by omega)
    rw [Nat.zero_add] at h3 h4
    have hcl : (calloc ((count_newlines text + 1) *
        (1 + (cstr hdr).countP (fun c => decide (some c = dlm.head?)))) : List α).length =
        (count_newlines text + 1) *
          (1 + (cstr hdr).countP (fun c => decide (some c = dlm.head?))) := by
      simp [calloc]
    refine ⟨⟨buf1, row1, 1 + (cstr hdr).countP (fun c => decide (some c = dlm.head?)),
      count_newlines text + 1, some names⟩, ?_, ?_, rfl, ?_, ?_, ?_, h3⟩
    · simp only [ftab_from_dlm, hg, hp, h1]
    · show 1 ≤ 1 + (cstr hdr).countP (fun c => decide (some c = dlm.head?))
      omega
    · show buf1.length = _
      rw [h2, hcl]
    · intro s hs
      have := h4 s hs
      show s < count_newlines text + 1
      omega
    · show row1 ≤ count_newlines text + 1
      omega
  · intro hh hl
    have hp : parse_col_names (⟨[], 0, 0, 0, none⟩ : ftab_t α) (cstr hdr) dlm =
        .ok (⟨[], 0, 0, 0, none⟩, 0) := by
      simp only [parse_col_names, hh, List.length_nil, if_true]
    have hc : (calloc ((count_newlines text + 1) * 0) : List α) = [] := rfl
    simp only [ftab_from_dlm, hg, hp, hc, read_rows_no_columns atof dlm rest 0 hl]

theorem ftab_from_dlm_slots_within_buffer_witness :
    (ftab_from_dlm atof6 (some ['x', '\n', '7', '\n', '8']) [','] =
        .ok (some ⟨[7000000, 8000000, 0], 2, 1, 3, some [some ['x']]⟩) ∧
      read_rows_slots atof6 [','] 2 [['7', '\n'], ['1', ',', '2', '\n']]
        (calloc (3 * 2) : List Int) 0 = [0, 0]) ∧
    (∃ T, ftab_from_dlm atof6 (some ['x', ',', 'y', '\n', '7', '\n', '1', ',', '2', '\n'])
        [','] = .ok (some T) ∧ 1 ≤ T.ncol ∧
      T.nrow_alloc =
        count_newlines ['x', ',', 'y', '\n', '7', '\n', '1', ',', '2', '\n'] + 1 ∧
      T.T.length = T.nrow_alloc * T.ncol ∧
      (∀ s ∈ read_rows_slots atof6 [','] T.ncol [['7', '\n'], ['1', ',', '2', '\n']]
          (calloc (T.nrow_alloc * T.ncol)) 0,
        s < T.nrow_alloc) ∧
      T.nrow ≤ T.nrow_alloc ∧ T.nrow ≤ [['7', '\n'], ['1', ',', '2', '\n']].length) ∧
    ftab_from_dlm atof6 (some [Char.ofNat 0, '\n', '1', '\n']) [','] =
      .error .memory_fault :=
  ⟨by decide,
    (ftab_from_dlm_slots_within_buffer atof6 [',']
      ['x', ',', 'y', '\n', '7', '\n', '1', ',', '2', '\n'] ['x', ',', 'y', '\n']
      [['7', '\n'], ['1', ',', '2', '\n']] (by decide)).1 (by decide),
    (ftab_from_dlm_slots_within_buffer atof6 [','] [Char.ofNat 0, '\n', '1', '\n']
      [Char.ofNat 0, '\n'] [['1', '\n']] (by decide)).2 (by decide)
      ⟨['1', '\n'], List.mem_singleton.mpr rfl, by decide⟩⟩


end Ftab
